import Mathlib

/-!
# Commitment accumulator and shielded-transaction pipeline

A shallow embedding of `blockchain/incrementalmerkle.go`, of the validation
methods of `blockchain/validation.go` (`ValidateDoubleSpend`, `IsSalaryTx`, the
loan validations and the dividend payout), of the transaction code of
`transaction/tx.go` (hashing, signing, validation and `CreateTx`) and
`transaction/txloanpayment.go`, of `parseInfoForSetBytes` of
`privacy/coin/coin_util.go` and of the conversion proof of
`privacy/privacy_v2/conversion_v1_v2.go` (`Bytes`, `SetBytes`, `Verify`),
followed by the properties of the specification settled on them.

Conventions of the embedding:

* a Go `[]byte` is an `Option (List (Fin 256))`, the nil slice being `none`,
  because the accumulator branches on `sibling != nil`;
* `uint64` values are natural numbers, every addition reduced modulo `2 ^ 64`;
* a method with a pointer receiver takes the tree and returns the tree it
  leaves behind whenever the property at hand speaks about that state;
* an entry of the slice `paymentInfo` of `CreateTx`, a pointer that the code
  writes through, is the address together with the struct it points to, and a
  write through a pointer reaches every entry that holds the same address.
-/

namespace Incognito

/-! ## Data model -/

/-- Contents of a non-nil Go byte slice. -/
abbrev Bytes := List (Fin 256)

/-- Go `[]byte`: `none` is the nil slice, `some bs` a non-nil slice. -/
abbrev Slice := Option Bytes

/-- Modelled from the spec: the declaration of `common.Hasher` is outside the
sources at hand; the accumulator calls it with one slice (leaf) or two slices
(inner node) and stores what it returns as a `[]byte`, so it is a variadic
function from byte slices to a byte slice. -/
abbrev Hasher := List Slice → Slice

/-- Hasher contract of the specification (sections 3 and 4.A): the digest is a
32-byte value, in particular never the nil slice. Only the latter is needed. -/
def Hasher.NonNil (hasher : Hasher) : Prop := ∀ args, hasher args ≠ none

/-- Wrap-around bound of `uint64`. -/
def u64 : Nat := 2 ^ 64

/-- Struct `IncrementalMerkleTree`: `nodes [][]byte`, `length uint64`, `hasher`. -/
structure IncrementalMerkleTree where
  nodes : List Slice
  length : Nat
  hasher : Hasher

/-- Function `NewIncrementalMerkleTree`. -/
def NewIncrementalMerkleTree (hasher : Hasher) : IncrementalMerkleTree :=
  { nodes := [], length := 0, hasher := hasher }

/-- Function `InitIncrementalMerkleTree`. -/
def InitIncrementalMerkleTree (hasher : Hasher) (nodes : List Slice) (length : Nat) :
    IncrementalMerkleTree :=
  { nodes := nodes, length := length, hasher := hasher }

/-! ## `Add` -/

/-- Inner loop of `Add` (`for i, sibling := range tree.nodes`), started with the
running hash `h`. Returns the rewritten frontier, the final running hash and the
flag `added`. The local `pos` of the source is halved but never read, so it is
left out. -/
def addLoop (hasher : Hasher) : List Slice → Slice → List Slice × Slice × Bool
  | [], h => ([], h, false)
  | none :: rest, h => (h :: rest, h, true)
  | some s :: rest, h =>
    let r := addLoop hasher rest (hasher [some s, h])
    (none :: r.1, r.2.1, r.2.2)

/-- One round of the outer loop of `Add` once the running hash is known: the
inner loop, then `if !added { tree.nodes = append(tree.nodes, h) }`. -/
def addFrom (hasher : Hasher) (nodes : List Slice) (h : Slice) : List Slice :=
  let r := addLoop hasher nodes h
  if r.2.2 then r.1 else r.1 ++ [r.2.1]

/-- Body of the outer loop of `Add` for the datum `d`. -/
def addOne (hasher : Hasher) (nodes : List Slice) (d : Slice) : List Slice :=
  addFrom hasher nodes (hasher [d])

/-- Method `IncrementalMerkleTree.Add`. -/
def IncrementalMerkleTree.Add (tree : IncrementalMerkleTree) (data : List Slice) :
    IncrementalMerkleTree :=
  { tree with
    nodes := data.foldl (addOne tree.hasher) tree.nodes
    length := (tree.length + data.length) % u64 }

/-! ## `SimulateAdd` -/

/-- Loop of `SimulateAdd`. State: running hash `h`, index `id`, the lists
`updatedNodes` and `updatedIdxs`; the result also carries the flag `added`. -/
def simLoop (hasher : Hasher) :
    List Slice → Slice → Nat → List Slice → List Nat → List Slice × List Nat × Slice × Nat × Bool
  | [], h, id, un, ui => (un, ui, h, id, false)
  | sibling :: rest, h, id, un, ui =>
    match sibling with
    | some s => simLoop hasher rest (hasher [some s, h]) (id / 2) (un ++ [h]) (ui ++ [id])
    | none => (un ++ [h], ui ++ [id], h, id / 2, true)

/-- Method `IncrementalMerkleTree.SimulateAdd`: the result triple
`(updatedNodes, updatedIdxs, err)` (with `err = none` for Go's nil error) and the
tree after the call. The source assigns to no field of the tree. -/
def IncrementalMerkleTree.SimulateAdd (tree : IncrementalMerkleTree) (data : Slice) :
    (List Slice × List Nat × Option String) × IncrementalMerkleTree :=
  let r := simLoop tree.hasher tree.nodes (tree.hasher [data]) tree.length [] []
  let out : List Slice × List Nat :=
    if r.2.2.2.2 then (r.1, r.2.1) else (r.1 ++ [r.2.2.1], r.2.1 ++ [r.2.2.2.1])
  ((out.1, out.2, none), tree)

/-! ## `GetPathToRoot`, `GetRoot`, `GetLength` -/

/-- First loop of `GetPathToRoot`: position and value of the first non-nil
frontier entry, scanning from index `i`. -/
def firstNonNil : List Slice → Nat → Option (Nat × Bytes)
  | [], _ => none
  | none :: rest, i => firstNonNil rest (i + 1)
  | some s :: _, i => some (i, s)

/-- Second loop of `GetPathToRoot` (`for i, sibling := range tree.nodes[k+1:]`).
The local `id` of the source is never read and is left out. -/
def climbLoop (hasher : Hasher) (k : Nat) :
    List Slice → Nat → Slice → List Slice → Slice × List Slice
  | [], _, root, paths => (root, paths)
  | sibling :: rest, i, root, paths =>
    let sib := match sibling with
      | none => root
      | some s => some s
    let root2 := hasher [sib, root]
    climbLoop hasher k rest (i + 1) root2 (paths.set (k + i + 2) root2)

/-- Method `IncrementalMerkleTree.GetPathToRoot`. -/
def IncrementalMerkleTree.GetPathToRoot (tree : IncrementalMerkleTree) : List Slice :=
  let paths0 : List Slice := List.replicate (tree.nodes.length + 1) none
  let st : Slice × Nat × List Slice :=
    match firstNonNil tree.nodes 0 with
    | some (i, s) => (some s, i, paths0.set i (some s))
    | none => (none, 0, paths0)
  let root := st.1
  let k := st.2.1
  let paths1 := st.2.2
  if k + 1 ≥ tree.nodes.length then
    paths1.set (paths1.length - 1) root
  else
    let root2 := tree.hasher [root, root]
    (climbLoop tree.hasher k (tree.nodes.drop (k + 1)) 0 root2 (paths1.set (k + 1) root2)).2

/-- Method `IncrementalMerkleTree.GetRoot`. -/
def IncrementalMerkleTree.GetRoot (tree : IncrementalMerkleTree) : Slice :=
  if tree.length = 0 then some (List.replicate 32 0)
  else
    let paths := tree.GetPathToRoot
    paths.getD (paths.length - 1) none

/-- Method `IncrementalMerkleTree.GetLength`. -/
def IncrementalMerkleTree.GetLength (tree : IncrementalMerkleTree) : Nat :=
  tree.length

/-! ## Sequences of `Add` calls -/

/-- State reached from a new tree by the calls `Add(batches[0])`,
`Add(batches[1])`, and so on. -/
def afterAdds (hasher : Hasher) (batches : List (List Slice)) : IncrementalMerkleTree :=
  batches.foldl IncrementalMerkleTree.Add (NewIncrementalMerkleTree hasher)

/-! ## The naive full-tree builder of the specification -/

/-- One level of the naive builder: hash adjacent pairs `(left, right)`, an
unpaired last node being paired with a copy of itself. -/
def naiveLevel (hasher : Hasher) : List Slice → List Slice
  | [] => []
  | [x] => [hasher [x, x]]
  | x :: y :: rest => hasher [x, y] :: naiveLevel hasher rest

/-- Repeat `naiveLevel` until a single node remains; `none` when the list is
empty or the fuel runs out before that. -/
def naiveReduce (hasher : Hasher) : Nat → List Slice → Option Slice
  | _, [] => none
  | _, [x] => some x
  | 0, _ :: _ :: _ => none
  | fuel + 1, x :: y :: rest => naiveReduce hasher fuel (naiveLevel hasher (x :: y :: rest))

/-- Root of the naive full-tree builder over the leaves `data`: every leaf is
hashed with the one-argument hasher, then the levels are folded. -/
def naiveRoot (hasher : Hasher) (data : List Slice) : Option Slice :=
  naiveReduce hasher data.length (data.map fun d => hasher [d])

/-! ## The persistence protocol -/

/-- Modelled from the spec: the key/value store of the persistence protocol
(section 4.C) is not part of the sources; it maps `(level, index)` to the hash
last written there, `none` meaning that nothing was written. -/
abbrev Store := Nat → Nat → Option Slice

/-- The empty store. -/
def Store.empty : Store := fun _ _ => none

/-- Assignment `store[(level, idx)] := v`. -/
def Store.put (st : Store) (level idx : Nat) (v : Slice) : Store :=
  fun l i => if l = level ∧ i = idx then some v else st l i

/-- For every `i` in turn, `store[(lvl + i, idxs[i])] := ns[i]`. -/
def writeNodes (st : Store) : Nat → List Slice → List Nat → Store
  | _, [], _ => st
  | _, _ :: _, [] => st
  | lvl, n :: ns, i :: idxs => writeNodes (st.put lvl i n) (lvl + 1) ns idxs

/-- One step of the persistence protocol for the leaf `d`: take
`(ns, idxs) = SimulateAdd(d)`, write them to the store, then `Add([d])`. -/
def persistStep (s : Store × IncrementalMerkleTree) (d : Slice) :
    Store × IncrementalMerkleTree :=
  let r := s.2.SimulateAdd d
  (writeNodes s.1 0 r.1.1 r.1.2.1, r.2.Add [d])

/-- The persistence protocol run over the leaves `ds`, from an empty tree and
an empty store. -/
def persistRun (hasher : Hasher) (ds : List Slice) : Store × IncrementalMerkleTree :=
  ds.foldl persistStep (Store.empty, NewIncrementalMerkleTree hasher)

/-- Frontier rebuilt from the store and the length `L` alone: one entry per bit
of `L`, read at `(i, L div 2^i - 1)` where bit `i` is 1 and nil elsewhere. -/
def rebuildFrontier (st : Store) (L : Nat) : List Slice :=
  (List.range (Nat.size L)).map fun i =>
    if L / 2 ^ i % 2 = 1 then (st i (L / 2 ^ i - 1)).getD none else none

/-! ## Transactions and double-spend validation -/

/-- Outcome of a Go call that may panic (here: a failed type assertion). -/
inductive GoResult (α : Type) where
  | returned (a : α)
  | panicked
  deriving DecidableEq, Repr

/-- Go's `bytes.Equal`: equal contents, a nil slice being equal to an empty one. -/
def bytesEqual (a b : Slice) : Bool := a.getD [] == b.getD []

/-- Struct `client.Note`, declared outside the sources at hand, with the fields
that `tx.go` reads or assigns: the value (`uint64`), the paying address, the
nullifier and the commitment. The fields `Rho`, `R` and `Memo` only feed the
prover and are left out. -/
structure Note where
  Value : Nat
  Apk : Slice
  Nf : Slice
  Cm : Slice
  deriving DecidableEq, Repr

/-- Struct `JoinSplitDesc`, as far as the modelled functions read it: the
anchors, nullifiers and commitments (`[][]byte`), the reward (`uint64`) and the
plaintext notes (field `note`, read by `CreateTx`). Its declaration is outside
the sources at hand; the other fields are those assigned in
`Tx.buildJSDescAndEncrypt`, the opaque proof and ciphertext fields being left
out. The exported field `Note` is the slice of plaintext notes that
`txloanpayment.go` and `validation.go` read (`none` for the nil slice, the
pointers in it being non-nil). -/
structure JoinSplitDesc where
  Anchor : List Slice
  Nullifiers : List Slice
  Commitments : List Slice
  Reward : Nat
  note : List Note := []
  Note : Option (List Note) := none
  deriving DecidableEq, Repr

/-- Struct `client.PublicKey`, declared outside the sources at hand: the two
coordinates, non-negative `big.Int` values. -/
structure PublicKey where
  X : Nat
  Y : Nat
  deriving DecidableEq, Repr

/-- Struct `client.PrivateKey`, declared outside the sources at hand: the public
key and the secret scalar. -/
structure PrivateKey where
  PublicKey : PublicKey
  D : Nat
  deriving DecidableEq, Repr

/-- Struct `client.EcdsaSignature`: the two non-negative `big.Int` values `R`
and `S`. -/
structure EcdsaSignature where
  R : Nat
  S : Nat
  deriving DecidableEq, Repr

/-- Struct `Tx`; the field `Type` is spelled `Type_`, and `Descs` holds non-nil
pointers. The unexported fields are `txId` (a `*common.Hash`, `none` for nil,
otherwise the 32 bytes of the array) and `sigPrivKey` (`none` for nil). -/
structure Tx where
  Version : Int
  Type_ : String
  LockTime : Int
  Fee : Nat
  Descs : List JoinSplitDesc
  JSPubKey : Slice
  JSSig : Slice
  AddressLastByte : Fin 256
  txId : Option Bytes := none
  sigPrivKey : Option PrivateKey := none
  deriving DecidableEq, Repr

/-- Struct `LoanPayment`. -/
structure LoanPayment where
  LoanID : Slice
  PayPrinciple : Bool
  deriving DecidableEq, Repr

/-- Modelled from the spec: struct `LoanParams` is declared outside the sources
at hand; `ValidateTxLoanRequest` only compares two values of it with `!=`, so
the fields are placeholders of a comparable struct. -/
structure LoanParams where
  InterestRate : Nat
  Maturity : Nat
  LiquidationStart : Nat
  deriving DecidableEq, Repr

/-- Modelled from the spec: type `ValidLoanResponse` is declared outside the
sources at hand; `ValidateTxLoanWithdraw` compares a response with the constant
`transaction.Accept`, and section 3.H names the statuses accepted and
rejected. -/
inductive ValidLoanResponse where
  | Accept
  | Reject
  deriving DecidableEq, Repr

/-- Struct `LoanRequest`, declared outside the sources at hand, with the fields
that `validation.go` reads. -/
structure LoanRequest where
  Params : LoanParams
  LoanID : Slice
  KeyDigest : Slice
  deriving DecidableEq, Repr

/-- Struct `LoanResponse`, declared outside the sources at hand, with the fields
that `validation.go` reads. -/
structure LoanResponse where
  LoanID : Slice
  Response : ValidLoanResponse
  deriving DecidableEq, Repr

/-- Struct `LoanWithdraw`, declared outside the sources at hand, with the fields
that `validation.go` reads. -/
structure LoanWithdraw where
  LoanID : Slice
  Key : Slice
  deriving DecidableEq, Repr

/-- Modelled from the spec: the string constants `common.TxNormalType`,
`common.TxRegisterCandidateType` and `common.TxLoanPayment` are declared outside
the sources at hand; they are distinct type tags (section 9), the spellings
below being placeholders. -/
def TxNormalType : String := "n"

/-- See `TxNormalType`. -/
def TxRegisterCandidateType : String := "rc"

/-- See `TxNormalType`. -/
def TxLoanPaymentType : String := "lp"

/-- See `TxNormalType`: the constant `common.TxSalaryType`. -/
def TxSalaryType : String := "s"

/-- See `TxNormalType`: the constant `common.TxLoanRequest`. -/
def TxLoanRequestType : String := "lr"

/-- See `TxNormalType`: the constant `common.TxLoanResponse`. -/
def TxLoanResponseType : String := "ls"

/-- See `TxNormalType`: the constant `common.TxLoanWithdraw`. -/
def TxLoanWithdrawType : String := "lw"

/-- See `TxNormalType`: the type tag of a dividend-payout transaction. -/
def TxDividendPayoutType : String := "dp"

/-- Interface `transaction.Transaction`: the dynamic types that
`validation.go` and `txloanpayment.go` name. `TxRegisterCandidate` is
declared outside the sources at hand; it is used through its field `Descs`
only and is represented by an embedded `Tx`, like `TxLoanPayment`.
`TxLoanRequest`, `TxLoanResponse` and `TxLoanWithdraw` are declared outside the
sources at hand too; they are used through the fields of their loan records
only and are represented by these records. `TxDividendPayout`, declared
outside the sources at hand, is used through its field `Descs` only and is
represented by an embedded `Tx`. -/
inductive Transaction where
  | ofTx (tx : Tx)
  | ofTxRegisterCandidate (tx : Tx)
  | ofTxLoanPayment (tx : Tx) (payment : LoanPayment)
  | ofTxLoanRequest (request : LoanRequest)
  | ofTxLoanResponse (response : LoanResponse)
  | ofTxLoanWithdraw (withdraw : LoanWithdraw)
  | ofTxDividendPayout (tx : Tx)
  deriving DecidableEq, Repr

/-- Method `GetType`: `Tx.GetType` returns the field `Type`,
`TxLoanPayment.GetType` the constant `common.TxLoanPayment`.
Modelled from the spec: the method `GetType` of `TxRegisterCandidate`,
`TxLoanRequest`, `TxLoanResponse`, `TxLoanWithdraw` and `TxDividendPayout` is
outside the sources at
hand and returns the tag of the type, as `TxLoanPayment.GetType` does. -/
def Transaction.GetType : Transaction → String
  | .ofTx tx => tx.Type_
  | .ofTxRegisterCandidate _ => TxRegisterCandidateType
  | .ofTxLoanPayment _ _ => TxLoanPaymentType
  | .ofTxLoanRequest _ => TxLoanRequestType
  | .ofTxLoanResponse _ => TxLoanResponseType
  | .ofTxLoanWithdraw _ => TxLoanWithdrawType
  | .ofTxDividendPayout _ => TxDividendPayoutType

/-- Type assertion `tx.(*transaction.Tx)`; `none` when it fails. -/
def Transaction.asTx : Transaction → Option Tx
  | .ofTx tx => some tx
  | _ => none

/-- Type assertion `tx.(*transaction.TxRegisterCandidate)`, giving the embedded
`Tx`; `none` when it fails. -/
def Transaction.asTxRegisterCandidate : Transaction → Option Tx
  | .ofTxRegisterCandidate tx => some tx
  | _ => none

/-- Type assertion `tx.(*transaction.TxLoanPayment)`, giving the loan record;
`none` when it fails. -/
def Transaction.asTxLoanPayment : Transaction → Option LoanPayment
  | .ofTxLoanPayment _ payment => some payment
  | _ => none

/-- Type assertion `tx.(*transaction.TxLoanRequest)`; `none` when it fails. -/
def Transaction.asTxLoanRequest : Transaction → Option LoanRequest
  | .ofTxLoanRequest request => some request
  | _ => none

/-- Type assertion `tx.(*transaction.TxLoanResponse)`; `none` when it fails. -/
def Transaction.asTxLoanResponse : Transaction → Option LoanResponse
  | .ofTxLoanResponse response => some response
  | _ => none

/-- Type assertion `tx.(*transaction.TxLoanWithdraw)`; `none` when it fails. -/
def Transaction.asTxLoanWithdraw : Transaction → Option LoanWithdraw
  | .ofTxLoanWithdraw withdraw => some withdraw
  | _ => none

/-- Type assertion `tx.(*transaction.TxDividendPayout)`, giving the embedded
`Tx`; `none` when it fails. -/
def Transaction.asTxDividendPayout : Transaction → Option Tx
  | .ofTxDividendPayout tx => some tx
  | _ => none

/-- Type `TxViewPoint`, as far as `ValidateDoubleSpend` reads it: the list returned
by `ListNullifiers()`. -/
structure TxViewPoint where
  ListNullifiers : List Slice

/-- Header of a block, as far as `ValidateTxLoanRequest` reads it. -/
structure BlockHeader where
  LoanParams : LoanParams
  deriving DecidableEq, Repr

/-- Block, as far as `ValidateTxLoanRequest` reads it. -/
structure Block where
  Header : BlockHeader
  deriving DecidableEq, Repr

/-- Struct `BestState`, as far as `ValidateTxLoanRequest` reads it: the best
block (a non-nil pointer) and the list `LoanIDs`. -/
structure BestState where
  BestBlock : Block
  LoanIDs : List Slice
  deriving DecidableEq, Repr

/-- Modelled from the spec: type `BlockChain` is declared outside the sources
at hand; the chain is represented by what `validation.go` reads of it.
`FetchTxViewPoint` gives, for each chain id (a byte), the view point of the
chain, or `none` for an error. `BestState` is the slice of the best states of
the chains (non-nil pointers), indexed by chain id.  `GetLoanTxs` is
`config.DataBase.GetLoanTxs` (section 7, `loan/<loan_id> → [tx_hash]`), and
`GetTransactionByHash` returns the last two of the five results of the method
of that name: the transaction (`none` for nil) and the error (`none` for
nil). `GetListTokenHolders`, `GetAccountUTXO` and `GetUTXOReward` are the
methods of these names that the dividend code calls: the holders of a token
(or an error), the UTXOs of an account and the reward marker of a UTXO (a
`uint64`, or an error). -/
structure BlockChain where
  FetchTxViewPoint : Fin 256 → Option TxViewPoint
  BestState : List BestState := []
  GetLoanTxs : Slice → Except String (List Slice) := fun _ => .ok []
  GetTransactionByHash : Bytes → Option Transaction × Option String :=
    fun _ => (none, some "not found")
  GetListTokenHolders : Slice → Except String (List Slice) := fun _ => .ok []
  GetAccountUTXO : Slice → List Slice := fun _ => []
  GetUTXOReward : Slice → Except String Nat := fun _ => .ok 0

/-- Value built by `NewBlockChainError(code, err)`: the name of the error code
and the message. -/
structure BlockChainError where
  code : String
  message : String
  deriving DecidableEq, Repr

/-- Modelled from the spec: `common.SliceBytesExists` is outside the sources at
hand; it reports whether the list of byte slices contains the item
(section 4.D, `contains(shard, nf)`), comparing with `bytes.Equal`, and returns
a nil error on a `[][]byte` argument. -/
def SliceBytesExists (slice : List Slice) (item : Slice) : Bool × Option String :=
  (slice.any fun x => bytesEqual x item, none)

/-- Inner loop of `ValidateDoubleSpend` over the nullifiers of one description;
`none` when the loop ends without returning. The transaction hash printed in the
second message is left out. -/
def checkNullifiers (nullifierDb : List Slice) : List Slice → Option BlockChainError
  | [] => none
  | nullifer :: rest =>
    let r := SliceBytesExists nullifierDb nullifer
    if r.2.isSome then
      some ⟨"CanNotCheckDoubleSpendError", "Can not check double spend for tx"⟩
    else if r.1 then
      some ⟨"CanNotCheckDoubleSpendError", "Nullifiers of transaction already existed"⟩
    else checkNullifiers nullifierDb rest

/-- Outer loop of `ValidateDoubleSpend` over the descriptions. -/
def checkDescs (nullifierDb : List Slice) : List JoinSplitDesc → Option BlockChainError
  | [] => none
  | desc :: rest =>
    match checkNullifiers nullifierDb desc.Nullifiers with
    | some e => some e
    | none => checkDescs nullifierDb rest

/-- Method `BlockChain.ValidateDoubleSpend`. The result is Go's `error`
(`none` for nil), or a panic when a type assertion fails. The hash taken in the
first statement only enters the text of an error message and is left out. -/
def BlockChain.ValidateDoubleSpend (self : BlockChain) (tx : Transaction) (chainID : Fin 256) :
    GoResult (Option BlockChainError) :=
  match self.FetchTxViewPoint chainID with
  | none =>
    .returned (some ⟨"CanNotCheckDoubleSpendError", "Can not check double spend for tx"⟩)
  | some txViewPoint =>
    let nullifierDb := txViewPoint.ListNullifiers
    let descs : GoResult (List JoinSplitDesc) :=
      if tx.GetType = TxNormalType then
        match tx.asTx with
        | some t => .returned t.Descs
        | none => .panicked
      else if tx.GetType = TxRegisterCandidateType then
        match tx.asTxRegisterCandidate with
        | some t => .returned t.Descs
        | none => .panicked
      else .returned []
    match descs with
    | .panicked => .panicked
    | .returned ds => .returned (checkDescs nullifierDb ds)

/-- All nullifiers of a transaction, description after description. -/
def Tx.allNullifiers (t : Tx) : List Slice :=
  t.Descs.flatMap fun d => d.Nullifiers

/-! ## Signing, hashing and validation of a `Tx` -/

/-- Method `Tx.ValidateTransaction`, loop over the descriptions. -/
def validateDescs : List JoinSplitDesc → Bool
  | [] => true
  | desc :: rest => if desc.Reward ≠ 0 then false else validateDescs rest

/-- Method `Tx.ValidateTransaction`: the loop, then `return true` (the body
after the loop is `// TODO: implement`). -/
def Tx.ValidateTransaction (tx : Tx) : Bool := validateDescs tx.Descs

/-- Go's `(*big.Int).Bytes` on a non-negative value, with `fuel` division
steps: the big-endian bytes without leading zeros, accumulated in front of `acc`. -/
def bigIntBytesAux : Nat → Nat → Bytes → Bytes
  | 0, _, acc => acc
  | fuel + 1, n, acc =>
    if n = 0 then acc else bigIntBytesAux fuel (n / 256) (Fin.ofNat (n % 256) :: acc)

/-- Go's `(*big.Int).Bytes`: the big-endian bytes of a non-negative value,
without leading zeros (no byte at all for 0). -/
def bigIntBytes (n : Nat) : Bytes := bigIntBytesAux n n []

/-- Go's `(*big.Int).SetBytes`: the value of a big-endian byte string. -/
def bigIntSetBytes (b : Bytes) : Nat := b.foldl (fun acc x => acc * 256 + x.val) 0

/-- Go's `append(s, xs...)` on byte slices: appending nothing to the nil slice
leaves it nil. -/
def goAppend (s : Slice) (xs : Bytes) : Slice :=
  match s with
  | none => if xs = [] then none else some xs
  | some b => some (b ++ xs)

/-- Function `PubKeyToByteArray`. -/
def PubKeyToByteArray (pubKey : PublicKey) : Slice :=
  goAppend (goAppend none (bigIntBytes pubKey.X)) (bigIntBytes pubKey.Y)

/-- Function `JSSigToByteArray`. -/
def JSSigToByteArray (jsSig : EcdsaSignature) : Slice :=
  goAppend (goAppend none (bigIntBytes jsSig.R)) (bigIntBytes jsSig.S)

/-- Go's slice expression `s[lo:hi]` on a non-nil byte slice `s` whose backing
array holds the bytes `spare` between `len(s)` and `cap(s)`: a run-time panic
when `hi` exceeds the capacity. -/
def sliceExpr (s spare : Bytes) (lo hi : Nat) : GoResult Bytes :=
  if hi ≤ s.length + spare.length then .returned (((s ++ spare).take hi).drop lo)
  else .panicked

/-- Decimal digits of a natural number, as ASCII bytes (`strconv.FormatUint`). -/
def formatUint (n : Nat) : Bytes := (Nat.toDigits 10 n).map fun c => Fin.ofNat c.toNat

/-- Decimal rendering of an integer, as ASCII bytes (`strconv.Itoa`,
`strconv.FormatInt` in base 10): a minus sign for a negative value. -/
def formatInt : Int → Bytes
  | .ofNat n => formatUint n
  | .negSucc n => 45 :: formatUint (n + 1)

/-- Bytes of a Go string held as a Lean string: its UTF-8 encoding. -/
def stringBytes (s : String) : Bytes :=
  s.data.flatMap fun c => (String.utf8EncodeChar c).map fun b => b.val

/-- Go's conversion `string(b)` of a byte `b`: the UTF-8 encoding of the code
point `b`, one byte below 128 and two bytes from 128 on. -/
def runeBytes (b : Fin 256) : Bytes :=
  if b.val < 128 then [b] else [Fin.ofNat (192 + b.val / 64), Fin.ofNat (128 + b.val % 64)]

/-- Oracles of the signing code, all declared outside the sources at hand:
`common.DoubleHashH` (a 32-byte array), `JoinSplitDesc.toString`, `client.Sign`
(one answer of the randomised signer per key and message; the key may be nil)
and `client.VerifySign`. -/
structure SigOracles where
  DoubleHashH : Bytes → Bytes
  descToString : JoinSplitDesc → Bytes
  Sign : Option PrivateKey → Bytes → Except String EcdsaSignature
  VerifySign : PublicKey → Bytes → Nat → Nat → Bool

/-- The string `record` that `Tx.Hash` builds and double-hashes. -/
def Tx.record (o : SigOracles) (tx : Tx) : Bytes :=
  formatInt tx.Version ++ stringBytes tx.Type_ ++ formatInt tx.LockTime ++ formatUint tx.Fee ++
    formatInt tx.Descs.length ++ tx.Descs.flatMap o.descToString ++
    tx.JSPubKey.getD [] ++ tx.JSSig.getD [] ++ runeBytes tx.AddressLastByte

/-- Method `Tx.Hash`. -/
def Tx.Hash (o : SigOracles) (tx : Tx) : Bytes := o.DoubleHashH (tx.record o)

/-- Function `SignTx`: the pair `(*Tx, error)` as an `Except`. `SetTxId` stores
the hash taken while `JSSig` is still nil, and the message signed is a copy of
those 32 bytes. -/
def SignTx (o : SigOracles) (tx : Tx) : Except String Tx :=
  if tx.JSSig ≠ none then .error "Input transaction must be an unsigned one"
  else
    let tx1 : Tx := { tx with txId := some (tx.Hash o) }
    match o.Sign tx1.sigPrivKey (tx.Hash o) with
    | .error e => .error e
    | .ok ecdsaSignature => .ok { tx1 with JSSig := JSSigToByteArray ecdsaSignature }

/-- Function `VerifySign`: the pair `(bool, error)`, or a panic (a slice
expression out of range, or a nil `txId`). The lists `sparePub` and `spareSig`
are the bytes that the backing arrays of `JSPubKey` and `JSSig` hold beyond
their lengths. -/
def VerifySign (o : SigOracles) (sparePub spareSig : Bytes) (tx : Tx) :
    GoResult (Bool × Option String) :=
  match tx.JSSig, tx.JSPubKey with
  | none, _ => .returned (false, some "Input transaction must be an signed one!")
  | some _, none => .returned (false, some "Input transaction must be an signed one!")
  | some sig, some pub =>
    match sliceExpr pub sparePub 0 32, sliceExpr pub sparePub 32 64,
        sliceExpr sig spareSig 0 32, sliceExpr sig spareSig 32 64, tx.txId with
    | .returned x, .returned y, .returned r, .returned s, some hash =>
      .returned
        (o.VerifySign ⟨bigIntSetBytes x, bigIntSetBytes y⟩ hash (bigIntSetBytes r)
          (bigIntSetBytes s), none)
    | _, _, _, _, _ => .panicked

/-! ## `CreateTx` -/

/-- Modelled from the spec: the constant `NumDescInputs` is declared outside the
sources at hand; section 3 gives `N_IN` as 2, and `Tx.buildJSDescAndEncrypt`
reads exactly `inputs[0]` and `inputs[1]`. -/
def NumDescInputs : Nat := 2

/-- Modelled from the spec: the constant `NumDescOutputs` is declared outside
the sources at hand; section 3 gives `N_OUT` as 2, and
`Tx.buildJSDescAndEncrypt` reads exactly `outputs[0]` and `outputs[1]`. -/
def NumDescOutputs : Nat := 2

/-- Struct `client.PaymentAddress`, as far as `CreateTx` reads it. -/
structure PaymentAddress where
  Apk : Slice
  Pkenc : Slice
  deriving DecidableEq, Repr

/-- An entry of the slice `paymentInfo []*client.PaymentInfo`: the struct
`client.PaymentInfo` it points to, as far as `CreateTx` reads it, and the
address `addr` that the pointer holds. Entries with the same address point to
one struct, so they hold the same fields and a write through one of them is
seen through all of them. The pointers are non-nil. -/
structure PaymentInfo where
  PaymentAddress : PaymentAddress
  Amount : Nat
  addr : Nat
  deriving DecidableEq, Repr

/-- Local struct `ChainNote` of `CreateTx`. -/
structure ChainNote where
  note : Note
  chainID : Fin 256
  deriving DecidableEq, Repr

/-- Struct `client.JSInput`: the input note; the spending key and the witness
path only feed the prover and are left out. -/
structure JSInput where
  InputNote : Note
  deriving DecidableEq, Repr

/-- Struct `client.JSOutput`. -/
structure JSOutput where
  EncKey : Slice
  OutputNote : Note
  deriving DecidableEq, Repr

/-- A Go map keyed by a chain id, as the list of its entries in the order in
which they were first inserted; that order stands for the unspecified
iteration order of the map. -/
abbrev GoMap (β : Type) := List (Fin 256 × β)

/-- Map lookup `m[k]` with the "comma ok" result. -/
def GoMap.get? {β : Type} (m : GoMap β) (k : Fin 256) : Option β :=
  match m with
  | [] => none
  | (k2, v) :: rest => if k2 = k then some v else GoMap.get? rest k

/-- Map assignment `m[k] = v`. -/
def GoMap.set {β : Type} (m : GoMap β) (k : Fin 256) (v : β) : GoMap β :=
  match m with
  | [] => [(k, v)]
  | (k2, v2) :: rest => if k2 = k then (k, v) :: rest else (k2, v2) :: GoMap.set rest k v

/-- Statement `m[k] = append(m[k], x)` on a map of slices. -/
def GoMap.push {β : Type} (m : GoMap (List β)) (k : Fin 256) (x : β) : GoMap (List β) :=
  m.set k ((m.get? k).getD [] ++ [x])

/-- Oracles of `CreateTx`, all declared outside the sources at hand: the two
`sort.Slice` calls (which of the orderings allowed by the comparison function
comes out is not specified), the key import `cashec.KeySet`, the commitment of
a note, the witness-path builder (a non-nil map of roots on success), the
prover (on success, the commitments it writes into the output notes), the
random material of the dummy notes and dummy outputs (per description and
slot), the key generator, the clock and `TxVersion` of `NewTxTemplate`, and the
signing oracles. -/
structure TxOracles where
  sortNotes : List ChainNote → List ChainNote
  sortPayments : List PaymentInfo → List PaymentInfo
  ImportKey : Bytes → PaymentAddress
  GetCommitment : Note → Slice
  BuildWitnessPathMultiChain :
    GoMap (List JSInput) → GoMap (List Slice) → Except String (GoMap Slice)
  Prove : List JSInput → List JSOutput → Slice → List Slice → Nat → Nat →
    Except String (List Slice)
  RandNote : Nat → Nat → Note
  RandEncKey : Nat → Nat → Slice
  GenerateKey : Except String PrivateKey
  now : Int
  TxVersion : Int
  sig : SigOracles

/-- Function `createDummyNote`: a note of value 0 around random material. -/
def createDummyNote (r : Note) : Note := { r with Value := 0, Cm := none }

/-- Function `CreateRandomJSOutput`. -/
def CreateRandomJSOutput (r : Note) (encKey : Slice) : JSOutput :=
  { EncKey := encKey, OutputNote := createDummyNote r }

/-- Function `NewTxTemplate`; it panics when the key generator fails. -/
def NewTxTemplate (o : TxOracles) : GoResult Tx :=
  match o.GenerateKey with
  | .error _ => .panicked
  | .ok sigPrivKey =>
    .returned
      { Version := o.TxVersion, Type_ := TxNormalType, LockTime := o.now, Fee := 0, Descs := [],
        JSPubKey := PubKeyToByteArray sigPrivKey.PublicKey, JSSig := none, AddressLastByte := 0,
        txId := none, sigPrivKey := some sigPrivKey }

/-- Method `Tx.buildJSDescAndEncrypt`, which appends the description; it reads
`inputs[0]`, `inputs[1]`, `outputs[0]` and `outputs[1]` and so panics on shorter
lists. The ciphertexts, the ephemeral key and the MACs are left out. -/
def Tx.buildJSDescAndEncrypt (tx : Tx) (inputs : List JSInput) (outputs : List JSOutput)
    (rts : List Slice) (reward : Nat) : GoResult Tx :=
  match inputs, outputs with
  | i0 :: i1 :: _, o0 :: o1 :: _ =>
    .returned
      { tx with
        Descs := tx.Descs ++
          [{ Anchor := rts, Nullifiers := [i0.InputNote.Nf, i1.InputNote.Nf],
             Commitments := [o0.OutputNote.Cm, o1.OutputNote.Cm], Reward := reward }] }
  | _, _ => .panicked

/-- First loop of `Tx.BuildNewJSDesc`, over the inputs of one chain: every input
is gathered with the root `rtMap[chainID]`, an error being returned when the
chain has no root. -/
def gatherChain (rtMap : GoMap Slice) (chainID : Fin 256) :
    List JSInput → List JSInput × List Slice → Except String (List JSInput × List Slice)
  | [], acc => .ok acc
  | input :: rest, acc =>
    match rtMap.get? chainID with
    | none => .error "Commitments merkle root not found for chain"
    | some rt => gatherChain rtMap chainID rest (acc.1 ++ [input], acc.2 ++ [rt])

/-- First loop of `Tx.BuildNewJSDesc`, over the chains of the input map. -/
def gatherInputs (rtMap : GoMap Slice) :
    GoMap (List JSInput) → List JSInput × List Slice → Except String (List JSInput × List Slice)
  | [], acc => .ok acc
  | (chainID, inputList) :: rest, acc =>
    match gatherChain rtMap chainID inputList acc with
    | .error e => .error e
    | .ok acc2 => gatherInputs rtMap rest acc2

/-- Write the commitments returned by the prover into the output notes. -/
def setCms : List JSOutput → List Slice → List JSOutput
  | [], _ => []
  | out :: outs, [] => out :: outs
  | out :: outs, cm :: cms =>
    { out with OutputNote := { out.OutputNote with Cm := cm } } :: setCms outs cms

/-- Method `Tx.BuildNewJSDesc`: on success the transaction with one more
description, and the outputs as the prover leaves them. -/
def Tx.BuildNewJSDesc (o : TxOracles) (tx : Tx) (inputMap : GoMap (List JSInput))
    (outputs : List JSOutput) (rtMap : GoMap Slice) (reward fee : Nat) :
    GoResult (Except String (Tx × List JSOutput)) :=
  match gatherInputs rtMap inputMap ([], []) with
  | .error e => .returned (.error e)
  | .ok (inputs, rts) =>
    if inputs.length ≠ NumDescInputs ∨ outputs.length ≠ NumDescOutputs then
      .returned (.error "Cannot build JSDesc with that many inputs and outputs")
    else
      match o.Prove inputs outputs tx.JSPubKey rts reward fee with
      | .error e => .returned (.error e)
      | .ok cms =>
        match tx.buildJSDescAndEncrypt inputs (setCms outputs cms) rts reward with
        | .panicked => .panicked
        | .returned tx2 => .returned (.ok (tx2, setCms outputs cms))

/-- Arguments of `CreateTx`. A missing key of `rts` is a nil `*common.Hash`;
`nullifiers` is never read. -/
structure CreateTxArgs where
  senderKey : Bytes
  paymentInfo : List PaymentInfo
  rts : GoMap Bytes
  usableTx : GoMap (List Tx)
  nullifiers : GoMap (List Slice)
  commitments : GoMap (List Slice)
  fee : Nat
  senderChainID : Fin 256

/-- Record of one round of the description-building loop of `CreateTx`, taken
where `BuildNewJSDesc` is called: the notes pulled as real inputs, the dummy
inputs, the outputs to payment receivers, the change output, the dummy outputs,
the fee handed to the prover, the roots returned by the witness builder and the
anchors handed to `BuildNewJSDesc`. -/
structure Round where
  realInputs : List ChainNote
  dummyInputs : List JSInput
  payOutputs : List JSOutput
  changeOutput : Option JSOutput
  dummyOutputs : List JSOutput
  feeApply : Nat
  newRts : GoMap Slice
  latestAnchor : GoMap Slice
  deriving DecidableEq, Repr

/-- Variables of the description-building loop of `CreateTx`, with the record of
the rounds completed so far. -/
structure LoopState where
  inputNotes : List ChainNote
  paymentInfo : List PaymentInfo
  commitments : GoMap (List Slice)
  latestAnchor : Option (GoMap Slice)
  tx : Tx
  rounds : List Round

/-- The list `inputNotes` that `CreateTx` gathers from `usableTx`. -/
def gatherNotes (usableTx : GoMap (List Tx)) : List ChainNote :=
  usableTx.flatMap fun e =>
    e.2.flatMap fun tx => tx.Descs.flatMap fun desc =>
      desc.note.map fun note => { note := note, chainID := e.1 }

/-- Sum of `uint64` values as `CreateTx` accumulates it, wrapping at `2 ^ 64`. -/
def sumU64 (vs : List Nat) : Nat := vs.foldl (fun acc v => (acc + v) % u64) 0

/-- Variables of the loop of `CreateTx` that chooses the inputs of a
description, with the notes taken so far (`pulled`, in the order taken). -/
structure Chosen where
  inputNotes : List ChainNote
  inputs : GoMap (List JSInput)
  inputsToBuildWitness : GoMap (List JSInput)
  inputValue : Nat
  numInputNotes : Nat
  pulled : List ChainNote

/-- Loop `for len(inputNotes) > 0 && len(inputs) < NumDescInputs`, with at most
`fuel` iterations (`len(inputNotes)` suffices). `len(inputs)` is the number of
keys of the map. The commitment that the source writes into the input note
further down (`input.InputNote.Cm = client.GetCommitment(input.InputNote)`) is
written here. -/
def chooseInputs (o : TxOracles) : Nat → Chosen → Chosen
  | 0, c => c
  | fuel + 1, c =>
    match c.inputNotes.getLast? with
    | none => c
    | some chainNote =>
      if c.inputs.length < NumDescInputs then
        let input : JSInput :=
          { InputNote := { chainNote.note with Cm := o.GetCommitment chainNote.note } }
        chooseInputs o fuel
          { inputNotes := c.inputNotes.dropLast
            inputs := c.inputs.push chainNote.chainID input
            inputsToBuildWitness := c.inputsToBuildWitness.push chainNote.chainID input
            inputValue := (c.inputValue + chainNote.note.Value) % u64
            numInputNotes := c.numInputNotes + 1
            pulled := c.pulled ++ [chainNote] }
      else c

/-- Dummy inputs added by the loop `for numInputNotes < NumDescInputs` in round
`k`. -/
def dummyInputs (o : TxOracles) (k numInputNotes : Nat) : List JSInput :=
  (List.range (NumDescInputs - numInputNotes)).map fun i =>
    { InputNote := createDummyNote (o.RandNote k (numInputNotes + i)) }

/-- Check that the commitment of every input to witness is in the commitments
list of its chain. -/
def commitmentsFound (commitments : GoMap (List Slice)) (wit : GoMap (List JSInput)) : Bool :=
  wit.all fun e =>
    e.2.all fun input =>
      ((commitments.get? e.1).getD []).any fun c => bytesEqual c input.InputNote.Cm

/-- Loop over `newRts` comparing every root with `rts[chainID][:]`; a chain
without an entry in `rts` is a nil pointer and the slice expression panics. -/
def checkAnchors (rts : GoMap Bytes) : GoMap Slice → GoResult (Except String Unit)
  | [] => .returned (.ok ())
  | (chainID, rt) :: rest =>
    match rts.get? chainID with
    | none => .panicked
    | some h =>
      if bytesEqual rt (some h) then checkAnchors rts rest
      else .returned (.error "Provided anchor doesn't match commitments list")

/-- Assignment `p.Amount = v` through a pointer `p` that holds the address
`addr`: every entry of the slice that holds this address shows the new amount. -/
def writeAmount (ps : List PaymentInfo) (addr v : Nat) : List PaymentInfo :=
  ps.map fun q => if q.addr = addr then { q with Amount := v } else q

/-- Loop `for len(paymentInfo) > 0 && len(outputs) < NumDescOutputs-1 &&
inputValue > 0`; `room` is `NumDescOutputs - 1 - len(outputs)`. Returns the
payments left, the outputs and `inputValue`. The statement
`paymentInfo[len(paymentInfo)-1].Amount = p.Amount - inputValue` writes through
the pointer `p`. -/
def outputLoop : Nat → List PaymentInfo → List JSOutput → Nat →
    List PaymentInfo × List JSOutput × Nat
  | 0, ps, outs, iv => (ps, outs, iv)
  | room + 1, ps, outs, iv =>
    match ps.getLast? with
    | none => (ps, outs, iv)
    | some p =>
      if iv = 0 then (ps, outs, iv)
      else if p.Amount ≤ iv then
        outputLoop room ps.dropLast
          (outs ++ [{ EncKey := p.PaymentAddress.Pkenc,
                      OutputNote := { Value := p.Amount, Apk := p.PaymentAddress.Apk,
                                      Nf := none, Cm := none } }])
          (iv - p.Amount)
      else
        outputLoop room (writeAmount ps p.addr (p.Amount - iv))
          (outs ++ [{ EncKey := p.PaymentAddress.Pkenc,
                      OutputNote := { Value := iv, Apk := p.PaymentAddress.Apk,
                                      Nf := none, Cm := none } }])
          0

/-- Result of the block `if inputValue > 0` of `CreateTx`: the payments left,
the output that pays the last payment exactly (if any), the change output (if
any) and whether the change note is queued as a later input. -/
structure Finish where
  paymentInfo : List PaymentInfo
  exact : Option JSOutput
  change : Option JSOutput
  reuse : Bool

/-- Block `if inputValue > 0` of `CreateTx`. -/
def finishOutputs (sender : PaymentAddress) (ps : List PaymentInfo) (iv : Nat) : Finish :=
  if iv > 0 then
    let changeOut : JSOutput :=
      { EncKey := sender.Pkenc,
        OutputNote := { Value := iv, Apk := sender.Apk, Nf := none, Cm := none } }
    match ps.getLast? with
    | some p =>
      if p.Amount = iv then
        { paymentInfo := ps.dropLast
          exact := some { EncKey := p.PaymentAddress.Pkenc,
                          OutputNote := { Value := p.Amount, Apk := p.PaymentAddress.Apk,
                                          Nf := none, Cm := none } }
          change := none, reuse := false }
      else { paymentInfo := ps, exact := none, change := some changeOut, reuse := true }
    | none => { paymentInfo := ps, exact := none, change := some changeOut, reuse := false }
  else { paymentInfo := ps, exact := none, change := none, reuse := false }

/-- Dummy outputs added by the loop `for len(outputs) < NumDescOutputs` in round
`k`. -/
def dummyOutputs (o : TxOracles) (k numOutputs : Nat) : List JSOutput :=
  (List.range (NumDescOutputs - numOutputs)).map fun i =>
    CreateRandomJSOutput (o.RandNote k (NumDescInputs + numOutputs + i))
      (o.RandEncKey k (numOutputs + i))

/-- Statements of `CreateTx` before the description-building loop: the sums,
the funds check and `NewTxTemplate`. -/
def CreateTx.init (o : TxOracles) (a : CreateTxArgs) : GoResult (Except String LoopState) :=
  let value := sumU64 (a.paymentInfo.map fun p => p.Amount)
  let inputNotes := gatherNotes a.usableTx
  let sumInputValue := sumU64 (inputNotes.map fun n => n.note.Value)
  if sumInputValue < (value + a.fee) % u64 then
    .returned (.error "Input value less than output value")
  else
    match NewTxTemplate o with
    | .panicked => .panicked
    | .returned tx =>
      .returned (.ok
        { inputNotes := inputNotes, paymentInfo := a.paymentInfo, commitments := a.commitments,
          latestAnchor := none, tx := { tx with AddressLastByte := a.senderChainID },
          rounds := [] })

/-- Variables of `CreateTx` at the end of a round of its loop that built a
description: the notes left with the queued change note, the payments left, the
commitments list extended by the commitments of the outputs, the anchors, the
transaction, and one more record of a round. The change note is queued here,
with the commitment that the prover wrote into it (the source queues the
pointer before calling the prover). -/
def roundResult (a : CreateTxArgs) (st : LoopState) (c : Chosen) (dummies : List JSInput)
    (feeApply : Nat) (newRts latestAnchor : GoMap Slice)
    (r : List PaymentInfo × List JSOutput × Nat) (fin : Finish) (dummyOuts : List JSOutput)
    (tx2 : Tx) (outputs2 : List JSOutput) : LoopState :=
  { inputNotes := c.inputNotes ++
      (match fin.change with
        | some ch =>
          if fin.reuse then
            [{ note := { ch.OutputNote with
                         Cm := ((outputs2.map fun x => x.OutputNote.Cm)[r.2.1.length]?).getD
                           ch.OutputNote.Cm },
               chainID := a.senderChainID }]
          else []
        | none => [])
    paymentInfo := fin.paymentInfo
    commitments :=
      outputs2.foldl (fun m x => m.push a.senderChainID x.OutputNote.Cm) st.commitments
    latestAnchor := some latestAnchor
    tx := tx2
    rounds := st.rounds ++
      [{ realInputs := c.pulled, dummyInputs := dummies,
         payOutputs := r.2.1 ++ fin.exact.toList, changeOutput := fin.change,
         dummyOutputs := dummyOuts, feeApply := feeApply, newRts := newRts,
         latestAnchor := latestAnchor }] }

/-- End of the body of the loop of `CreateTx`, from `tx.BuildNewJSDesc` on: the
inputs are the chosen ones and the dummies (queued under chain 0), the outputs
the chosen ones, the change and the dummies; the reward is 0. -/
def roundProve (o : TxOracles) (a : CreateTxArgs) (st : LoopState) (c : Chosen)
    (dummies : List JSInput) (feeApply : Nat) (tx1 : Tx) (newRts latestAnchor : GoMap Slice)
    (r : List PaymentInfo × List JSOutput × Nat) (fin : Finish) (dummyOuts : List JSOutput) :
    GoResult (Except String LoopState) :=
  match tx1.BuildNewJSDesc o (dummies.foldl (fun m d => m.push 0 d) c.inputs)
      (r.2.1 ++ fin.exact.toList ++ fin.change.toList ++ dummyOuts) latestAnchor 0 feeApply with
  | .panicked => .panicked
  | .returned (.error e) => .returned (.error e)
  | .returned (.ok (tx2, outputs2)) =>
    .returned (.ok
      (roundResult a st c dummies feeApply newRts latestAnchor r fin dummyOuts tx2 outputs2))

/-- Middle of the body of the loop of `CreateTx`, once the roots `newRts` are
accepted: the dummy anchor of chain 0, the choice of the outputs, the change and
the dummy outputs. -/
def roundOutputs (o : TxOracles) (a : CreateTxArgs) (st : LoopState) (c : Chosen)
    (dummies : List JSInput) (feeApply inputValue : Nat) (tx1 : Tx)
    (sortedPayments : List PaymentInfo) (newRts : GoMap Slice) :
    GoResult (Except String LoopState) :=
  let latestAnchor : GoMap Slice :=
    if (((newRts.get? 0).getD none).getD []).length = 0 then
      newRts.set 0 (some (List.replicate 32 0))
    else newRts
  let r := outputLoop (NumDescOutputs - 1) sortedPayments [] inputValue
  let fin := finishOutputs (o.ImportKey a.senderKey) r.1 r.2.2
  let dummyOuts :=
    dummyOutputs o st.tx.Descs.length (r.2.1 ++ fin.exact.toList ++ fin.change.toList).length
  roundProve o a st c dummies feeApply tx1 newRts latestAnchor r fin dummyOuts

/-- Body of the description-building loop of `CreateTx`: sorting, choice of the
inputs, fee, dummy inputs, commitment check, witness paths and anchor check;
the rest is `roundOutputs`. -/
def CreateTx.round (o : TxOracles) (a : CreateTxArgs) (st : LoopState) :
    GoResult (Except String LoopState) :=
  let k := st.tx.Descs.length
  let sortedNotes := o.sortNotes st.inputNotes
  let c := chooseInputs o sortedNotes.length
    { inputNotes := sortedNotes, inputs := [], inputsToBuildWitness := [], inputValue := 0,
      numInputNotes := 0, pulled := [] }
  let feeApply := if k = 0 then a.fee else 0
  let tx1 : Tx := if k = 0 then { st.tx with Fee := a.fee } else st.tx
  if k = 0 ∧ c.inputValue < feeApply then
    .returned (.error "Input note values too small to pay fee")
  else if ¬ commitmentsFound st.commitments c.inputsToBuildWitness = true then
    .returned (.error "Commitment of input note isn't in commitments list of chain")
  else
    match o.BuildWitnessPathMultiChain c.inputsToBuildWitness st.commitments with
    | .error e => .returned (.error e)
    | .ok newRts =>
      match (if st.latestAnchor.isNone then checkAnchors a.rts newRts
             else .returned (.ok ())) with
      | .panicked => .panicked
      | .returned (.error e) => .returned (.error e)
      | .returned (.ok _) =>
        roundOutputs o a st c (dummyInputs o k c.numInputNotes) feeApply
          (if k = 0 then c.inputValue - feeApply else c.inputValue) tx1
          (o.sortPayments st.paymentInfo) newRts

/-- Loop `for len(inputNotes) > 0 || len(paymentInfo) > 0` of `CreateTx`, run for
at most `fuel` rounds; `none` when the loop is still running after them. -/
def CreateTx.loop (o : TxOracles) (a : CreateTxArgs) :
    Nat → LoopState → Option (GoResult (Except String LoopState))
  | 0, st =>
    if st.inputNotes = [] ∧ st.paymentInfo = [] then some (.returned (.ok st)) else none
  | fuel + 1, st =>
    if st.inputNotes = [] ∧ st.paymentInfo = [] then some (.returned (.ok st))
    else
      match CreateTx.round o a st with
      | .returned (.ok st2) => CreateTx.loop o a fuel st2
      | other => some other

/-- Function `CreateTx`, its loop run for at most `fuel` rounds: `none` when the
loop is still running after them, otherwise a panic or the pair `(*Tx, error)`,
the transaction coming with the record of the rounds. -/
def CreateTx (o : TxOracles) (a : CreateTxArgs) (fuel : Nat) :
    Option (GoResult (Except String (Tx × List Round))) :=
  match CreateTx.init o a with
  | .panicked => some .panicked
  | .returned (.error e) => some (.returned (.error e))
  | .returned (.ok st0) =>
    match CreateTx.loop o a fuel st0 with
    | none => none
    | some .panicked => some .panicked
    | some (.returned (.error e)) => some (.returned (.error e))
    | some (.returned (.ok st)) =>
      match SignTx o.sig st.tx with
      | .error e => some (.returned (.error e))
      | .ok tx => some (.returned (.ok (tx, st.rounds)))

/-! ## Salary and loan validation -/

/-- Method `BlockChain.IsSalaryTx`. -/
def BlockChain.IsSalaryTx (_self : BlockChain) (tx : Transaction) : Bool :=
  if tx.GetType ≠ TxSalaryType then
    match tx.asTx with
    | none => false
    | some normalTx =>
      let descs := normalTx.Descs
      if descs.length ≠ 1 then false
      else
        match descs[0]? with
        | some d => if d.Reward > 0 then true else false
        | none => false
  else false

/-- Inner loop of `ValidateTxLoanRequest` over the ids of one best state:
whether some id equals `LoanID` under `bytes.Equal`. -/
def loanIDIn (LoanID : Slice) : List Slice → Bool
  | [] => false
  | id :: rest => if bytesEqual LoanID id then true else loanIDIn LoanID rest

/-- Outer loop of `ValidateTxLoanRequest` over the best states, `chainID` being
the index of the first one; `none` when the loop ends without returning. The
chain id printed in the message is left out. -/
def checkLoanIDs (LoanID : Slice) : List BestState → Option String
  | [] => none
  | bestState :: rest =>
    if loanIDIn LoanID bestState.LoanIDs then some "LoanID already existed on chain"
    else checkLoanIDs LoanID rest

/-- Method `BlockChain.ValidateTxLoanRequest`. The result is Go's `error`
(`none` for nil); indexing `BestState` out of range panics. -/
def BlockChain.ValidateTxLoanRequest (self : BlockChain) (tx : Transaction) (chainID : Fin 256) :
    GoResult (Option String) :=
  match tx.asTxLoanRequest with
  | none => .returned (some "Fail parsing LoanRequest transaction")
  | some txLoan =>
    match self.BestState[chainID.val]? with
    | none => .panicked
    | some bestState =>
      let currentParams := bestState.BestBlock.Header.LoanParams
      if txLoan.Params ≠ currentParams then
        .returned (some "LoanRequest transaction has incorrect params")
      else .returned (checkLoanIDs txLoan.LoanID self.BestState)

/-- Statements `hash := &common.Hash{}; copy(hash[:], txHash)`: the first 32
bytes of `txHash`, filled up with zero bytes. -/
def copyHash (txHash : Slice) : Bytes :=
  (txHash.getD []).take 32 ++ List.replicate (32 - ((txHash.getD []).take 32).length) 0

/-- Loop of `ValidateTxLoanResponse` over the recorded hashes, `found` being the
variable of that name: an error for an early return, otherwise the last value
of `found`. -/
def BlockChain.responseLoop (self : BlockChain) : List Slice → Bool → Except String Bool
  | [], found => .ok found
  | txHash :: rest, found =>
    match self.GetTransactionByHash (copyHash txHash) with
    | (some txOld, none) =>
      if txOld.GetType = TxLoanResponseType then .error "Loan already had response"
      else if txOld.GetType = TxLoanRequestType then
        match txOld.asTxLoanRequest with
        | none => .error "Error parsing loan request tx"
        | some _ => self.responseLoop rest true
      else self.responseLoop rest found
    | _ => .error "Error finding corresponding loan request"

/-- Method `BlockChain.ValidateTxLoanResponse`; the result is Go's `error`
(`none` for nil). -/
def BlockChain.ValidateTxLoanResponse (self : BlockChain) (tx : Transaction)
    (_chainID : Fin 256) : Option String :=
  match tx.asTxLoanResponse with
  | none => some "Fail parsing LoanResponse transaction"
  | some txResponse =>
    match self.GetLoanTxs txResponse.LoanID with
    | .error err => some err
    | .ok txHashes =>
      match self.responseLoop txHashes false with
      | .error e => some e
      | .ok found =>
        if found = false then some "Corresponding loan request not found" else none

/-- Loop of `ValidateTxLoanPayment` over the recorded hashes. -/
def BlockChain.paymentLoop (self : BlockChain) : List Slice → Bool → Except String Bool
  | [], found => .ok found
  | txHash :: rest, found =>
    match self.GetTransactionByHash (copyHash txHash) with
    | (some txOld, none) =>
      if txOld.GetType = TxLoanResponseType then self.paymentLoop rest true
      else self.paymentLoop rest found
    | _ => .error "Error finding corresponding loan request"

/-- Method `BlockChain.ValidateTxLoanPayment`; the result is Go's `error`
(`none` for nil). -/
def BlockChain.ValidateTxLoanPayment (self : BlockChain) (tx : Transaction)
    (_chainID : Fin 256) : Option String :=
  match tx.asTxLoanPayment with
  | none => some "Fail parsing LoanPayment transaction"
  | some txPayment =>
    match self.GetLoanTxs txPayment.LoanID with
    | .error err => some err
    | .ok txHashes =>
      match self.paymentLoop txHashes false with
      | .error e => some e
      | .ok found =>
        if found = false then some "Corresponding loan response not found" else none

/-- Loop of `ValidateTxLoanWithdraw` over the recorded hashes, the pair being
the variables `foundResponse` and `keyCorrect`. Both type assertions of the
body are made on `tx`, the transaction under validation. `ShakeSum256 n data`
stands for `sha3.ShakeSum256` writing `n` bytes. -/
def BlockChain.withdrawLoop (self : BlockChain) (ShakeSum256 : Nat → Slice → Bytes)
    (tx : Transaction) (txWithdraw : LoanWithdraw) :
    List Slice → Bool × Bool → Except String (Bool × Bool)
  | [], flags => .ok flags
  | txHash :: rest, flags =>
    match self.GetTransactionByHash (copyHash txHash) with
    | (some txOld, none) =>
      if txOld.GetType = TxLoanRequestType then
        match tx.asTxLoanRequest with
        | none => .error "Error parsing corresponding loan request"
        | some txRequest =>
          let h := ShakeSum256 32 txWithdraw.Key
          self.withdrawLoop ShakeSum256 tx txWithdraw rest
            (flags.1, if bytesEqual (some h) txRequest.KeyDigest then true else flags.2)
      else if txOld.GetType = TxLoanResponseType then
        match tx.asTxLoanResponse with
        | none => .error "Error parsing corresponding loan response"
        | some txResponse =>
          self.withdrawLoop ShakeSum256 tx txWithdraw rest
            (if txResponse.Response ≠ ValidLoanResponse.Accept then true else flags.1, flags.2)
      else self.withdrawLoop ShakeSum256 tx txWithdraw rest flags
    | _ => .error "Error finding corresponding loan request"

/-- Method `BlockChain.ValidateTxLoanWithdraw`; the result is Go's `error`
(`none` for nil). -/
def BlockChain.ValidateTxLoanWithdraw (self : BlockChain) (ShakeSum256 : Nat → Slice → Bytes)
    (tx : Transaction) (_chainID : Fin 256) : Option String :=
  match tx.asTxLoanWithdraw with
  | none => some "Fail parsing LoanResponse transaction"
  | some txWithdraw =>
    match self.GetLoanTxs txWithdraw.LoanID with
    | .error err => some err
    | .ok txHashes =>
      match self.withdrawLoop ShakeSum256 tx txWithdraw txHashes (false, false) with
      | .error e => some e
      | .ok (foundResponse, keyCorrect) =>
        if ¬ foundResponse then some "Corresponding loan response not found"
        else if ¬ keyCorrect then some "Provided key is incorrect"
        else none

/-! ## `TxLoanPayment.ValidateTransaction` -/

/-- Loop of `TxLoanPayment.ValidateTransaction` over the descriptions: false at
the first description whose `Note` is nil. -/
def notesPresent : List JoinSplitDesc → Bool
  | [] => true
  | desc :: rest => if desc.Note = none then false else notesPresent rest

/-- Method `TxLoanPayment.ValidateTransaction`, on the embedded transaction and
the loan record. -/
def TxLoanPayment.ValidateTransaction (tx : Tx) (_payment : LoanPayment) : Bool :=
  if ¬ tx.ValidateTransaction then false else notesPresent tx.Descs

/-! ## `GetPathToRoot` and `GetRoot` as state transformers -/

/-- State of the second loop of `GetPathToRoot`: the tree behind the receiver and
the locals `root` and `paths`. -/
structure ClimbState where
  tree : IncrementalMerkleTree
  root : Slice
  paths : List Slice

/-- Body of the second loop of `GetPathToRoot` for the index `i` and the element
`sibling`. The statement `sibling = root` assigns to the loop variable, which
`range` fills with a copy of the element; the tree is only read. -/
def climbStep (k i : Nat) (sibling : Slice) (st : ClimbState) : ClimbState :=
  let sibling2 : Slice := if sibling = none then st.root else sibling
  let root2 := st.tree.hasher [sibling2, st.root]
  { st with root := root2, paths := st.paths.set (k + i + 2) root2 }

/-- Second loop of `GetPathToRoot` over the elements of `tree.nodes[k+1:]`, the
slice being evaluated once before the loop. -/
def climbRun (k : Nat) : List Slice → Nat → ClimbState → ClimbState
  | [], _, st => st
  | sibling :: rest, i, st => climbRun k rest (i + 1) (climbStep k i sibling st)

/-- Method `IncrementalMerkleTree.GetPathToRoot` with the tree it leaves behind.
The source assigns to the fresh slice `paths` and to the locals `root`, `k`, `id`
and `sibling`. -/
def IncrementalMerkleTree.GetPathToRoot.run (tree : IncrementalMerkleTree) :
    List Slice × IncrementalMerkleTree :=
  let paths0 : List Slice := List.replicate (tree.nodes.length + 1) none
  let st : Slice × Nat × List Slice :=
    match firstNonNil tree.nodes 0 with
    | some (i, s) => (some s, i, paths0.set i (some s))
    | none => (none, 0, paths0)
  let root := st.1
  let k := st.2.1
  let paths1 := st.2.2
  if k + 1 ≥ tree.nodes.length then
    (paths1.set (paths1.length - 1) root, tree)
  else
    let root2 := tree.hasher [root, root]
    let fin := climbRun k (tree.nodes.drop (k + 1)) 0
      { tree := tree, root := root2, paths := paths1.set (k + 1) root2 }
    (fin.paths, fin.tree)

/-- Method `IncrementalMerkleTree.GetRoot` with the tree it leaves behind: the
tree left by the call of `GetPathToRoot`, or the tree itself when the length
is 0. -/
def IncrementalMerkleTree.GetRoot.run (tree : IncrementalMerkleTree) :
    Slice × IncrementalMerkleTree :=
  if tree.length = 0 then (some (List.replicate 32 0), tree)
  else
    let r := IncrementalMerkleTree.GetPathToRoot.run tree
    (r.1.getD (r.1.length - 1) none, r.2)

/-! ## Dividend payout -/

/-- Struct `PayoutProposal`, declared outside the sources at hand, with the
fields that `validation.go` reads. -/
structure PayoutProposal where
  TokenID : Slice
  PayoutID : Nat
  deriving DecidableEq, Repr

/-- First loop nest of `GetAmountPerAccount`: `totalTokenSupply += value` with
`value := uint64(0)` for every UTXO of every holder. -/
def BlockChain.totalSupply (self : BlockChain) : List Slice → Nat → Nat
  | [], totalTokenSupply => totalTokenSupply
  | holder :: rest, totalTokenSupply =>
    self.totalSupply rest
      ((self.GetAccountUTXO holder).foldl (fun acc _ => (acc + 0) % u64) totalTokenSupply)

/-- Inner loop of the second loop nest of `GetAmountPerAccount`, over the UTXOs
of one holder: the amount of the holder, or the error of `GetUTXOReward`. -/
def BlockChain.holderAmount (self : BlockChain) (proposal : PayoutProposal) :
    List Slice → Nat → Except String Nat
  | [], amount => .ok amount
  | utxo :: rest, amount =>
    match self.GetUTXOReward utxo with
    | .error err => .error err
    | .ok reward =>
      if reward < proposal.PayoutID then
        self.holderAmount proposal rest ((amount + 0) % u64)
      else self.holderAmount proposal rest amount

/-- Second loop nest of `GetAmountPerAccount`, over the holders: the lists
`rewardHolders` and `amounts`. -/
def BlockChain.rewardLoop (self : BlockChain) (proposal : PayoutProposal) :
    List Slice → List Slice × List Nat → Except String (List Slice × List Nat)
  | [], acc => .ok acc
  | holder :: rest, acc =>
    match self.holderAmount proposal (self.GetAccountUTXO holder) 0 with
    | .error err => .error err
    | .ok amount =>
      if amount > 0 then self.rewardLoop proposal rest (acc.1 ++ [holder], acc.2 ++ [amount])
      else self.rewardLoop proposal rest acc

/-- Method `BlockChain.GetAmountPerAccount`: the total supply, the holders to
reward and their amounts, or the error. -/
def BlockChain.GetAmountPerAccount (self : BlockChain) (proposal : PayoutProposal) :
    Except String (Nat × List Slice × List Nat) :=
  match self.GetListTokenHolders proposal.TokenID with
  | .error err => .error err
  | .ok tokenHolders =>
    let totalTokenSupply := self.totalSupply tokenHolders 0
    match self.rewardLoop proposal tokenHolders ([], []) with
    | .error err => .error err
    | .ok (rewardHolders, amounts) => .ok (totalTokenSupply, rewardHolders, amounts)

/-- Loop of `ValidateTxDividendPayout` over the UTXOs of the receiver of a note:
`none` when the loop ends without returning. -/
def BlockChain.checkNotRewarded (self : BlockChain) (proposal : PayoutProposal) :
    List Slice → Option String
  | [] => none
  | utxo :: rest =>
    match self.GetUTXOReward utxo with
    | .error err => some err
    | .ok reward =>
      if reward ≥ proposal.PayoutID then some "UTXO has already received dividend payment"
      else self.checkNotRewarded proposal rest

/-- Loop of `ValidateTxDividendPayout` over the token holders, from index `i`:
the counter `found` when the loop ends, an error for an early return, or a panic
when `amounts[i]` is out of range. -/
def checkAmount (amounts : List Nat) (note : Note) :
    List Slice → Nat → Nat → GoResult (Except String Nat)
  | [], _, found => .returned (.ok found)
  | holder :: rest, i, found =>
    if bytesEqual holder note.Apk then
      match amounts[i]? with
      | none => .panicked
      | some amount =>
        if amount ≠ note.Value then .returned (.error "Payment amount for user incorrect")
        else checkAmount amounts note rest (i + 1) (found + 1)
    else checkAmount amounts note rest (i + 1) found

/-- Body of the loops of `ValidateTxDividendPayout` for one note. -/
def BlockChain.checkPayoutNote (self : BlockChain) (proposal : PayoutProposal)
    (tokenHolders : List Slice) (amounts : List Nat) (note : Note) :
    GoResult (Option String) :=
  match self.checkNotRewarded proposal (self.GetAccountUTXO note.Apk) with
  | some err => .returned (some err)
  | none =>
    match checkAmount amounts note tokenHolders 0 0 with
    | .panicked => .panicked
    | .returned (.error err) => .returned (some err)
    | .returned (.ok found) =>
      if found = 0 then .returned (some "User isn't eligible for receiving dividend")
      else if found > 1 then .returned (some "Multiple dividend payments found for user")
      else .returned none

/-- Loop of `ValidateTxDividendPayout` over the notes of one description. -/
def BlockChain.checkPayoutNotes (self : BlockChain) (proposal : PayoutProposal)
    (tokenHolders : List Slice) (amounts : List Nat) : List Note → GoResult (Option String)
  | [] => .returned none
  | note :: rest =>
    match self.checkPayoutNote proposal tokenHolders amounts note with
    | .returned none => self.checkPayoutNotes proposal tokenHolders amounts rest
    | other => other

/-- Loop of `ValidateTxDividendPayout` over the descriptions. -/
def BlockChain.checkPayoutDescs (self : BlockChain) (proposal : PayoutProposal)
    (tokenHolders : List Slice) (amounts : List Nat) :
    List JoinSplitDesc → GoResult (Option String)
  | [] => .returned none
  | desc :: rest =>
    match self.checkPayoutNotes proposal tokenHolders amounts (desc.Note.getD []) with
    | .returned none => self.checkPayoutDescs proposal tokenHolders amounts rest
    | other => other

/-- Method `BlockChain.ValidateTxDividendPayout`; the result is Go's `error`
(`none` for nil), or a panic. The proposal is the zero value
`&transaction.PayoutProposal{}`. -/
def BlockChain.ValidateTxDividendPayout (self : BlockChain) (tx : Transaction)
    (_chainID : Fin 256) : GoResult (Option String) :=
  match tx.asTxDividendPayout with
  | none => .returned (some "Fail parsing DividendPayout transaction")
  | some txPayout =>
    let proposal : PayoutProposal := { TokenID := none, PayoutID := 0 }
    match self.GetAmountPerAccount proposal with
    | .error err => .returned (some err)
    | .ok (_, tokenHolders, amounts) =>
      self.checkPayoutDescs proposal tokenHolders amounts txPayout.Descs

/-! ## `parseInfoForSetBytes` -/

/-- Index expression `b[i]` with an `int` index: a run-time panic when the index
is negative or not below the length. -/
def indexAt (b : Bytes) (i : Int) : GoResult (Fin 256) :=
  if i < 0 then .panicked
  else
    match b[i.toNat]? with
    | some x => .returned x
    | none => .panicked

/-- Slice expression `b[lo:hi]` with `int` bounds: a run-time panic unless
`0 ≤ lo ≤ hi ≤ len(b)` (the capacity of `b` may allow more than its length; the
model is the stricter one). -/
def sliceAt (b : Bytes) (lo hi : Int) : GoResult Bytes :=
  if 0 ≤ lo ∧ lo ≤ hi ∧ hi ≤ b.length then .returned ((b.take hi.toNat).drop lo.toNat)
  else .panicked

/-- Function `parseInfoForSetBytes` on the bytes `*coinBytes` and the offset
`*offset`: the pair `([]byte, error)` as an `Except`, together with the offset
that the call leaves in `*offset`, or a panic. -/
def parseInfoForSetBytes (b : Bytes) (offset : Int) : GoResult (Except String Bytes × Int) :=
  if offset ≥ b.length then
    .returned (.error "Offset is larger than len(bytes), cannot parse info", offset)
  else
    match indexAt b offset with
    | .panicked => .panicked
    | .returned lenField =>
      let offset1 := offset + 1
      if lenField ≠ 0 then
        if offset1 + lenField.val > b.length then
          .returned
            (.error "Offset+curLen is larger than len(bytes), cannot parse info for set bytes",
              offset1)
        else
          match sliceAt b offset1 (offset1 + lenField.val) with
          | .panicked => .panicked
          | .returned data => .returned (.ok data, offset1 + lenField.val)
      else .returned (.ok [], offset1)

/-! ## The conversion proof: `Bytes`, `SetBytes` and `Verify` -/

/-- Interface `coin.PlainCoin` as far as `SetBytes` tells its values apart: a
`*coin.PlainCoinV1` or a `*coin.CoinV2`. The types of the two coins are declared
outside the sources at hand and are parameters. -/
inductive PlainCoin (CoinV1 CoinV2 : Type) where
  | ofV1 (c : CoinV1)
  | ofV2 (c : CoinV2)

/-- Error codes of the package `errhandler` that `conversion_v1_v2.go` names. -/
inductive ErrCode where
  | InvalidInputToSetBytesErr
  | SetBytesProofErr
  | VerifySerialNumberNoPrivacyProofFailedErr
  deriving DecidableEq, Repr

/-- Struct `errhandler.PrivacyError` as built by `NewPrivacyErr`: the code and
the message of the wrapped error. -/
structure PrivacyError where
  Code : ErrCode
  Err : String
  deriving DecidableEq, Repr

/-- Constants and methods that `conversion_v1_v2.go` takes from the packages
`coin`, `serialnumbernoprivacy` and `utils` and from its own package, all
declared outside the sources at hand, over the coin and proof types `CoinV1`
(`coin.PlainCoinV1`), `CoinV2` (`coin.CoinV2`) and `SNProof`
(`serialnumbernoprivacy.SNNoPrivacyProof`): the byte `ConversionProofVersion`,
the number `SnNoPrivacyProofSize`, the `Bytes` methods, `NewPlainCoinFromByte`,
`SetBytes` on a proof fresh from `Init`, the getters of the coins
(`GetPublicKey` and `GetCommitment` followed by `ToBytesS`), `CommitAll`, which
recomputes the commitment inside the coin, and `Verify` of a serial-number
proof. -/
structure ConversionOracles (CoinV1 CoinV2 SNProof : Type) where
  ConversionProofVersion : Fin 256
  SnNoPrivacyProofSize : Nat
  coinV1Bytes : CoinV1 → Bytes
  coinV2Bytes : CoinV2 → Bytes
  NewPlainCoinFromByte : Bytes → Except String (PlainCoin CoinV1 CoinV2)
  snBytes : SNProof → Bytes
  snSetBytes : Bytes → Except String SNProof
  v1IsEncrypted : CoinV1 → Bool
  v1PublicKey : CoinV1 → Slice
  v1Commitment : CoinV1 → Slice
  CommitAll : CoinV1 → CoinV1
  v1Value : CoinV1 → Nat
  v2IsEncrypted : CoinV2 → Bool
  v2Value : CoinV2 → Nat
  snVerify : SNProof → Bool × Option String

/-- Struct `ConversionProofVer1ToVer2`. The pointers in the three slices are
non-nil and pairwise distinct. -/
structure ConversionProofVer1ToVer2 (CoinV1 CoinV2 SNProof : Type) where
  Version : Fin 256
  inputCoins : List CoinV1
  outputCoins : List CoinV2
  serialNumberNoPrivacyProof : List SNProof

/-- One round of a loop of `Bytes`: the byte `lenByte` and the bytes `body`
appended to `proofBytes`. -/
def appendItem (proofBytes : Bytes) (lenByte : Fin 256) (body : Bytes) : Bytes :=
  (proofBytes ++ [lenByte]) ++ body

/-- Method `ConversionProofVer1ToVer2.Bytes`. The conversions `byte(len(...))`
keep the low eight bits. -/
def ConversionProofVer1ToVer2.Bytes {CoinV1 CoinV2 SNProof : Type}
    (o : ConversionOracles CoinV1 CoinV2 SNProof)
    (proof : ConversionProofVer1ToVer2 CoinV1 CoinV2 SNProof) : List (Fin 256) :=
  let proofBytes0 : List (Fin 256) := [o.ConversionProofVersion]
  let proofBytes1 := proofBytes0 ++ [Fin.ofNat proof.inputCoins.length]
  let proofBytes2 := proof.inputCoins.foldl
    (fun acc c => appendItem acc (Fin.ofNat (o.coinV1Bytes c).length) (o.coinV1Bytes c))
    proofBytes1
  let proofBytes3 := proofBytes2 ++ [Fin.ofNat proof.outputCoins.length]
  let proofBytes4 := proof.outputCoins.foldl
    (fun acc c => appendItem acc (Fin.ofNat (o.coinV2Bytes c).length) (o.coinV2Bytes c))
    proofBytes3
  let proofBytes5 := proofBytes4 ++ [Fin.ofNat proof.serialNumberNoPrivacyProof.length]
  proof.serialNumberNoPrivacyProof.foldl
    (fun acc p => appendItem acc (Fin.ofNat o.SnNoPrivacyProofSize) (o.snBytes p))
    proofBytes5

/-- Body of the first loop of `SetBytes` after the slice expression: the coin of
`NewPlainCoinFromByte` asserted to be a `*coin.PlainCoinV1`. -/
def decodeInputCoin {CoinV1 CoinV2 SNProof : Type}
    (o : ConversionOracles CoinV1 CoinV2 SNProof) (coinBytes : Bytes) :
    Except PrivacyError CoinV1 :=
  match o.NewPlainCoinFromByte coinBytes with
  | .error err => .error ⟨.SetBytesProofErr, err⟩
  | .ok (.ofV1 c) => .ok c
  | .ok (.ofV2 _) => .error ⟨.SetBytesProofErr, "Cannot assert type of PlainCoin to PlainCoinV1"⟩

/-- Body of the second loop of `SetBytes` after the slice expression: the coin
of `NewPlainCoinFromByte` asserted to be a `*coin.CoinV2`. -/
def decodeOutputCoin {CoinV1 CoinV2 SNProof : Type}
    (o : ConversionOracles CoinV1 CoinV2 SNProof) (coinBytes : Bytes) :
    Except PrivacyError CoinV2 :=
  match o.NewPlainCoinFromByte coinBytes with
  | .error err => .error ⟨.SetBytesProofErr, err⟩
  | .ok (.ofV2 c) => .ok c
  | .ok (.ofV1 _) => .error ⟨.SetBytesProofErr, "Cannot assert type of Coin to CoinV2"⟩

/-- Body of the third loop of `SetBytes` after the slice expression: `SetBytes`
of a serial-number proof fresh from `Init`. -/
def decodeSNProof {CoinV1 CoinV2 SNProof : Type}
    (o : ConversionOracles CoinV1 CoinV2 SNProof) (snBytes : Bytes) :
    Except PrivacyError SNProof :=
  match o.snSetBytes snBytes with
  | .error err => .error ⟨.SetBytesProofErr, err⟩
  | .ok p => .ok p

/-- One of the three loops of `SetBytes`, which differ in the message `msg` of
the range errors and in the decoding `decode` of an item: `n` rounds from the
offset `offset`, each reading a length byte and the item it announces. The
result is the list of the items, appended to `acc`, and the offset reached. -/
def parseLoop {α : Type} (decode : Bytes → Except PrivacyError α) (msg : String)
    (proofBytes : Bytes) : Nat → Nat → List α → GoResult (Except PrivacyError (List α × Nat))
  | 0, offset, acc => .returned (.ok (acc, offset))
  | n + 1, offset, acc =>
    if offset ≥ proofBytes.length then .returned (.error ⟨.SetBytesProofErr, msg⟩)
    else
      match indexAt proofBytes offset with
      | .panicked => .panicked
      | .returned lenByte =>
        let lenItem : Nat := lenByte.val
        let offset1 := offset + 1
        if offset1 + lenItem > proofBytes.length then
          .returned (.error ⟨.SetBytesProofErr, msg⟩)
        else
          match sliceAt proofBytes offset1 (offset1 + lenItem : Nat) with
          | .panicked => .panicked
          | .returned itemBytes =>
            match decode itemBytes with
            | .error err => .returned (.error err)
            | .ok item => parseLoop decode msg proofBytes n (offset1 + lenItem) (acc ++ [item])

/-- One of the three sections of `SetBytes`: the range check, the count byte at
`offset` and the loop over that many items. -/
def parseArray {α : Type} (decode : Bytes → Except PrivacyError α) (msg : String)
    (proofBytes : Bytes) (offset : Nat) : GoResult (Except PrivacyError (List α × Nat)) :=
  if offset ≥ proofBytes.length then .returned (.error ⟨.SetBytesProofErr, msg⟩)
  else
    match indexAt proofBytes offset with
    | .panicked => .panicked
    | .returned lenArray => parseLoop decode msg proofBytes lenArray.val (offset + 1) []

/-- The three sections of `SetBytes`, run one after the other from offset 1:
input coins, output coins and serial-number proofs. The result is the proof
left behind, with the offset reached, or the error. -/
def parseSections {CoinV1 CoinV2 SNProof : Type}
    (o : ConversionOracles CoinV1 CoinV2 SNProof) (proofBytes : Bytes) :
    GoResult (Except PrivacyError (ConversionProofVer1ToVer2 CoinV1 CoinV2 SNProof × Nat)) :=
  match parseArray (decodeInputCoin o) "Out of range input coins" proofBytes 1 with
  | .panicked => .panicked
  | .returned (.error err) => .returned (.error err)
  | .returned (.ok (inputCoins, offset1)) =>
    match parseArray (decodeOutputCoin o) "Out of range output coins" proofBytes
        offset1 with
    | .panicked => .panicked
    | .returned (.error err) => .returned (.error err)
    | .returned (.ok (outputCoins, offset2)) =>
      match parseArray (decodeSNProof o) "Out of range serial number no privacy proof"
          proofBytes offset2 with
      | .panicked => .panicked
      | .returned (.error err) => .returned (.error err)
      | .returned (.ok (snProofs, offset3)) =>
        .returned (.ok ({ Version := o.ConversionProofVersion, inputCoins := inputCoins,
                          outputCoins := outputCoins,
                          serialNumberNoPrivacyProof := snProofs }, offset3))

/-- Method `ConversionProofVer1ToVer2.SetBytes` on a non-nil receiver, with the
offset it reaches: the proof it leaves behind when it returns nil, or the error.
The fields left behind by an error return are not modelled. -/
def ConversionProofVer1ToVer2.parse {CoinV1 CoinV2 SNProof : Type}
    (o : ConversionOracles CoinV1 CoinV2 SNProof) (proofBytes : List (Fin 256)) :
    GoResult (Except PrivacyError (ConversionProofVer1ToVer2 CoinV1 CoinV2 SNProof × Nat)) :=
  if proofBytes.length = 0 then
    .returned (.error ⟨.InvalidInputToSetBytesErr, "Proof bytes = 0"⟩)
  else
    match indexAt proofBytes 0 with
    | .panicked => .panicked
    | .returned version =>
      if version ≠ o.ConversionProofVersion then
        .returned (.error ⟨.SetBytesProofErr, "Proof bytes version is not correct"⟩)
      else parseSections o proofBytes

/-- Method `ConversionProofVer1ToVer2.SetBytes` on a non-nil receiver. -/
def ConversionProofVer1ToVer2.SetBytes {CoinV1 CoinV2 SNProof : Type}
    (o : ConversionOracles CoinV1 CoinV2 SNProof) (proofBytes : List (Fin 256)) :
    GoResult (Except PrivacyError (ConversionProofVer1ToVer2 CoinV1 CoinV2 SNProof)) :=
  match ConversionProofVer1ToVer2.parse o proofBytes with
  | .panicked => .panicked
  | .returned (.error err) => .returned (.error err)
  | .returned (.ok r) => .returned (.ok r.1)

/-- First loop of `Verify`, over the input coins: the sum `sumInput`, a `uint64`,
or the error returned. The value is read after `CommitAll`. -/
def verifyInputs {CoinV1 CoinV2 SNProof : Type} (o : ConversionOracles CoinV1 CoinV2 SNProof)
    (pubKey : Slice) : List CoinV1 → Nat → Except String Nat
  | [], sumInput => .ok sumInput
  | c :: rest, sumInput =>
    if o.v1IsEncrypted c then .error "ConversionProof input should not be encrypted"
    else if ¬ bytesEqual pubKey (o.v1PublicKey c) then
      .error "ConversionProof inputCoins.publicKey should equal to pubkey"
    else
      let commitment := o.v1Commitment c
      let c2 := o.CommitAll c
      if ¬ bytesEqual commitment (o.v1Commitment c2) then
        .error "ConversionProof inputCoins.commitment is not correct"
      else verifyInputs o pubKey rest ((sumInput + o.v1Value c2) % u64)

/-- Second loop of `Verify`, over the output coins: the sum `sumOutput`, a
`uint64`, or the error returned. -/
def verifyOutputs {CoinV1 CoinV2 SNProof : Type} (o : ConversionOracles CoinV1 CoinV2 SNProof) :
    List CoinV2 → Nat → Except String Nat
  | [], sumOutput => .ok sumOutput
  | c :: rest, sumOutput =>
    if o.v2IsEncrypted c then .error "ConversionProof output should not be encrypted"
    else verifyOutputs o rest ((sumOutput + o.v2Value c) % u64)

/-- Third loop of `Verify`, over the serial-number proofs; it runs after the
check that there are as many of them as input coins. -/
def verifySerialNumbers {CoinV1 CoinV2 SNProof : Type}
    (o : ConversionOracles CoinV1 CoinV2 SNProof) : List SNProof → Bool × Option String
  | [] => (true, none)
  | p :: rest =>
    if ¬ (o.snVerify p).1 then (false, some "Verify serial number no privacy proof failed")
    else verifySerialNumbers o rest

/-- Method `ConversionProofVer1ToVer2.Verify`: the pair `(bool, error)`. The
arguments `shardID`, `tokenID`, `isBatch` and `additionalData` are not read. -/
def ConversionProofVer1ToVer2.Verify {CoinV1 CoinV2 SNProof : Type}
    (o : ConversionOracles CoinV1 CoinV2 SNProof)
    (proof : ConversionProofVer1ToVer2 CoinV1 CoinV2 SNProof)
    (hasPrivacy : Bool) (pubKey : Slice) (fee : Nat) : Bool × Option String :=
  if hasPrivacy then (false, some "ConversionProof does not have privacy, something is wrong")
  else
    match verifyInputs o pubKey proof.inputCoins 0 with
    | .error err => (false, some err)
    | .ok sumInput =>
      match verifyOutputs o proof.outputCoins 0 with
      | .error err => (false, some err)
      | .ok sumOutput =>
        if sumInput ≠ (sumOutput + fee) % u64 then
          (false, some "ConversionProof input should be equal to fee + sum output")
        else if proof.inputCoins.length ≠ proof.serialNumberNoPrivacyProof.length then
          (false, some "The number of input coins should be equal to the number of proofs")
        else verifySerialNumbers o proof.serialNumberNoPrivacyProof

/-! ## Definitions used in the proofs -/

/-- Digest of the hasher as plain bytes (the empty string standing for nil). -/
def hashB (hasher : Hasher) (args : List Slice) : Bytes := (hasher args).getD []

/-- Complete pairs of one level, hashed; an unpaired last node is dropped. -/
def pairsB (hasher : Hasher) : List Bytes → List Bytes
  | [] => []
  | [_] => []
  | x :: y :: rest => hashB hasher [some x, some y] :: pairsB hasher rest

/-- The unpaired last node of a level of odd size, nil for an even size. -/
def unpairedB : List Bytes → Slice
  | [] => none
  | [x] => some x
  | _ :: _ :: rest => unpairedB rest

/-- Padding of a level by the naive builder: the copy-paired last node. -/
def padB (hasher : Hasher) (xs : List Bytes) : List Bytes :=
  match unpairedB xs with
  | none => []
  | some l => [hashB hasher [some l, some l]]

/-- Relation `Frontier hasher nodes xs`: `nodes` is the frontier of the tree whose
complete nodes at the lowest level are `xs`. -/
inductive Frontier (hasher : Hasher) : List Slice → List Bytes → Prop
  | nil : Frontier hasher [] []
  | cons {xs : List Bytes} {rest : List Slice} :
      xs ≠ [] → Frontier hasher rest (pairsB hasher xs) →
      Frontier hasher (unpairedB xs :: rest) xs

/-- Running node of `GetPathToRoot` after climbing over the entries `sibs`. -/
def climb (hasher : Hasher) : Slice → List Slice → Slice
  | r, [] => r
  | r, none :: rest => climb hasher (hasher [r, r]) rest
  | r, some s :: rest => climb hasher (hasher [some s, r]) rest

/-- Root computed by `GetPathToRoot` as a function of the frontier alone. -/
def rootOf (hasher : Hasher) : List Slice → Slice
  | [] => none
  | none :: rest => rootOf hasher rest
  | some s :: [] => some s
  | some s :: t :: rest => climb hasher (hasher [some s, some s]) (t :: rest)

/-- The two lists built by `SimulateAdd`, by recursion on the frontier. -/
def simWalk (hasher : Hasher) : List Slice → Slice → Nat → List Slice × List Nat
  | [], h, id => ([h], [id])
  | none :: _, h, id => ([h], [id])
  | some s :: rest, h, id =>
    let r := simWalk hasher rest (hasher [some s, h]) (id / 2)
    (h :: r.1, id :: r.2)

/-- Relation `Stored hasher st lvl xs`: the store holds, from level `lvl` upwards, every
complete node of the tree whose complete nodes at level `lvl` are `xs`. -/
inductive Stored (hasher : Hasher) (st : Store) : Nat → List Bytes → Prop
  | nil (lvl : Nat) : Stored hasher st lvl []
  | cons {lvl : Nat} {xs : List Bytes} :
      xs ≠ [] → (∀ j, j < xs.length → st lvl j = (xs[j]?).map some) →
      Stored hasher st (lvl + 1) (pairsB hasher xs) → Stored hasher st lvl xs

/-- Sum of the values of a list of chain notes, as a natural number. -/
def ChainNote.total (l : List ChainNote) : Nat := (l.map fun n => n.note.Value).sum

/-- Sum of the values of a list of outputs, as a natural number. -/
def JSOutput.total (l : List JSOutput) : Nat := (l.map fun x => x.OutputNote.Value).sum

/-- Balance of one round: the values pulled as real inputs equal the values of
the non-dummy outputs plus the fee handed to the prover, which is `fee` in
round 0 and 0 afterwards. -/
def Round.Balanced (fee k : Nat) (r : Round) : Prop :=
  ChainNote.total r.realInputs
      = JSOutput.total (r.payOutputs ++ r.changeOutput.toList) + r.feeApply ∧
    r.feeApply = if k = 0 then fee else 0

/-- Invariant of the loop of `CreateTx` for the balance of the rounds. -/
def LoopState.BalanceInv (fee : Nat) (st : LoopState) : Prop :=
  ChainNote.total st.inputNotes < u64 ∧ st.rounds.length = st.tx.Descs.length ∧
    ∀ k r, st.rounds[k]? = some r → Round.Balanced fee k r

/-- The variables of the input-choosing loop when a round starts in state `st`. -/
def roundChosen (o : TxOracles) (st : LoopState) : Chosen :=
  chooseInputs o (o.sortNotes st.inputNotes).length
    { inputNotes := o.sortNotes st.inputNotes, inputs := [], inputsToBuildWitness := [],
      inputValue := 0, numInputNotes := 0, pulled := [] }

/-- The fee handed to the prover in the round that starts in state `st`. -/
def roundFee (a : CreateTxArgs) (st : LoopState) : Nat :=
  if st.tx.Descs.length = 0 then a.fee else 0

/-- The value `inputValue` after the fee is taken in the round that starts in
state `st`. -/
def roundValue (o : TxOracles) (a : CreateTxArgs) (st : LoopState) : Nat :=
  if st.tx.Descs.length = 0 then (roundChosen o st).inputValue - roundFee a st
  else (roundChosen o st).inputValue

/-- The anchors handed to `BuildNewJSDesc`: the roots of the witness builder with
the dummy anchor of chain 0. -/
def roundAnchor (newRts : GoMap Slice) : GoMap Slice :=
  if (((newRts.get? 0).getD none).getD []).length = 0 then
    newRts.set 0 (some (List.replicate 32 0))
  else newRts

/-- The result of the output-choosing loop in the round that starts in state
`st`. -/
def roundOut (o : TxOracles) (a : CreateTxArgs) (st : LoopState) :
    List PaymentInfo × List JSOutput × Nat :=
  outputLoop (NumDescOutputs - 1) (o.sortPayments st.paymentInfo) [] (roundValue o a st)

/-- The result of the block `if inputValue > 0` in the round that starts in
state `st`. -/
def roundFin (o : TxOracles) (a : CreateTxArgs) (st : LoopState) : Finish :=
  finishOutputs (o.ImportKey a.senderKey) (roundOut o a st).1 (roundOut o a st).2.2

/-- The non-dummy outputs of the round that starts in state `st`. -/
def roundRealOuts (o : TxOracles) (a : CreateTxArgs) (st : LoopState) : List JSOutput :=
  (roundOut o a st).2.1 ++ (roundFin o a st).exact.toList ++ (roundFin o a st).change.toList

/-- The input map handed to `BuildNewJSDesc` in the round that starts in state
`st`. -/
def roundInputMap (o : TxOracles) (st : LoopState) : GoMap (List JSInput) :=
  (dummyInputs o st.tx.Descs.length (roundChosen o st).numInputNotes).foldl
    (fun m d => m.push 0 d) (roundChosen o st).inputs

/-- All the values of a map of lists, chain after chain. -/
def GoMap.values {β : Type} (m : GoMap (List β)) : List β := m.flatMap fun e => e.2

/-- Sum of the amounts of the payments whose address satisfies `q`. -/
def paymentTotal (q : PaymentAddress → Bool) (l : List PaymentInfo) : Nat :=
  ((l.filter fun p => q p.PaymentAddress).map fun p => p.Amount).sum

/-- Sum of the values of the outputs whose receiving address satisfies `q`. -/
def outputTotalTo (q : PaymentAddress → Bool) (l : List JSOutput) : Nat :=
  ((l.filter fun x => q ⟨x.OutputNote.Apk, x.EncKey⟩).map fun x => x.OutputNote.Value).sum

/-- Invariant of the loop of `CreateTx` for the payments: what is still to pay
and what the rounds paid so far add up to the payments asked for. -/
def LoopState.PaidInv (q : PaymentAddress → Bool) (a : CreateTxArgs) (st : LoopState) : Prop :=
  paymentTotal q st.paymentInfo
      + outputTotalTo q (st.rounds.flatMap fun r => r.payOutputs)
    = paymentTotal q a.paymentInfo

/-- Shape of one round and of the description it built: the real and the dummy
inputs fill the `NumDescInputs` places and the outputs the `NumDescOutputs`
places, the dummies have value 0, and the nullifiers of the description are
those of the inputs. -/
def Round.Shaped (r : Round) (d : JoinSplitDesc) : Prop :=
  r.realInputs.length + r.dummyInputs.length = NumDescInputs ∧
    (r.payOutputs ++ r.changeOutput.toList ++ r.dummyOutputs).length = NumDescOutputs ∧
    (∀ i ∈ r.dummyInputs, i.InputNote.Value = 0) ∧
    (∀ x ∈ r.dummyOutputs, x.OutputNote.Value = 0) ∧
    d.Nullifiers.Perm
      ((r.realInputs.map fun n => n.note.Nf) ++ r.dummyInputs.map fun i => i.InputNote.Nf) ∧
    d.Commitments.length = NumDescOutputs

/-- Invariant of the loop of `CreateTx` for the shape of the descriptions. -/
def LoopState.ShapeInv (st : LoopState) : Prop :=
  st.rounds.length = st.tx.Descs.length ∧
    ∀ (k : Nat) (r : Round) (d : JoinSplitDesc),
      st.rounds[k]? = some r → st.tx.Descs[k]? = some d → Round.Shaped r d

/-- The input that `CreateTx` makes of a note it pulls: the note with its
commitment written into it. -/
def realInput (o : TxOracles) (n : ChainNote) : JSInput :=
  { InputNote := { n.note with Cm := o.GetCommitment n.note } }

/-- Description `d` is what the prover run of round `r` gave: the prover was
handed inputs `inputs`, which are the real inputs of the round and its dummy
inputs, the outputs of the round (to receivers, change, dummies, in this
order), the key `pubKey`, the roots that are the anchors of `d`, the reward 0
and the fee `r.feeApply`, and returned commitments `cms`; the nullifiers of `d`
are those of `inputs`, its commitments are `cms` written into the outputs, and
its reward is 0. -/
def Round.Proved (o : TxOracles) (pubKey : Slice) (r : Round) (d : JoinSplitDesc) : Prop :=
  ∃ inputs cms,
    inputs.Perm (r.realInputs.map (realInput o) ++ r.dummyInputs) ∧
    o.Prove inputs (r.payOutputs ++ r.changeOutput.toList ++ r.dummyOutputs) pubKey d.Anchor 0
        r.feeApply = .ok cms ∧
    d.Nullifiers = inputs.map (fun i => i.InputNote.Nf) ∧
    d.Commitments
      = (setCms (r.payOutputs ++ r.changeOutput.toList ++ r.dummyOutputs) cms).map
          (fun x => x.OutputNote.Cm) ∧
    d.Reward = 0

/-- Invariant of the loop of `CreateTx` that ties the record of the rounds to
the descriptions of the transaction. -/
def LoopState.ProvedInv (o : TxOracles) (st : LoopState) : Prop :=
  st.rounds.length = st.tx.Descs.length ∧
    ∀ (k : Nat) (r : Round), st.rounds[k]? = some r →
      ∃ d, st.tx.Descs[k]? = some d ∧ Round.Proved o st.tx.JSPubKey r d

/-- The bytes that a loop of `Bytes` appends for the items `items`: for each
item its length byte `lenOf` and its bytes `body`. -/
def encodeItems {α : Type} (lenOf : α → Fin 256) (body : α → Bytes) (items : List α) : Bytes :=
  items.flatMap fun x => lenOf x :: body x

/-- UTF-8 encoding of the code point `v`, in numbers. -/
def utf8Nat (v : Nat) : List Nat :=
  if v ≤ 127 then [v]
  else if v ≤ 2047 then [192 + v / 64 % 32, 128 + v % 64]
  else if v ≤ 65535 then [224 + v / 4096 % 16, 128 + v / 64 % 64, 128 + v % 64]
  else [240 + v / 262144 % 8, 128 + v / 4096 % 64, 128 + v / 64 % 64, 128 + v % 64]

/-- The number written by decimal digits given as ASCII bytes. -/
def decodeUint (bs : Bytes) : Nat := bs.foldl (fun acc b => 10 * acc + (b.val - 48)) 0

/-! ## Concrete inputs -/

/-- A hasher that never returns nil: the number of arguments followed by their
contents. -/
def sampleHasher : Hasher :=
  fun args => some (Fin.ofNat args.length :: (args.map fun a => a.getD []).flatten)

/-- A normal transaction whose only description spends the same nullifier twice. -/
def dupTx : Tx :=
  { Version := 1, Type_ := TxNormalType, LockTime := 0, Fee := 0,
    Descs := [{ Anchor := [], Nullifiers := [some [1], some [1]], Commitments := [], Reward := 0 }],
    JSPubKey := none, JSSig := none, AddressLastByte := 0 }

/-- A chain every shard of which has an empty nullifier list. -/
def emptyChain : BlockChain := { FetchTxViewPoint := fun _ => some ⟨[]⟩ }

/-- A chain every shard of which has the nullifier `[1]` in its list. -/
def spentChain : BlockChain := { FetchTxViewPoint := fun _ => some ⟨[some [1]]⟩ }

/-- Three leaves added by two `Add` calls. -/
def sampleBatches : List (List Slice) := [[some [1]], [some [2], some [3]]]

/-- A chain in which only shard 1 has the nullifier `[1]` in its list. -/
def otherShardChain : BlockChain :=
  { FetchTxViewPoint := fun c => if c = 1 then some ⟨[some [1]]⟩ else some ⟨[]⟩ }

/-- A toy signature scheme whose verification depends on the message: the
signature of `data` under a key is `(2^255 + data, X)`. The double hash is the
sum of the bytes of the record, in the last of 32 bytes. -/
def sampleSigOracles : SigOracles :=
  { DoubleHashH := fun r => List.replicate 31 0 ++ [Fin.ofNat (r.foldl (fun a b => a + b.val) 0)]
    descToString := fun d => d.Nullifiers.flatMap fun n => n.getD []
    Sign := fun key data =>
      match key with
      | none => .error "nil key"
      | some k => .ok ⟨2 ^ 255 + bigIntSetBytes data, k.PublicKey.X⟩
    VerifySign := fun pk data r s => r == 2 ^ 255 + bigIntSetBytes data && s == pk.X }

/-- A signer that answers `(R, S) = (1, 2^255)`, with a verifier that accepts
exactly this signature. -/
def smallROracles : SigOracles :=
  { sampleSigOracles with
    Sign := fun _ _ => .ok ⟨1, 2 ^ 255⟩
    VerifySign := fun _ _ r s => r == 1 && s == 2 ^ 255 }

/-- A signing key whose public coordinates take 32 bytes each. -/
def sampleKey : PrivateKey := { PublicKey := ⟨2 ^ 255 + 5, 2 ^ 255 + 6⟩, D := 5 }

/-- An unsigned transaction as `NewTxTemplate` builds it around `sampleKey`. -/
def unsignedTx : Tx :=
  { Version := 1, Type_ := TxNormalType, LockTime := 0, Fee := 0, Descs := [],
    JSPubKey := PubKeyToByteArray sampleKey.PublicKey, JSSig := none, AddressLastByte := 0,
    txId := none, sigPrivKey := some sampleKey }

/-- The transaction `unsignedTx` after `SignTx` with the toy scheme. -/
def signedTx : Tx :=
  match SignTx sampleSigOracles unsignedTx with
  | .ok tx => tx
  | .error _ => unsignedTx

/-- A transaction with one description of reward 5. -/
def rewardTx : Tx :=
  { unsignedTx with
    Descs := [{ Anchor := [], Nullifiers := [], Commitments := [], Reward := 5 }] }

/-- Oracles that always succeed: insertion sorts, a witness builder returning
the caller's root for every chain with an input, a prover writing the
commitment of `GetCommitment` into every output. -/
def sampleTxOracles : TxOracles :=
  { sortNotes := List.insertionSort fun x y => x.note.Value ≤ y.note.Value
    sortPayments := List.insertionSort fun x y => x.Amount ≤ y.Amount
    ImportKey := fun k => { Apk := some k, Pkenc := some k }
    GetCommitment := fun n => some [Fin.ofNat n.Value]
    BuildWitnessPathMultiChain := fun wit _ => .ok (wit.map fun e => (e.1, some [e.1]))
    Prove := fun _ outs _ _ _ _ => .ok (outs.map fun x => some [Fin.ofNat x.OutputNote.Value])
    RandNote := fun _ _ => { Value := 0, Apk := none, Nf := none, Cm := none }
    RandEncKey := fun _ _ => none
    GenerateKey := .ok ⟨⟨2 ^ 255 + 5, 2 ^ 255 + 6⟩, 5⟩
    now := 0
    TxVersion := 1
    sig := sampleSigOracles }

/-- A sender holding one note of value 7 on chain 0, paying 3 and 2 with fee 1. -/
def fundedArgs : CreateTxArgs :=
  { senderKey := [1]
    paymentInfo := [⟨⟨some [2], some [2]⟩, 3, 1⟩, ⟨⟨some [3], some [3]⟩, 2, 2⟩]
    rts := [(0, [0])]
    usableTx := [(0, [{ unsignedTx with
      Descs := [{ Anchor := [], Nullifiers := [], Commitments := [], Reward := 0,
                  note := [{ Value := 7, Apk := some [1], Nf := some [7], Cm := none }] }] }])]
    nullifiers := []
    commitments := [(0, [some [7]])]
    fee := 1
    senderChainID := 0 }

/-- The transaction and the rounds of `CreateTx` on `fundedArgs`. -/
def fundedRun : Tx × List Round :=
  match CreateTx sampleTxOracles fundedArgs 10 with
  | some (.returned (.ok p)) => p
  | _ => (unsignedTx, [])

/-- A sender holding one note of value 5 on chain 0, asked to pay `2^64 - 1` and
2 with fee 0: the payments add up to `2^64 + 1`, which is 1 in `uint64`. -/
def overflowArgs : CreateTxArgs :=
  { senderKey := [1]
    paymentInfo := [⟨⟨some [2], some [2]⟩, 2 ^ 64 - 1, 1⟩, ⟨⟨some [3], some [3]⟩, 2, 2⟩]
    rts := [(0, [0])]
    usableTx := [(0, [{ unsignedTx with
      Descs := [{ Anchor := [], Nullifiers := [], Commitments := [], Reward := 0,
                  note := [{ Value := 5, Apk := some [1], Nf := some [5], Cm := none }] }] }])]
    nullifiers := []
    commitments := [(0, [some [5]])]
    fee := 0
    senderChainID := 0 }

/-- The loop state of `CreateTx` on `overflowArgs` after the funds check. -/
def overflowInit : LoopState :=
  match CreateTx.init sampleTxOracles overflowArgs with
  | .returned (.ok st) => st
  | _ => { inputNotes := [], paymentInfo := [], commitments := [], latestAnchor := none,
           tx := unsignedTx, rounds := [] }

/-- The loop state of `CreateTx` on `overflowArgs` after the first round. -/
def overflowRound1 : LoopState :=
  match CreateTx.round sampleTxOracles overflowArgs overflowInit with
  | .returned (.ok st) => st
  | _ => overflowInit

/-- A sender holding one note of value 1 on each of the chains 0, 1 and 2, with
no payment and fee 3. -/
def smallFeeArgs : CreateTxArgs :=
  { senderKey := [1]
    paymentInfo := []
    rts := [(0, [0]), (1, [1]), (2, [2])]
    usableTx := [0, 1, 2].map fun c =>
      (c, [{ unsignedTx with
        Descs := [{ Anchor := [], Nullifiers := [], Commitments := [], Reward := 0,
                    note := [{ Value := 1, Apk := some [1], Nf := some [c], Cm := none }] }] }])
    nullifiers := []
    commitments := [(0, [some [1]]), (1, [some [1]]), (2, [some [1]])]
    fee := 3
    senderChainID := 0 }

/-- The scenario of section 8: a sender holding the notes 7 and 3 on chain 0,
the sender's chain, paying 9 with fee 1. -/
def splitArgs : CreateTxArgs :=
  { senderKey := [1]
    paymentInfo := [⟨⟨some [2], some [2]⟩, 9, 1⟩]
    rts := [(0, [0])]
    usableTx := [(0, [{ unsignedTx with
      Descs := [{ Anchor := [], Nullifiers := [], Commitments := [], Reward := 0,
                  note := [{ Value := 7, Apk := some [1], Nf := some [7], Cm := none },
                           { Value := 3, Apk := some [1], Nf := some [3], Cm := none }] }] }])]
    nullifiers := []
    commitments := [(0, [some [7], some [3]])]
    fee := 1
    senderChainID := 0 }

/-- The transaction and the rounds of `CreateTx` on `splitArgs`. -/
def splitRun : Tx × List Round :=
  match CreateTx sampleTxOracles splitArgs 10 with
  | some (.returned (.ok p)) => p
  | _ => (unsignedTx, [])

/-- A transaction of type `TxSalaryType` with one description of reward 5. -/
def salaryTx : Tx :=
  { Version := 1, Type_ := TxSalaryType, LockTime := 0, Fee := 0,
    Descs := [{ Anchor := [], Nullifiers := [], Commitments := [], Reward := 5 }],
    JSPubKey := none, JSSig := none, AddressLastByte := 0 }

/-- A stand-in for SHAKE-256: the first `n` bytes of the data followed by the
byte 1, filled up with zero bytes. -/
def sampleShake (n : Nat) (data : Slice) : Bytes :=
  ((data.getD [] ++ [1]).take n) ++ List.replicate (n - ((data.getD [] ++ [1]).take n).length) 0

/-- A chain with one best state, whose list of loan ids holds `[9]`, and three
loans on record: loan `[1]` with a request (hash `[1]`, key digest of the key
`[7]`) and an accepting response (hash `[2]`), loan `[2]` with a rejecting
response only (hash `[3]`), and loan `[3]` with a request only (hash `[4]`). -/
def loanChain : BlockChain :=
  { FetchTxViewPoint := fun _ => some ⟨[]⟩
    BestState := [{ BestBlock := ⟨⟨⟨1, 2, 3⟩⟩⟩, LoanIDs := [some [9]] }]
    GetLoanTxs := fun id =>
      if id = some [1] then .ok [some [1], some [2]]
      else if id = some [2] then .ok [some [3]]
      else if id = some [3] then .ok [some [4]]
      else .ok []
    GetTransactionByHash := fun h =>
      if h = copyHash (some [1]) then
        (some (.ofTxLoanRequest ⟨⟨1, 2, 3⟩, some [1], some (sampleShake 32 (some [7]))⟩), none)
      else if h = copyHash (some [2]) then
        (some (.ofTxLoanResponse ⟨some [1], .Accept⟩), none)
      else if h = copyHash (some [3]) then
        (some (.ofTxLoanResponse ⟨some [2], .Reject⟩), none)
      else if h = copyHash (some [4]) then
        (some (.ofTxLoanRequest ⟨⟨1, 2, 3⟩, some [3], none⟩), none)
      else (none, some "not found") }

/-- A dividend payout with one description that carries one plaintext note of
value 5 for the receiver `[7]`. -/
def payoutTx : Tx :=
  { Version := 1, Type_ := TxDividendPayoutType, LockTime := 0, Fee := 0,
    Descs := [{ Anchor := [], Nullifiers := [], Commitments := [], Reward := 0,
                Note := some [{ Value := 5, Apk := some [7], Nf := none, Cm := none }] }],
    JSPubKey := none, JSSig := none, AddressLastByte := 0 }

/-- A sender holding the notes 1, 2 and 3 on chain 0, the sender's chain, paying
5 with fee 1. -/
def threeNotesArgs : CreateTxArgs :=
  { senderKey := [1]
    paymentInfo := [⟨⟨some [2], some [2]⟩, 5, 1⟩]
    rts := [(0, [0])]
    usableTx := [(0, [{ unsignedTx with
      Descs := [{ Anchor := [], Nullifiers := [], Commitments := [], Reward := 0,
                  note := [{ Value := 1, Apk := some [1], Nf := some [1], Cm := none },
                           { Value := 2, Apk := some [1], Nf := some [2], Cm := none },
                           { Value := 3, Apk := some [1], Nf := some [3], Cm := none }] }] }])]
    nullifiers := []
    commitments := [(0, [some [1], some [2], some [3]])]
    fee := 1
    senderChainID := 0 }

/-- The loop state of `CreateTx` on `threeNotesArgs` after the funds check. -/
def threeNotesInit : LoopState :=
  match CreateTx.init sampleTxOracles threeNotesArgs with
  | .returned (.ok st) => st
  | _ => { inputNotes := [], paymentInfo := [], commitments := [], latestAnchor := none,
           tx := unsignedTx, rounds := [] }

/-- The loop state of `CreateTx` on `smallFeeArgs` after the funds check. -/
def smallFeeInit : LoopState :=
  match CreateTx.init sampleTxOracles smallFeeArgs with
  | .returned (.ok st) => st
  | _ => { inputNotes := [], paymentInfo := [], commitments := [], latestAnchor := none,
           tx := unsignedTx, rounds := [] }

/-- A stand-in for a coin: its owner's key and its value. -/
structure SampleCoin where
  key : Bytes
  value : Nat
  deriving DecidableEq, Repr

/-- Stand-ins for the coin and proof code: a coin is written as the byte 1
(version 1) or 2 (version 2), the length of its key, the key and the value in
one byte; a serial-number proof is a list of bytes written as it is, of size 3,
and verifies when its first byte is 1; the commitment of a coin is its value in
one byte and no coin is encrypted. -/
def sampleConversionOracles : ConversionOracles SampleCoin SampleCoin Bytes :=
  { ConversionProofVersion := 255
    SnNoPrivacyProofSize := 3
    coinV1Bytes := fun c => [1, Fin.ofNat c.key.length] ++ c.key ++ [Fin.ofNat c.value]
    coinV2Bytes := fun c => [2, Fin.ofNat c.key.length] ++ c.key ++ [Fin.ofNat c.value]
    NewPlainCoinFromByte := fun b =>
      match b with
      | v :: n :: rest =>
        if rest.length ≠ n.val + 1 then .error "wrong length"
        else if v = 1 then .ok (.ofV1 ⟨rest.take n.val, ((rest.drop n.val).headD 0).val⟩)
        else if v = 2 then .ok (.ofV2 ⟨rest.take n.val, ((rest.drop n.val).headD 0).val⟩)
        else .error "wrong version"
      | _ => .error "too short"
    snBytes := fun p => p
    snSetBytes := fun b => if b.length = 3 then .ok b else .error "wrong size"
    v1IsEncrypted := fun _ => false
    v1PublicKey := fun c => some c.key
    v1Commitment := fun c => some [Fin.ofNat c.value]
    CommitAll := fun c => c
    v1Value := fun c => c.value
    v2IsEncrypted := fun _ => false
    v2Value := fun c => c.value
    snVerify := fun p => (p.head? = some 1, none) }

/-- A conversion proof with the input coins 5 and 4 of the key `[7]`, the output
coin 8 and two serial-number proofs. -/
def sampleConversion : ConversionProofVer1ToVer2 SampleCoin SampleCoin Bytes :=
  { Version := 255
    inputCoins := [⟨[7], 5⟩, ⟨[7], 4⟩]
    outputCoins := [⟨[9], 8⟩]
    serialNumberNoPrivacyProof := [[1, 2, 3], [1, 5, 6]] }

/-- A conversion proof with one input coin of value 5 of the key `[7]`, one
output coin of value `2^64 - 1` and one serial-number proof that verifies. -/
def wrapConversion : ConversionProofVer1ToVer2 SampleCoin SampleCoin Bytes :=
  { Version := 255
    inputCoins := [⟨[7], 5⟩]
    outputCoins := [⟨[9], 2 ^ 64 - 1⟩]
    serialNumberNoPrivacyProof := [[1, 2, 3]] }

/-- A sender holding the notes 2, 3 and 4 on chain 0 and as many on chain 1,
asked to pay 9 twice through one and the same pointer (address 1), with fee 0
and chain 0 as the sender's chain. -/
def aliasArgs : CreateTxArgs :=
  { senderKey := [1]
    paymentInfo := [⟨⟨some [2], some [2]⟩, 9, 1⟩, ⟨⟨some [2], some [2]⟩, 9, 1⟩]
    rts := [(0, [0]), (1, [1])]
    usableTx := [0, 1].map fun c =>
      (c, [{ unsignedTx with
        Descs := [{ Anchor := [], Nullifiers := [], Commitments := [], Reward := 0,
                    note := [2, 3, 4].map fun v =>
                      { Value := v, Apk := some [1], Nf := some [c, Fin.ofNat v],
                        Cm := none } }] }])
    nullifiers := []
    commitments := [(0, [some [2], some [3], some [4]]), (1, [some [2], some [3], some [4]])]
    fee := 0
    senderChainID := 0 }

/-- The transaction and the rounds of `CreateTx` on `aliasArgs`. -/
def aliasRun : Tx × List Round :=
  match CreateTx sampleTxOracles aliasArgs 10 with
  | some (.returned (.ok p)) => p
  | _ => (unsignedTx, [])

/-- The naive builder on the three-leaf scenario of the specification:
`H(H(H(d0), H(d1)), H(H(d2), H(d2)))`. -/
theorem naiveRoot_three (hasher : Hasher) (d0 d1 d2 : Slice) :
    naiveRoot hasher [d0, d1, d2]
      = some (hasher [hasher [hasher [d0], hasher [d1]], hasher [hasher [d2], hasher [d2]]]) :=
  rfl

/-- The naive builder on the two-leaf scenario: `H(H(d0), H(d1))`. -/
theorem naiveRoot_two (hasher : Hasher) (d0 d1 : Slice) :
    naiveRoot hasher [d0, d1] = some (hasher [hasher [d0], hasher [d1]]) :=
  rfl

theorem hasher_eq_hashB {hasher : Hasher} (hnn : hasher.NonNil) (args : List Slice) :
    hasher args = some (hashB hasher args) := by
  unfold hashB
  cases h : hasher args with
  | none => exact absurd h (hnn args)
  | some b => rfl

theorem unpairedB_append (b : Bytes) : ∀ xs : List Bytes,
    unpairedB (xs ++ [b]) = match unpairedB xs with
      | none => some b
      | some _ => none
  | [] => rfl
  | [_] => rfl
  | _ :: _ :: rest => by simpa [unpairedB] using unpairedB_append b rest

theorem pairsB_append (hasher : Hasher) (b : Bytes) : ∀ xs : List Bytes,
    pairsB hasher (xs ++ [b]) = match unpairedB xs with
      | none => pairsB hasher xs
      | some l => pairsB hasher xs ++ [hashB hasher [some l, some b]]
  | [] => rfl
  | [_] => rfl
  | x :: y :: rest => by
    have ih := pairsB_append hasher b rest
    show hashB hasher [some x, some y] :: pairsB hasher (rest ++ [b]) = _
    rw [ih]
    simp only [unpairedB, pairsB]
    cases unpairedB rest <;> rfl

theorem pairsB_length (hasher : Hasher) : ∀ xs : List Bytes,
    (pairsB hasher xs).length = xs.length / 2
  | [] => rfl
  | [_] => by simp [pairsB]
  | _ :: _ :: rest => by
    simp only [pairsB, List.length_cons, pairsB_length hasher rest]
    omega

theorem unpairedB_none_iff : ∀ xs : List Bytes, unpairedB xs = none ↔ xs.length % 2 = 0
  | [] => by simp [unpairedB]
  | [_] => by simp [unpairedB]
  | _ :: _ :: rest => by
    simp only [unpairedB, List.length_cons, unpairedB_none_iff rest]
    omega

theorem addFrom_nil (hasher : Hasher) (h : Slice) : addFrom hasher [] h = [h] := rfl

theorem addFrom_none (hasher : Hasher) (rest : List Slice) (h : Slice) :
    addFrom hasher (none :: rest) h = h :: rest := rfl

theorem addFrom_some (hasher : Hasher) (s : Bytes) (rest : List Slice) (h : Slice) :
    addFrom hasher (some s :: rest) h = none :: addFrom hasher rest (hasher [some s, h]) := by
  simp only [addFrom, addLoop]
  split <;> rfl

theorem Frontier.nil_inv {hasher : Hasher} {xs : List Bytes} (h : Frontier hasher [] xs) :
    xs = [] := by
  cases h
  rfl

theorem Frontier.add {hasher : Hasher} (hnn : hasher.NonNil) {nodes : List Slice}
    {xs : List Bytes} (hF : Frontier hasher nodes xs) (b : Bytes) :
    Frontier hasher (addFrom hasher nodes (some b)) (xs ++ [b]) := by
  induction hF generalizing b with
  | nil =>
    rw [addFrom_nil]
    exact @Frontier.cons hasher [b] [] (by simp) Frontier.nil
  | @cons xs rest hne hF ih =>
    have hu := unpairedB_append b xs
    have hp := pairsB_append hasher b xs
    cases hx : unpairedB xs with
    | none =>
      rw [hx] at hu hp
      rw [addFrom_none]
      have := @Frontier.cons hasher (xs ++ [b]) rest (by simp)
        (by rw [hp]; exact hF)
      rwa [hu] at this
    | some l =>
      rw [hx] at hu hp
      rw [addFrom_some, hasher_eq_hashB hnn]
      have := @Frontier.cons hasher (xs ++ [b]) _ (by simp)
        (by rw [hp]; exact ih (hashB hasher [some l, some b]))
      rwa [hu] at this

theorem Frontier.of_nil {hasher : Hasher} {nodes : List Slice}
    (h : Frontier hasher nodes []) : nodes = [] := by
  cases h with
  | nil => rfl
  | cons hne _ => exact absurd rfl hne

theorem Frontier.nodes_ne_nil {hasher : Hasher} {nodes : List Slice} {xs : List Bytes}
    (hF : Frontier hasher nodes xs) (hne : xs ≠ []) : nodes ≠ [] := by
  cases hF with
  | nil => exact absurd rfl hne
  | cons _ _ => simp

theorem naiveLevel_map {hasher : Hasher} (hnn : hasher.NonNil) : ∀ xs : List Bytes,
    naiveLevel hasher (xs.map some) = (pairsB hasher xs ++ padB hasher xs).map some
  | [] => rfl
  | [x] => by simp [naiveLevel, pairsB, padB, unpairedB, hasher_eq_hashB hnn]
  | x :: y :: rest => by
    have ih := naiveLevel_map hnn rest
    simp only [List.map_cons, naiveLevel, pairsB, padB, unpairedB, List.cons_append] at ih ⊢
    rw [ih, hasher_eq_hashB hnn]

theorem naiveReduce_succ (hasher : Hasher) (fuel : Nat) (l : List Slice) (h : 2 ≤ l.length) :
    naiveReduce hasher (fuel + 1) l = naiveReduce hasher fuel (naiveLevel hasher l) := by
  match l, h with
  | _ :: _ :: _, _ => rfl

theorem climb_eq_naive {hasher : Hasher} (hnn : hasher.NonNil) {nodes : List Slice}
    {ys : List Bytes} (hF : Frontier hasher nodes ys) (r : Bytes) (fuel : Nat)
    (hfuel : ys.length + 1 ≤ fuel) :
    naiveReduce hasher fuel ((ys ++ [r]).map some) = some (climb hasher (some r) nodes) := by
  induction hF generalizing r fuel with
  | nil =>
    cases fuel <;> rfl
  | @cons ys rest hne hF ih =>
    have hlen : 1 ≤ ys.length := by
      cases ys with
      | nil => exact absurd rfl hne
      | cons _ _ => simp
    obtain ⟨f, rfl⟩ : ∃ f, fuel = f + 1 := ⟨fuel - 1, by omega⟩
    rw [naiveReduce_succ _ _ _ (by simp; omega), naiveLevel_map hnn]
    have hu := unpairedB_append r ys
    have hp := pairsB_append hasher r ys
    have hpl := pairsB_length hasher ys
    cases hx : unpairedB ys with
    | none =>
      rw [hx] at hu hp
      have hev := (unpairedB_none_iff ys).1 hx
      simp only [padB, hu, hp, climb]
      rw [hasher_eq_hashB hnn]
      exact ih _ f (by omega)
    | some l =>
      rw [hx] at hu hp
      simp only [padB, hu, hp, climb, List.append_nil]
      rw [hasher_eq_hashB hnn]
      exact ih _ f (by omega)

theorem rootOf_eq_naive {hasher : Hasher} (hnn : hasher.NonNil) {nodes : List Slice}
    {xs : List Bytes} (hF : Frontier hasher nodes xs) (hne : xs ≠ []) (fuel : Nat)
    (hfuel : xs.length ≤ fuel) :
    naiveReduce hasher fuel (xs.map some) = some (rootOf hasher nodes) := by
  induction hF generalizing fuel with
  | nil => exact absurd rfl hne
  | @cons xs rest hxs hF ih =>
    rcases xs with _ | ⟨x, _ | ⟨y, r⟩⟩
    · exact absurd rfl hxs
    · have : rest = [] := Frontier.of_nil hF
      subst this
      cases fuel <;> rfl
    · obtain ⟨f, rfl⟩ : ∃ f, fuel = f + 1 := ⟨fuel - 1, by simp at hfuel; omega⟩
      have hpl := pairsB_length hasher (x :: y :: r)
      have hpne : pairsB hasher (x :: y :: r) ≠ [] := by simp [pairsB]
      rw [naiveReduce_succ _ _ _ (by simp), naiveLevel_map hnn]
      cases hx : unpairedB (x :: y :: r) with
      | none =>
        simp only [padB, hx, List.append_nil, rootOf]
        exact ih hpne f (by simp at hfuel hpl ⊢; omega)
      | some l =>
        have hrne := hF.nodes_ne_nil hpne
        obtain ⟨t, rest2, rfl⟩ : ∃ t rest2, rest = t :: rest2 := by
          cases rest with
          | nil => exact absurd rfl hrne
          | cons t rest2 => exact ⟨t, rest2, rfl⟩
        simp only [padB, hx, rootOf]
        rw [hasher_eq_hashB hnn]
        have hodd : ¬ ((x :: y :: r).length % 2 = 0) := by
          rw [← unpairedB_none_iff, hx]
          simp
        exact climb_eq_naive hnn hF _ f (by simp at hfuel hpl hodd ⊢; omega)

theorem climbLoop_length (hasher : Hasher) (k : Nat) : ∀ (sibs : List Slice) (i : Nat)
    (root : Slice) (paths : List Slice),
    (climbLoop hasher k sibs i root paths).2.length = paths.length
  | [], _, _, _ => rfl
  | _ :: rest, i, _, _ => by
    simp only [climbLoop]
    rw [climbLoop_length hasher k rest (i + 1)]
    simp

theorem climbLoop_last (hasher : Hasher) (k : Nat) : ∀ (sibs : List Slice) (i : Nat)
    (root : Slice) (paths : List Slice), sibs ≠ [] →
    k + i + sibs.length + 2 = paths.length →
    (climbLoop hasher k sibs i root paths).2.getD (paths.length - 1) none
      = climb hasher root sibs
  | [], _, _, _, hne, _ => absurd rfl hne
  | [sib], i, root, paths, _, hlen => by
    have hidx : k + i + 2 = paths.length - 1 := by simp at hlen; omega
    cases sib <;>
      simp only [climbLoop, climb, hidx] <;>
      rw [List.getD_eq_getElem?_getD, List.getElem?_set_self (by omega)] <;> rfl
  | sib :: s2 :: rest, i, root, paths, _, hlen => by
    have ih := climbLoop_last hasher k (s2 :: rest) (i + 1)
    cases sib with
    | none =>
      simp only [climbLoop, climb]
      have := ih (hasher [root, root]) (paths.set (k + i + 2) (hasher [root, root]))
        (by simp) (by simp at hlen ⊢; omega)
      simpa using this
    | some s =>
      simp only [climbLoop, climb]
      have := ih (hasher [some s, root]) (paths.set (k + i + 2) (hasher [some s, root]))
        (by simp) (by simp at hlen ⊢; omega)
      simpa using this

theorem firstNonNil_replicate (s : Bytes) (rest : List Slice) : ∀ (k i : Nat),
    firstNonNil (List.replicate k none ++ some s :: rest) i = some (i + k, s)
  | 0, i => rfl
  | k + 1, i => by
    show firstNonNil (List.replicate k none ++ some s :: rest) (i + 1) = _
    rw [firstNonNil_replicate s rest k (i + 1)]
    congr 2
    omega

theorem rootOf_replicate (hasher : Hasher) (l : List Slice) : ∀ k : Nat,
    rootOf hasher (List.replicate k none ++ l) = rootOf hasher l
  | 0 => rfl
  | k + 1 => by
    show rootOf hasher (List.replicate k none ++ l) = _
    exact rootOf_replicate hasher l k

/-- Every list with a non-nil entry splits at its first non-nil entry. -/
theorem exists_split_of_nonNil : ∀ nodes : List Slice, (∃ x ∈ nodes, x ≠ none) →
    ∃ k s rest, nodes = List.replicate k none ++ some s :: rest
  | [], h => by simp at h
  | some s :: rest, _ => ⟨0, s, rest, rfl⟩
  | none :: rest, h => by
    have h2 : ∃ x ∈ rest, x ≠ none := by
      obtain ⟨x, hx, hxn⟩ := h
      rcases List.mem_cons.1 hx with rfl | hx
      · exact absurd rfl hxn
      · exact ⟨x, hx, hxn⟩
    obtain ⟨k, s, r, hr⟩ := exists_split_of_nonNil rest h2
    exact ⟨k + 1, s, r, by rw [hr]; rfl⟩

theorem GetRoot_eq_rootOf (tree : IncrementalMerkleTree) (hlen : tree.length ≠ 0)
    (hex : ∃ x ∈ tree.nodes, x ≠ none) :
    tree.GetRoot = rootOf tree.hasher tree.nodes := by
  obtain ⟨k, s, rest, hsplit⟩ := exists_split_of_nonNil tree.nodes hex
  have hfirst : firstNonNil tree.nodes 0 = some (k, s) := by
    rw [hsplit, firstNonNil_replicate]
    simp
  have hnl : tree.nodes.length = k + 1 + rest.length := by
    rw [hsplit]
    simp
    omega
  have hdrop : tree.nodes.drop (k + 1) = rest := by
    rw [hsplit, List.drop_append_eq_append_drop]
    simp
  have hroot : rootOf tree.hasher tree.nodes = rootOf tree.hasher (some s :: rest) := by
    rw [hsplit, rootOf_replicate]
  rw [hroot]
  unfold IncrementalMerkleTree.GetRoot IncrementalMerkleTree.GetPathToRoot
  rw [if_neg hlen, hfirst]
  simp only [hdrop]
  cases rest with
  | nil =>
    have h1 : k + 1 ≥ tree.nodes.length := by simp at hnl; omega
    rw [if_pos h1]
    simp only [List.length_set, List.length_replicate, rootOf]
    rw [List.getD_eq_getElem?_getD, List.getElem?_set_self (by simp)]
    rfl
  | cons t rest2 =>
    have h1 : ¬ (k + 1 ≥ tree.nodes.length) := by simp at hnl; omega
    rw [if_neg h1]
    simp only [rootOf]
    rw [climbLoop_length]
    have := climbLoop_last tree.hasher k (t :: rest2) 0 (tree.hasher [some s, some s])
      (((List.replicate (tree.nodes.length + 1) (none : Slice)).set k (some s)).set (k + 1)
        (tree.hasher [some s, some s])) (by simp) (by simp at hnl ⊢; omega)
    simpa using this

theorem foldl_Add_hasher : ∀ (batches : List (List Slice)) (tree : IncrementalMerkleTree),
    (batches.foldl IncrementalMerkleTree.Add tree).hasher = tree.hasher
  | [], _ => rfl
  | b :: bs, tree => by
    rw [List.foldl_cons, foldl_Add_hasher bs]
    rfl

theorem foldl_Add_nodes : ∀ (batches : List (List Slice)) (tree : IncrementalMerkleTree),
    (batches.foldl IncrementalMerkleTree.Add tree).nodes
      = batches.flatten.foldl (addOne tree.hasher) tree.nodes
  | [], _ => rfl
  | b :: bs, tree => by
    rw [List.foldl_cons, foldl_Add_nodes bs, List.flatten_cons, List.foldl_append]
    rfl

theorem foldl_Add_length : ∀ (batches : List (List Slice)) (tree : IncrementalMerkleTree),
    tree.length < u64 →
    (batches.foldl IncrementalMerkleTree.Add tree).length
      = (tree.length + batches.flatten.length) % u64
  | [], tree, h => by simp [Nat.mod_eq_of_lt h]
  | b :: bs, tree, _ => by
    have hpos : 0 < u64 := by unfold u64; positivity
    rw [List.foldl_cons, foldl_Add_length bs _ (Nat.mod_lt _ hpos)]
    simp only [IncrementalMerkleTree.Add, List.flatten_cons, List.length_append]
    rw [Nat.mod_add_mod, Nat.add_assoc]

theorem Frontier.foldl_addOne {hasher : Hasher} (hnn : hasher.NonNil) :
    ∀ (ds : List Slice) {nodes : List Slice} {xs : List Bytes}, Frontier hasher nodes xs →
    Frontier hasher (ds.foldl (addOne hasher) nodes)
      (xs ++ ds.map fun d => hashB hasher [d])
  | [], _, _, hF => by simpa using hF
  | d :: ds, _, _, hF => by
    have h1 := hF.add hnn (hashB hasher [d])
    rw [← hasher_eq_hashB hnn] at h1
    have h2 := Frontier.foldl_addOne hnn ds h1
    simpa [addOne] using h2

theorem afterAdds_frontier {hasher : Hasher} (hnn : hasher.NonNil)
    (batches : List (List Slice)) :
    Frontier hasher (afterAdds hasher batches).nodes
      (batches.flatten.map fun d => hashB hasher [d]) := by
  unfold afterAdds
  rw [foldl_Add_nodes]
  simpa [NewIncrementalMerkleTree] using
    Frontier.foldl_addOne hnn batches.flatten (@Frontier.nil hasher)

theorem afterAdds_length (hasher : Hasher) (batches : List (List Slice))
    (hlt : batches.flatten.length < u64) :
    (afterAdds hasher batches).length = batches.flatten.length := by
  unfold afterAdds
  rw [foldl_Add_length _ _ (by unfold u64; simp [NewIncrementalMerkleTree])]
  simp only [NewIncrementalMerkleTree, Nat.zero_add]
  exact Nat.mod_eq_of_lt hlt

theorem afterAdds_hasher (hasher : Hasher) (batches : List (List Slice)) :
    (afterAdds hasher batches).hasher = hasher := by
  unfold afterAdds
  rw [foldl_Add_hasher]
  rfl

theorem Frontier.bit {hasher : Hasher} {nodes : List Slice} {xs : List Bytes}
    (hF : Frontier hasher nodes xs) :
    ∀ i, i < nodes.length → ((∃ b, nodes[i]? = some (some b)) ↔ xs.length / 2 ^ i % 2 = 1) := by
  induction hF with
  | nil => intro i hi; simp at hi
  | @cons xs rest _ hF ih =>
    intro i hi
    cases i with
    | zero =>
      have := unpairedB_none_iff xs
      simp only [List.getElem?_cons_zero, Option.some.injEq, pow_zero, Nat.div_one]
      cases hx : unpairedB xs with
      | none => simp [hx] at this ⊢; omega
      | some l => simp [hx] at this ⊢; omega
    | succ j =>
      have := ih j (by simpa using hi)
      rw [pairsB_length, Nat.div_div_eq_div_mul, ← pow_succ'] at this
      simpa using this

theorem Frontier.lt_pow {hasher : Hasher} {nodes : List Slice} {xs : List Bytes}
    (hF : Frontier hasher nodes xs) : xs.length < 2 ^ nodes.length := by
  induction hF with
  | nil => simp
  | @cons xs rest _ hF ih =>
    rw [pairsB_length] at ih
    rw [List.length_cons, pow_succ]
    omega

theorem Frontier.top {hasher : Hasher} {nodes : List Slice} {xs : List Bytes}
    (hF : Frontier hasher nodes xs) : nodes ≠ [] → ∃ b, nodes.getLast? = some (some b) := by
  induction hF with
  | nil => intro h; exact absurd rfl h
  | @cons xs rest hne hF ih =>
    intro _
    cases rest with
    | nil =>
      have h0 : pairsB hasher xs = [] := hF.nil_inv
      have hl := pairsB_length hasher xs
      rw [h0] at hl
      have hpos : 0 < xs.length := List.length_pos.2 hne
      have hodd : ¬ (xs.length % 2 = 0) := by simp at hl; omega
      rw [← unpairedB_none_iff] at hodd
      cases hx : unpairedB xs with
      | none => exact absurd hx hodd
      | some l => exact ⟨l, rfl⟩
    | cons t rest2 =>
      rw [List.getLast?_cons_cons]
      exact ih (by simp)

theorem Frontier.exists_nonNil {hasher : Hasher} {nodes : List Slice} {xs : List Bytes}
    (hF : Frontier hasher nodes xs) (hne : xs ≠ []) : ∃ x ∈ nodes, x ≠ none := by
  obtain ⟨b, hb⟩ := hF.top (hF.nodes_ne_nil hne)
  exact ⟨some b, List.mem_of_mem_getLast? (by rw [hb]; rfl), by simp⟩

theorem simLoop_eq_simWalk (hasher : Hasher) : ∀ (nodes : List Slice) (h : Slice) (id : Nat)
    (un : List Slice) (ui : List Nat),
    (if (simLoop hasher nodes h id un ui).2.2.2.2
      then ((simLoop hasher nodes h id un ui).1, (simLoop hasher nodes h id un ui).2.1)
      else ((simLoop hasher nodes h id un ui).1 ++ [(simLoop hasher nodes h id un ui).2.2.1],
            (simLoop hasher nodes h id un ui).2.1 ++ [(simLoop hasher nodes h id un ui).2.2.2.1]))
      = (un ++ (simWalk hasher nodes h id).1, ui ++ (simWalk hasher nodes h id).2)
  | [], _, _, _, _ => rfl
  | none :: _, _, _, _, _ => rfl
  | some s :: rest, h, id, un, ui => by
    have ih := simLoop_eq_simWalk hasher rest (hasher [some s, h]) (id / 2) (un ++ [h]) (ui ++ [id])
    simp only [simLoop, simWalk]
    rw [ih]
    simp

theorem SimulateAdd_eq (tree : IncrementalMerkleTree) (d : Slice) :
    (tree.SimulateAdd d).1 =
      ((simWalk tree.hasher tree.nodes (tree.hasher [d]) tree.length).1,
       (simWalk tree.hasher tree.nodes (tree.hasher [d]) tree.length).2, none) := by
  have := simLoop_eq_simWalk tree.hasher tree.nodes (tree.hasher [d]) tree.length [] []
  simp only [List.nil_append] at this
  simp only [IncrementalMerkleTree.SimulateAdd]
  rw [this]

theorem simWalk_fst_ne_nil (hasher : Hasher) : ∀ (nodes : List Slice) (h : Slice) (id : Nat),
    1 ≤ (simWalk hasher nodes h id).1.length
  | [], _, _ => by simp [simWalk]
  | none :: _, _, _ => by simp [simWalk]
  | some _ :: _, _, _ => by simp [simWalk]

theorem simWalk_length_le (hasher : Hasher) : ∀ (nodes : List Slice) (h : Slice) (id : Nat),
    (simWalk hasher nodes h id).1.length ≤ nodes.length + 1
  | [], _, _ => by simp [simWalk]
  | none :: _, _, _ => by simp [simWalk]
  | some s :: rest, h, id => by
    have := simWalk_length_le hasher rest (hasher [some s, h]) (id / 2)
    simp only [simWalk, List.length_cons]
    omega

/-- Walk-level form of claim C5. -/
theorem addFrom_simWalk (hasher : Hasher) : ∀ (nodes : List Slice) (h : Slice) (id : Nat),
    (∀ i, i < (simWalk hasher nodes h id).1.length - 1 →
        (addFrom hasher nodes h)[i]? = some none) ∧
      (addFrom hasher nodes h)[(simWalk hasher nodes h id).1.length - 1]?
        = (simWalk hasher nodes h id).1[(simWalk hasher nodes h id).1.length - 1]? ∧
      (∀ i, (simWalk hasher nodes h id).1.length - 1 < i →
        (addFrom hasher nodes h)[i]? = nodes[i]?) ∧
      (addFrom hasher nodes h).length
        = max nodes.length (simWalk hasher nodes h id).1.length
  | [], h, id => by
    simp only [simWalk, addFrom_nil, List.length_cons, List.length_nil]
    refine ⟨by intro i hi; omega, by simp, ?_, by simp⟩
    intro i hi
    obtain ⟨j, rfl⟩ : ∃ j, i = j + 1 := ⟨i - 1, by omega⟩
    simp
  | none :: rest, h, id => by
    simp only [simWalk, addFrom_none, List.length_cons, List.length_nil]
    refine ⟨by intro i hi; omega, by simp, ?_, by omega⟩
    intro i hi
    obtain ⟨j, rfl⟩ : ∃ j, i = j + 1 := ⟨i - 1, by omega⟩
    simp
  | some s :: rest, h, id => by
    obtain ⟨ih1, ih2, ih3, ih4⟩ := addFrom_simWalk hasher rest (hasher [some s, h]) (id / 2)
    have hpos := simWalk_fst_ne_nil hasher rest (hasher [some s, h]) (id / 2)
    simp only [simWalk, addFrom_some, List.length_cons, Nat.add_sub_cancel]
    obtain ⟨t, ht⟩ : ∃ t, (simWalk hasher rest (hasher [some s, h]) (id / 2)).1.length = t + 1 :=
      ⟨_, (Nat.sub_add_cancel hpos).symm⟩
    rw [ht] at ih1 ih2 ih3 ih4 ⊢
    simp only [Nat.add_sub_cancel] at ih1 ih2 ih3
    refine ⟨?_, ?_, ?_, ?_⟩
    · intro i hi
      cases i with
      | zero => simp
      | succ j => simpa using ih1 j (by omega)
    · simpa using ih2
    · intro i hi
      obtain ⟨j, rfl⟩ : ∃ j, i = j + 1 := ⟨i - 1, by omega⟩
      simpa using ih3 j (by omega)
    · rw [ih4]
      omega

theorem simWalk_lengths (hasher : Hasher) : ∀ (nodes : List Slice) (h : Slice) (id : Nat),
    (simWalk hasher nodes h id).1.length = (simWalk hasher nodes h id).2.length
  | [], _, _ => rfl
  | none :: _, _, _ => rfl
  | some s :: rest, h, id => by
    simp only [simWalk, List.length_cons, simWalk_lengths hasher rest]

theorem simWalk_head (hasher : Hasher) : ∀ (nodes : List Slice) (h : Slice) (id : Nat),
    (simWalk hasher nodes h id).1[0]? = some h
  | [], _, _ => rfl
  | none :: _, _, _ => rfl
  | some _ :: _, _, _ => by simp [simWalk]

theorem simWalk_idxs (hasher : Hasher) : ∀ (nodes : List Slice) (h : Slice) (id : Nat) (i : Nat),
    i < (simWalk hasher nodes h id).2.length →
    (simWalk hasher nodes h id).2[i]? = some (id / 2 ^ i)
  | [], _, _, i, hi => by
    simp only [simWalk, List.length_cons, List.length_nil] at hi
    obtain rfl : i = 0 := by omega
    simp [simWalk]
  | none :: _, _, _, i, hi => by
    simp only [simWalk, List.length_cons, List.length_nil] at hi
    obtain rfl : i = 0 := by omega
    simp [simWalk]
  | some s :: rest, h, id, i, hi => by
    cases i with
    | zero => simp [simWalk]
    | succ j =>
      have := simWalk_idxs hasher rest (hasher [some s, h]) (id / 2) j
        (by simpa [simWalk] using hi)
      simp only [simWalk, List.getElem?_cons_succ, this, Nat.div_div_eq_div_mul, pow_succ']

theorem Frontier.simWalk_bits {hasher : Hasher} {nodes : List Slice} {xs : List Bytes}
    (hF : Frontier hasher nodes xs) (h : Slice) :
    (∀ i, i < (simWalk hasher nodes h xs.length).1.length - 1 → xs.length / 2 ^ i % 2 = 1) ∧
      xs.length / 2 ^ ((simWalk hasher nodes h xs.length).1.length - 1) % 2 = 0 := by
  induction hF generalizing h with
  | nil => simp [simWalk]
  | @cons xs rest _ hF ih =>
    have hiff := unpairedB_none_iff xs
    cases hx : unpairedB xs with
    | none =>
      simp only [simWalk, List.length_cons, List.length_nil]
      refine ⟨by intro i hi; omega, ?_⟩
      simpa using hiff.1 hx
    | some l =>
      have hodd : xs.length % 2 = 1 := by
        have : ¬ (xs.length % 2 = 0) := by rw [← hiff, hx]; simp
        omega
      obtain ⟨ih1, ih2⟩ := ih (hasher [some l, h])
      rw [pairsB_length] at ih1 ih2
      have hpos := simWalk_fst_ne_nil hasher rest (hasher [some l, h]) (xs.length / 2)
      obtain ⟨t, ht⟩ :
          ∃ t, (simWalk hasher rest (hasher [some l, h]) (xs.length / 2)).1.length = t + 1 :=
        ⟨_, (Nat.sub_add_cancel hpos).symm⟩
      simp only [simWalk, List.length_cons, Nat.add_sub_cancel]
      rw [ht] at ih1 ih2 ⊢
      simp only [Nat.add_sub_cancel] at ih1 ih2
      constructor
      · intro i hi
        cases i with
        | zero => simpa using hodd
        | succ j =>
          have := ih1 j (by omega)
          rwa [Nat.div_div_eq_div_mul, ← pow_succ'] at this
      · rwa [Nat.div_div_eq_div_mul, ← pow_succ'] at ih2

theorem writeNodes_below (st : Store) : ∀ (lvl : Nat) (ns : List Slice) (idxs : List Nat)
    (l i : Nat), l < lvl → writeNodes st lvl ns idxs l i = st l i
  | _, [], _, _, _, _ => rfl
  | _, _ :: _, [], _, _, _ => rfl
  | lvl, n :: ns, j :: idxs, l, i, hl => by
    rw [writeNodes, writeNodes_below _ (lvl + 1) ns idxs l i (by omega)]
    simp only [Store.put]
    rw [if_neg (by omega)]

theorem Stored.congr {hasher : Hasher} {st st2 : Store} {lvl : Nat} {xs : List Bytes}
    (hS : Stored hasher st lvl xs) (heq : ∀ l i, lvl ≤ l → st2 l i = st l i) :
    Stored hasher st2 lvl xs := by
  induction hS with
  | nil lvl => exact Stored.nil lvl
  | @cons lvl xs hne hrow _ ih =>
    refine Stored.cons hne ?_ (ih fun l i hl => heq l i (by omega))
    intro j hj
    rw [heq lvl j (le_refl _)]
    exact hrow j hj

theorem Stored.pairs {hasher : Hasher} {st : Store} {lvl : Nat} {xs : List Bytes}
    (hS : Stored hasher st lvl xs) : Stored hasher st (lvl + 1) (pairsB hasher xs) := by
  cases hS with
  | nil => exact Stored.nil _
  | cons _ _ h => exact h

theorem Stored.row {hasher : Hasher} {st : Store} {lvl : Nat} {xs : List Bytes}
    (hS : Stored hasher st lvl xs) : ∀ j, j < xs.length → st lvl j = (xs[j]?).map some := by
  cases hS with
  | nil => intro j hj; simp at hj
  | cons _ h _ => exact h

theorem row_put {st : Store} {lvl : Nat} {xs : List Bytes} (b : Bytes)
    (hrow : ∀ j, j < xs.length → st lvl j = (xs[j]?).map some) :
    ∀ j, j < (xs ++ [b]).length →
      (st.put lvl xs.length (some b)) lvl j = ((xs ++ [b])[j]?).map some := by
  intro j hj
  simp only [Store.put]
  by_cases hjx : j = xs.length
  · subst hjx
    simp
  · have hlt : j < xs.length := by simp at hj; omega
    rw [if_neg (by omega), hrow j hlt, List.getElem?_append_left hlt]

theorem Stored.step {hasher : Hasher} (hnn : hasher.NonNil) {nodes : List Slice}
    {xs : List Bytes} (hF : Frontier hasher nodes xs) (b : Bytes) (st : Store) (lvl : Nat)
    (hS : Stored hasher st lvl xs) :
    Stored hasher
      (writeNodes st lvl (simWalk hasher nodes (some b) xs.length).1
        (simWalk hasher nodes (some b) xs.length).2)
      lvl (xs ++ [b]) := by
  induction hF generalizing b st lvl with
  | nil =>
    simp only [simWalk, writeNodes, List.nil_append]
    refine Stored.cons (by simp) ?_ (Stored.nil _)
    intro j hj
    obtain rfl : j = 0 := by simpa using hj
    simp [Store.put]
  | @cons xs rest hne hF ih =>
    have hu := unpairedB_append b xs
    have hp := pairsB_append hasher b xs
    have hrow := row_put b hS.row
    cases hx : unpairedB xs with
    | none =>
      rw [hx] at hp
      simp only [simWalk, writeNodes]
      refine Stored.cons (by simp) hrow ?_
      rw [hp]
      exact hS.pairs.congr fun l i hl => by
        simp only [Store.put]
        rw [if_neg (by omega)]
    | some l =>
      rw [hx] at hp
      simp only [simWalk, writeNodes]
      rw [hasher_eq_hashB hnn]
      have hS1 : Stored hasher (st.put lvl xs.length (some b)) (lvl + 1) (pairsB hasher xs) :=
        hS.pairs.congr fun l i hl => by
          simp only [Store.put]
          rw [if_neg (by omega)]
      have h2 := ih (hashB hasher [some l, some b]) _ (lvl + 1) hS1
      rw [pairsB_length] at h2
      refine Stored.cons (by simp) ?_ (by rw [hp]; exact h2)
      intro j hj
      rw [writeNodes_below _ _ _ _ _ _ (by omega)]
      exact hrow j hj

theorem unpairedB_eq_last : ∀ (xs : List Bytes) (l : Bytes), unpairedB xs = some l →
    xs[xs.length - 1]? = some l
  | [], _, h => by simp [unpairedB] at h
  | [x], _, h => by simpa [unpairedB] using h
  | x :: y :: rest, l, h => by
    have hrest : unpairedB rest = some l := by simpa [unpairedB] using h
    have ih := unpairedB_eq_last rest l hrest
    have hne : rest ≠ [] := by
      rintro rfl
      simp [unpairedB] at hrest
    have hpos : 0 < rest.length := List.length_pos.2 hne
    have hidx : (x :: y :: rest).length - 1 = (rest.length - 1) + 2 := by
      simp only [List.length_cons]
      omega
    rw [hidx]
    simpa using ih

theorem Frontier.read_back {hasher : Hasher} {nodes : List Slice} {xs : List Bytes}
    (hF : Frontier hasher nodes xs) (st : Store) (lvl : Nat) (hS : Stored hasher st lvl xs) :
    ∀ i, xs.length / 2 ^ i % 2 = 1 →
      ∃ b, nodes[i]? = some (some b) ∧
        st (lvl + i) (xs.length / 2 ^ i - 1) = some (some b) := by
  induction hF generalizing lvl with
  | nil => intro i hi; simp at hi
  | @cons xs rest hne hF ih =>
    intro i hi
    cases i with
    | zero =>
      simp only [pow_zero, Nat.div_one] at hi ⊢
      have hodd : ¬ (xs.length % 2 = 0) := by omega
      rw [← unpairedB_none_iff] at hodd
      cases hx : unpairedB xs with
      | none => exact absurd hx hodd
      | some l =>
        refine ⟨l, by simp, ?_⟩
        rw [Nat.add_zero, hS.row _ (by omega), unpairedB_eq_last xs l hx]
        rfl
    | succ j =>
      have hi2 : (pairsB hasher xs).length / 2 ^ j % 2 = 1 := by
        rw [pairsB_length, Nat.div_div_eq_div_mul, ← pow_succ']
        exact hi
      obtain ⟨b, hb1, hb2⟩ := ih (lvl + 1) hS.pairs j hi2
      rw [pairsB_length, Nat.div_div_eq_div_mul, ← pow_succ'] at hb2
      refine ⟨b, by simpa using hb1, ?_⟩
      rw [← hb2]
      congr 1
      omega

theorem persistRun_inv {hasher : Hasher} (hnn : hasher.NonNil) (ds : List Slice)
    (hlt : ds.length < u64) :
    (persistRun hasher ds).2.hasher = hasher ∧
      (persistRun hasher ds).2.length = ds.length ∧
      Frontier hasher (persistRun hasher ds).2.nodes (ds.map fun d => hashB hasher [d]) ∧
      Stored hasher (persistRun hasher ds).1 0 (ds.map fun d => hashB hasher [d]) := by
  induction ds using List.reverseRecOn with
  | nil => exact ⟨rfl, rfl, Frontier.nil, Stored.nil 0⟩
  | append_singleton ds d ih =>
    have hlt2 : ds.length < u64 := by
      simp only [List.length_append, List.length_singleton] at hlt
      omega
    obtain ⟨hh, hl, hF, hS⟩ := ih hlt2
    have hrun : persistRun hasher (ds ++ [d]) = persistStep (persistRun hasher ds) d := by
      simp [persistRun, List.foldl_append]
    rw [hrun]
    simp only [persistStep, SimulateAdd_eq, hh, hl]
    have hadd : ((persistRun hasher ds).2.SimulateAdd d).2.Add [d]
        = (persistRun hasher ds).2.Add [d] := rfl
    rw [hadd]
    refine ⟨hh, ?_, ?_, ?_⟩
    · simp only [IncrementalMerkleTree.Add, hl, List.length_append, List.length_singleton]
      exact Nat.mod_eq_of_lt (by simpa using hlt)
    · have h1 := hF.add hnn (hashB hasher [d])
      rw [← hasher_eq_hashB hnn] at h1
      have hn : ((persistRun hasher ds).2.Add [d]).nodes
          = addFrom hasher (persistRun hasher ds).2.nodes (hasher [d]) := by
        simp [IncrementalMerkleTree.Add, addOne, hh]
      rw [hn]
      simpa using h1
    · have h1 := Stored.step hnn hF (hashB hasher [d]) _ 0 hS
      rw [← hasher_eq_hashB hnn, List.length_map] at h1
      simpa using h1

theorem Frontier.pow_le {hasher : Hasher} {nodes : List Slice} {xs : List Bytes}
    (hF : Frontier hasher nodes xs) : nodes ≠ [] → 2 ^ (nodes.length - 1) ≤ xs.length := by
  induction hF with
  | nil => intro h; exact absurd rfl h
  | @cons xs rest hne hF ih =>
    intro _
    have hpos : 0 < xs.length := List.length_pos.2 hne
    cases rest with
    | nil => simpa using hpos
    | cons t rest2 =>
      have := ih (by simp)
      rw [pairsB_length] at this
      simp only [List.length_cons, Nat.add_sub_cancel] at this ⊢
      rw [pow_succ]
      omega

theorem Frontier.length_eq_size {hasher : Hasher} {nodes : List Slice} {xs : List Bytes}
    (hF : Frontier hasher nodes xs) : nodes.length = Nat.size xs.length := by
  apply le_antisymm
  · cases hn : nodes with
    | nil => simp
    | cons t rest =>
      have := hF.pow_le (by simp [hn])
      rw [hn] at this
      simp only [List.length_cons, Nat.add_sub_cancel] at this ⊢
      exact Nat.lt_size.2 this
  · exact Nat.size_le.2 hF.lt_pow

theorem Frontier.rebuild {hasher : Hasher} {nodes : List Slice} {xs : List Bytes}
    (hF : Frontier hasher nodes xs) (st : Store) (hS : Stored hasher st 0 xs) :
    nodes = rebuildFrontier st xs.length := by
  apply List.ext_getElem?
  intro i
  unfold rebuildFrontier
  rw [List.getElem?_map]
  have hlen := hF.length_eq_size
  by_cases hi : i < nodes.length
  · rw [List.getElem?_range (by rw [← hlen]; exact hi)]
    simp only [Option.map_some']
    by_cases hb : xs.length / 2 ^ i % 2 = 1
    · obtain ⟨b, hb1, hb2⟩ := hF.read_back st 0 hS i hb
      rw [if_pos hb, hb1]
      rw [Nat.zero_add] at hb2
      rw [hb2]
      rfl
    · rw [if_neg hb]
      have hnb := mt (hF.bit i hi).1 hb
      rw [List.getElem?_eq_getElem hi]
      cases hv : nodes[i] with
      | none => rfl
      | some b => exact absurd ⟨b, by rw [List.getElem?_eq_getElem hi, hv]⟩ hnb
  · have h1 : nodes[i]? = none := List.getElem?_eq_none (by omega)
    have h2 : (List.range xs.length.size)[i]? = none :=
      List.getElem?_eq_none (by rw [List.length_range, ← hlen]; omega)
    rw [h1, h2]
    rfl

/-! ## Lemmas on double-spend validation -/

theorem checkNullifiers_isSome (db : List Slice) : ∀ nfs : List Slice,
    (checkNullifiers db nfs).isSome = true ↔ ∃ nf ∈ nfs, ∃ x ∈ db, bytesEqual x nf = true
  | [] => by simp [checkNullifiers]
  | nf :: rest => by
    have ih := checkNullifiers_isSome db rest
    simp only [checkNullifiers, SliceBytesExists, Option.isSome_none, Bool.false_eq_true,
      if_false, List.mem_cons, exists_eq_or_imp]
    by_cases h : (db.any fun x => bytesEqual x nf) = true
    · rw [if_pos h]
      simp only [Option.isSome_some, true_iff]
      left
      simpa using h
    · rw [if_neg h, ih]
      have h2 : ¬ ∃ x ∈ db, bytesEqual x nf = true := by simpa using h
      simp [h2]

theorem checkDescs_isSome (db : List Slice) : ∀ ds : List JoinSplitDesc,
    (checkDescs db ds).isSome = true ↔
      ∃ desc ∈ ds, ∃ nf ∈ desc.Nullifiers, ∃ x ∈ db, bytesEqual x nf = true
  | [] => by simp [checkDescs]
  | d :: rest => by
    have ih := checkDescs_isSome db rest
    have hd := checkNullifiers_isSome db d.Nullifiers
    simp only [checkDescs, List.mem_cons, exists_eq_or_imp]
    cases hc : checkNullifiers db d.Nullifiers with
    | some e =>
      rw [hc] at hd
      simp only [Option.isSome_some, true_iff]
      exact Or.inl (hd.1 rfl)
    | none =>
      rw [hc] at hd
      simp only [ih]
      have : ¬ ∃ nf ∈ d.Nullifiers, ∃ x ∈ db, bytesEqual x nf = true := by
        intro h
        simpa using hd.2 h
      simp [this]

theorem ValidateDoubleSpend_normal (self : BlockChain) (t : Tx) (chainID : Fin 256)
    (vp : TxViewPoint) (hT : t.Type_ = TxNormalType)
    (hvp : self.FetchTxViewPoint chainID = some vp) :
    self.ValidateDoubleSpend (.ofTx t) chainID = .returned (checkDescs vp.ListNullifiers t.Descs) := by
  simp [BlockChain.ValidateDoubleSpend, hvp, Transaction.GetType, hT, Transaction.asTx]

/-! ## The claims -/

/-- Claim C1. For every hasher honouring its contract (it never returns the nil
slice) and every non-empty sequence of leaves added to a new tree by any
sequence of `Add` calls (fewer than `2 ^ 64` leaves, so that the `uint64` length
does not wrap), the naive full-tree builder over the same leaves reaches a
single node, and that node is what `GetRoot` returns. -/
theorem C1_GetRoot_eq_naiveRoot (hasher : Hasher) (hnn : hasher.NonNil)
    (batches : List (List Slice)) (hne : batches.flatten ≠ [])
    (hlt : batches.flatten.length < u64) :
    naiveRoot hasher batches.flatten = some (afterAdds hasher batches).GetRoot := by
  have hF := afterAdds_frontier hnn batches
  have hxs : (batches.flatten.map fun d => hashB hasher [d]) ≠ [] := by simpa using hne
  have hlen := afterAdds_length hasher batches hlt
  have hpos : 0 < batches.flatten.length := List.length_pos.2 hne
  rw [GetRoot_eq_rootOf _ (by omega) (hF.exists_nonNil hxs), afterAdds_hasher]
  have := rootOf_eq_naive hnn hF hxs batches.flatten.length (by rw [List.length_map])
  rw [← this]
  unfold naiveRoot
  congr 1
  rw [List.map_map]
  apply List.map_congr_left
  intro d _
  exact hasher_eq_hashB hnn [d]

theorem C1_witness :
    sampleHasher.NonNil ∧ sampleBatches.flatten ≠ [] ∧ sampleBatches.flatten.length < u64 ∧
      naiveRoot sampleHasher sampleBatches.flatten
        = some (afterAdds sampleHasher sampleBatches).GetRoot :=
  ⟨fun _ => by simp [sampleHasher], by decide, by decide,
    C1_GetRoot_eq_naiveRoot sampleHasher (fun _ => by simp [sampleHasher]) sampleBatches
      (by decide) (by decide)⟩

/-- Claim C2. For every tree reached from `NewIncrementalMerkleTree` by `Add`
calls that added `n` leaves in total (hasher never returning nil): `GetLength`
returns `n` when `n < 2 ^ 64`; for every level `i` below `len(nodes)` the entry
`nodes[i]` is non-nil if and only if bit `i` of `n` is 1; `n < 2 ^ len(nodes)`;
and a non-empty frontier has a non-nil top entry. -/
theorem C2_frontier_encodes_length (hasher : Hasher) (hnn : hasher.NonNil)
    (batches : List (List Slice)) :
    (batches.flatten.length < u64 →
        (afterAdds hasher batches).GetLength = batches.flatten.length) ∧
      (∀ i, i < (afterAdds hasher batches).nodes.length →
        ((∃ b, (afterAdds hasher batches).nodes[i]? = some (some b)) ↔
          batches.flatten.length / 2 ^ i % 2 = 1)) ∧
      batches.flatten.length < 2 ^ (afterAdds hasher batches).nodes.length ∧
      ((afterAdds hasher batches).nodes ≠ [] →
        ∃ b, (afterAdds hasher batches).nodes.getLast? = some (some b)) := by
  have hF := afterAdds_frontier hnn batches
  refine ⟨fun hlt => afterAdds_length hasher batches hlt, ?_, ?_, hF.top⟩
  · have := hF.bit
    rwa [List.length_map] at this
  · have := hF.lt_pow
    rwa [List.length_map] at this

theorem C2_witness :
    sampleHasher.NonNil ∧
      ((sampleBatches.flatten.length < u64 →
          (afterAdds sampleHasher sampleBatches).GetLength = sampleBatches.flatten.length) ∧
        (∀ i, i < (afterAdds sampleHasher sampleBatches).nodes.length →
          ((∃ b, (afterAdds sampleHasher sampleBatches).nodes[i]? = some (some b)) ↔
            sampleBatches.flatten.length / 2 ^ i % 2 = 1)) ∧
        sampleBatches.flatten.length < 2 ^ (afterAdds sampleHasher sampleBatches).nodes.length ∧
        ((afterAdds sampleHasher sampleBatches).nodes ≠ [] →
          ∃ b, (afterAdds sampleHasher sampleBatches).nodes.getLast? = some (some b))) :=
  ⟨fun _ => by simp [sampleHasher],
    C2_frontier_encodes_length sampleHasher (fun _ => by simp [sampleHasher]) sampleBatches⟩

/-- Claim C3. Persistence protocol: start from an empty tree and an empty store;
for every leaf `d` in turn write the pairs of `SimulateAdd(d)` to the store, then
`Add([d])`. After any number of leaves (fewer than `2 ^ 64`, hasher never
returning nil), for every level `i` at which bit `i` of the tree length `L` is 1,
the frontier entry `nodes[i]` is a non-nil hash and equals
`store[(i, L div 2^i - 1)]`; and the whole frontier is the one rebuilt from the
store and `L` alone. -/
theorem C3_store_rebuilds_frontier (hasher : Hasher) (hnn : hasher.NonNil) (ds : List Slice)
    (hlt : ds.length < u64) :
    (∀ i, (persistRun hasher ds).2.GetLength / 2 ^ i % 2 = 1 →
        ∃ b, (persistRun hasher ds).2.nodes[i]? = some (some b) ∧
          (persistRun hasher ds).1 i ((persistRun hasher ds).2.GetLength / 2 ^ i - 1)
            = some (some b)) ∧
      (persistRun hasher ds).2.nodes
        = rebuildFrontier (persistRun hasher ds).1 (persistRun hasher ds).2.GetLength := by
  obtain ⟨_, hl, hF, hS⟩ := persistRun_inv hnn ds hlt
  simp only [IncrementalMerkleTree.GetLength, hl]
  constructor
  · intro i hbit
    have := hF.read_back _ 0 hS i (by rwa [List.length_map])
    simpa using this
  · have := hF.rebuild _ hS
    rwa [List.length_map] at this

theorem C3_witness :
    sampleHasher.NonNil ∧ sampleBatches.flatten.length < u64 ∧
      ((∀ i, (persistRun sampleHasher sampleBatches.flatten).2.GetLength / 2 ^ i % 2 = 1 →
          ∃ b, (persistRun sampleHasher sampleBatches.flatten).2.nodes[i]? = some (some b) ∧
            (persistRun sampleHasher sampleBatches.flatten).1 i
              ((persistRun sampleHasher sampleBatches.flatten).2.GetLength / 2 ^ i - 1)
              = some (some b)) ∧
        (persistRun sampleHasher sampleBatches.flatten).2.nodes
          = rebuildFrontier (persistRun sampleHasher sampleBatches.flatten).1
              (persistRun sampleHasher sampleBatches.flatten).2.GetLength) :=
  ⟨fun _ => by simp [sampleHasher], by decide,
    C3_store_rebuilds_frontier sampleHasher (fun _ => by simp [sampleHasher])
      sampleBatches.flatten (by decide)⟩

/-- Claim C4. For every tree and every datum `d`, `SimulateAdd(d)` leaves the
frontier nodes and the length (indeed the whole tree) unchanged; hence
`SimulateAdd(d)` followed by `Add([d])` produces exactly the state that
`Add([d])` alone produces. -/
theorem C4_SimulateAdd_pure (tree : IncrementalMerkleTree) (d : Slice) :
    (tree.SimulateAdd d).2.nodes = tree.nodes ∧
      (tree.SimulateAdd d).2.length = tree.length ∧
      (tree.SimulateAdd d).2.Add [d] = tree.Add [d] :=
  ⟨rfl, rfl, rfl⟩

/-- Claim C5. For every tree and every datum `d`: with `ns` the node list
returned by `SimulateAdd(d)` and `t = len(ns) - 1`, after `Add([d])` the frontier
holds nil at every level below `t`, holds `ns[t]` at level `t`, is unchanged at
every level above `t`, and has grown by exactly one level when `t` is the old
`len(nodes)` (and not at all otherwise). -/
theorem C5_Add_matches_SimulateAdd (tree : IncrementalMerkleTree) (d : Slice) :
    1 ≤ (tree.SimulateAdd d).1.1.length ∧
      (∀ i, i < (tree.SimulateAdd d).1.1.length - 1 → (tree.Add [d]).nodes[i]? = some none) ∧
      (tree.Add [d]).nodes[(tree.SimulateAdd d).1.1.length - 1]?
        = (tree.SimulateAdd d).1.1[(tree.SimulateAdd d).1.1.length - 1]? ∧
      (∀ i, (tree.SimulateAdd d).1.1.length - 1 < i →
        (tree.Add [d]).nodes[i]? = tree.nodes[i]?) ∧
      (tree.SimulateAdd d).1.1.length - 1 ≤ tree.nodes.length ∧
      (tree.Add [d]).nodes.length =
        if (tree.SimulateAdd d).1.1.length - 1 = tree.nodes.length
        then tree.nodes.length + 1 else tree.nodes.length := by
  have hadd : (tree.Add [d]).nodes = addFrom tree.hasher tree.nodes (tree.hasher [d]) := rfl
  rw [SimulateAdd_eq, hadd]
  simp only []
  obtain ⟨h1, h2, h3, h4⟩ :=
    addFrom_simWalk tree.hasher tree.nodes (tree.hasher [d]) tree.length
  have hpos := simWalk_fst_ne_nil tree.hasher tree.nodes (tree.hasher [d]) tree.length
  have hle := simWalk_length_le tree.hasher tree.nodes (tree.hasher [d]) tree.length
  refine ⟨hpos, h1, h2, h3, by omega, ?_⟩
  rw [h4]
  split <;> omega

/-- Claim C6. For every tree reached from the empty tree by `Add` (hasher never
returning nil) with length `L < 2 ^ 64`, and every datum `d`, `SimulateAdd(d)`
returns a nil error and two lists `ns`, `idxs` of equal length `t + 1`, where
`t` is the number of trailing 1 bits of `L` (bits `0 .. t-1` of `L` are 1 and
bit `t` is 0), with `ns[0] = hasher(d)` and `idxs[i] = L div 2^i` for every `i`. -/
theorem C6_SimulateAdd_shape (hasher : Hasher) (hnn : hasher.NonNil)
    (batches : List (List Slice)) (hlt : batches.flatten.length < u64) (d : Slice) :
    ((afterAdds hasher batches).SimulateAdd d).1.2.2 = none ∧
      ((afterAdds hasher batches).SimulateAdd d).1.1.length
        = ((afterAdds hasher batches).SimulateAdd d).1.2.1.length ∧
      1 ≤ ((afterAdds hasher batches).SimulateAdd d).1.1.length ∧
      (∀ i, i < ((afterAdds hasher batches).SimulateAdd d).1.1.length - 1 →
        (afterAdds hasher batches).GetLength / 2 ^ i % 2 = 1) ∧
      (afterAdds hasher batches).GetLength
        / 2 ^ (((afterAdds hasher batches).SimulateAdd d).1.1.length - 1) % 2 = 0 ∧
      ((afterAdds hasher batches).SimulateAdd d).1.1[0]? = some (hasher [d]) ∧
      (∀ i, i < ((afterAdds hasher batches).SimulateAdd d).1.2.1.length →
        ((afterAdds hasher batches).SimulateAdd d).1.2.1[i]?
          = some ((afterAdds hasher batches).GetLength / 2 ^ i)) := by
  have hF := afterAdds_frontier hnn batches
  have hlen := afterAdds_length hasher batches hlt
  have hh := afterAdds_hasher hasher batches
  rw [SimulateAdd_eq]
  simp only [IncrementalMerkleTree.GetLength, hh]
  have hbits := hF.simWalk_bits (hasher [d])
  rw [List.length_map, ← hlen] at hbits
  exact ⟨trivial, simWalk_lengths _ _ _ _, simWalk_fst_ne_nil _ _ _ _, hbits.1, hbits.2,
    simWalk_head _ _ _ _, simWalk_idxs _ _ _ _⟩

theorem C6_witness :
    sampleHasher.NonNil ∧ sampleBatches.flatten.length < u64 ∧
      ((afterAdds sampleHasher sampleBatches).SimulateAdd (some [4])).1.1.length
        = ((afterAdds sampleHasher sampleBatches).SimulateAdd (some [4])).1.2.1.length :=
  ⟨fun _ => by simp [sampleHasher], by decide,
    (C6_SimulateAdd_shape sampleHasher (fun _ => by simp [sampleHasher]) sampleBatches
      (by decide) (some [4])).2.1⟩

/-- Claim C7. For every tree whose length is 0, `GetRoot` returns exactly 32
bytes, all zero. -/
theorem C7_GetRoot_empty (tree : IncrementalMerkleTree) (h : tree.length = 0) :
    tree.GetRoot = some (List.replicate 32 0) := by
  unfold IncrementalMerkleTree.GetRoot
  rw [if_pos h]

theorem C7_witness :
    (InitIncrementalMerkleTree sampleHasher [some [7]] 0).length = 0 ∧
      (InitIncrementalMerkleTree sampleHasher [some [7]] 0).GetRoot
        = some (List.replicate 32 0) :=
  ⟨rfl, C7_GetRoot_empty (InitIncrementalMerkleTree sampleHasher [some [7]] 0) rfl⟩

/-- Claim C8. For every hasher `H` and every datum `d0`, after `Add([d0])` on a
new empty tree, `GetRoot` returns `H(d0)`. -/
theorem C8_GetRoot_single (hasher : Hasher) (d0 : Slice) :
    ((NewIncrementalMerkleTree hasher).Add [d0]).GetRoot = hasher [d0] := by
  have hn : ((NewIncrementalMerkleTree hasher).Add [d0]).nodes = [hasher [d0]] := rfl
  have hl : ((NewIncrementalMerkleTree hasher).Add [d0]).length = 1 := by
    simp [IncrementalMerkleTree.Add, NewIncrementalMerkleTree, u64]
  unfold IncrementalMerkleTree.GetRoot IncrementalMerkleTree.GetPathToRoot
  rw [hl, hn]
  cases hasher [d0] <;> simp [firstNonNil]

/-- Claim C9. For every transaction of normal type (a `Tx` whose `Type` is
`TxNormalType`) and every chain whose view point can be fetched,
`ValidateDoubleSpend(tx, chainID)` returns, and what it returns is an error if
and only if at least one nullifier of at least one of the descriptions of `tx`
is contained in the nullifier list of that chain. -/
theorem C9_ValidateDoubleSpend_iff (self : BlockChain) (t : Tx) (chainID : Fin 256)
    (vp : TxViewPoint) (hT : t.Type_ = TxNormalType)
    (hvp : self.FetchTxViewPoint chainID = some vp) :
    ∃ r, self.ValidateDoubleSpend (.ofTx t) chainID = .returned r ∧
      (r ≠ none ↔
        ∃ desc ∈ t.Descs, ∃ nf ∈ desc.Nullifiers, ∃ x ∈ vp.ListNullifiers,
          bytesEqual x nf = true) := by
  refine ⟨_, ValidateDoubleSpend_normal self t chainID vp hT hvp, ?_⟩
  rw [← checkDescs_isSome, Option.ne_none_iff_isSome]

theorem C9_witness :
    dupTx.Type_ = TxNormalType ∧ spentChain.FetchTxViewPoint 0 = some ⟨[some [1]]⟩ ∧
      ∃ r, spentChain.ValidateDoubleSpend (.ofTx dupTx) 0 = .returned r ∧
        (r ≠ none ↔
          ∃ desc ∈ dupTx.Descs, ∃ nf ∈ desc.Nullifiers,
            ∃ x ∈ (TxViewPoint.mk [some [1]]).ListNullifiers, bytesEqual x nf = true) :=
  ⟨rfl, rfl, C9_ValidateDoubleSpend_iff spentChain dupTx 0 ⟨[some [1]]⟩ rfl rfl⟩

/-- Claim C10, counterexample: the only description of `dupTx` spends the
nullifier `[1]` twice, no shard of `emptyChain` has any nullifier in its list,
and yet `ValidateDoubleSpend` returns nil. -/
theorem C10_counterexample :
    dupTx.Type_ = TxNormalType ∧ dupTx.allNullifiers.count (some [1]) = 2 ∧
      (∀ c, (emptyChain.FetchTxViewPoint c).map (fun vp => vp.ListNullifiers) = some []) ∧
      emptyChain.ValidateDoubleSpend (.ofTx dupTx) 0 = .returned none :=
  ⟨rfl, by decide, fun _ => rfl, by decide⟩

/-- Claim C10, amended. For every transaction of normal type in which a
nullifier `nf` occurs twice, and every chain whose view point can be fetched:
`ValidateDoubleSpend` returns an error when `nf` is already in the nullifier
list of that chain, and returns nil when no nullifier of the transaction is in
that list; a repetition inside the transaction is not looked for. -/
theorem C10_duplicate_only_checked_against_list (self : BlockChain) (t : Tx)
    (chainID : Fin 256) (vp : TxViewPoint) (nf : Slice) (hT : t.Type_ = TxNormalType)
    (hvp : self.FetchTxViewPoint chainID = some vp) (hdup : 2 ≤ t.allNullifiers.count nf) :
    ((∃ x ∈ vp.ListNullifiers, bytesEqual x nf = true) →
        ∃ e, self.ValidateDoubleSpend (.ofTx t) chainID = .returned (some e)) ∧
      ((∀ n ∈ t.allNullifiers, ∀ x ∈ vp.ListNullifiers, bytesEqual x n = false) →
        self.ValidateDoubleSpend (.ofTx t) chainID = .returned none) := by
  rw [ValidateDoubleSpend_normal self t chainID vp hT hvp]
  have hiff := checkDescs_isSome vp.ListNullifiers t.Descs
  have hmem : nf ∈ t.allNullifiers := List.count_pos_iff.1 (by omega)
  constructor
  · intro hx
    obtain ⟨d, hd, hnf⟩ : ∃ d ∈ t.Descs, nf ∈ d.Nullifiers := by
      simpa [Tx.allNullifiers, List.mem_flatMap] using hmem
    have hsome := hiff.2 ⟨d, hd, nf, hnf, hx⟩
    obtain ⟨e, he⟩ := Option.isSome_iff_exists.1 hsome
    exact ⟨e, by rw [he]⟩
  · intro hall
    cases hc : checkDescs vp.ListNullifiers t.Descs with
    | none => rfl
    | some e =>
      obtain ⟨d, hd, n, hn, x, hx, hxe⟩ := hiff.1 (by rw [hc]; rfl)
      have hn2 : n ∈ t.allNullifiers := by
        simp only [Tx.allNullifiers, List.mem_flatMap]
        exact ⟨d, hd, hn⟩
      rw [hall n hn2 x hx] at hxe
      exact absurd hxe (by decide)

theorem C10_witness :
    dupTx.Type_ = TxNormalType ∧ emptyChain.FetchTxViewPoint 0 = some ⟨[]⟩ ∧
      2 ≤ dupTx.allNullifiers.count (some [1]) ∧
      (((∃ x ∈ (TxViewPoint.mk []).ListNullifiers, bytesEqual x (some [1]) = true) →
          ∃ e, emptyChain.ValidateDoubleSpend (.ofTx dupTx) 0 = .returned (some e)) ∧
        ((∀ n ∈ dupTx.allNullifiers, ∀ x ∈ (TxViewPoint.mk []).ListNullifiers,
            bytesEqual x n = false) →
          emptyChain.ValidateDoubleSpend (.ofTx dupTx) 0 = .returned none)) :=
  ⟨rfl, rfl, by decide,
    C10_duplicate_only_checked_against_list emptyChain dupTx 0 ⟨[]⟩ (some [1]) rfl rfl
      (by decide)⟩

/-! ## Lemmas on signing and validation -/

theorem ValidateDoubleSpend_congr (self self2 : BlockChain) (tx : Transaction) (c : Fin 256)
    (h : self2.FetchTxViewPoint c = self.FetchTxViewPoint c) :
    self2.ValidateDoubleSpend tx c = self.ValidateDoubleSpend tx c := by
  simp only [BlockChain.ValidateDoubleSpend, h]

theorem validateDescs_eq_false : ∀ ds : List JoinSplitDesc,
    (∃ d ∈ ds, d.Reward ≠ 0) → validateDescs ds = false
  | [], h => by simp at h
  | d :: rest, h => by
    by_cases hd : d.Reward ≠ 0
    · simp [validateDescs, hd]
    · have hrest : ∃ d2 ∈ rest, d2.Reward ≠ 0 := by
        obtain ⟨d2, hmem, hne⟩ := h
        rcases List.mem_cons.1 hmem with rfl | hmem
        · exact absurd hne hd
        · exact ⟨d2, hmem, hne⟩
      simp only [validateDescs, hd, if_false]
      exact validateDescs_eq_false rest hrest

theorem validateDescs_eq_true : ∀ ds : List JoinSplitDesc,
    (∀ d ∈ ds, d.Reward = 0) → validateDescs ds = true
  | [], _ => rfl
  | d :: rest, h => by
    have hd : d.Reward = 0 := h d (by simp)
    simp only [validateDescs, hd, ne_eq, not_true_eq_false, if_false]
    exact validateDescs_eq_true rest fun d2 hd2 => h d2 (by simp [hd2])

theorem sliceExpr_from_zero (s spare : Bytes) (hi : Nat) (h : hi ≤ s.length) :
    sliceExpr s spare 0 hi = .returned (s.take hi) := by
  unfold sliceExpr
  rw [if_pos (by omega), List.take_append_of_le_length h]
  rfl

/-- What `VerifySign` returns is fixed by `JSPubKey`, `JSSig` and the cached
`txId`; none of the hashed fields is read. -/
theorem VerifySign_congr (o : SigOracles) (sparePub spareSig : Bytes) (tx tx2 : Tx)
    (hpub : tx2.JSPubKey = tx.JSPubKey) (hsig : tx2.JSSig = tx.JSSig)
    (hid : tx2.txId = tx.txId) :
    VerifySign o sparePub spareSig tx2 = VerifySign o sparePub spareSig tx := by
  simp only [VerifySign, hpub, hsig, hid]

/-! ## Lemmas on `CreateTx` -/

theorem chainTotal_append (l1 l2 : List ChainNote) :
    ChainNote.total (l1 ++ l2) = ChainNote.total l1 + ChainNote.total l2 := by
  simp [ChainNote.total]

theorem outputTotal_append (l1 l2 : List JSOutput) :
    JSOutput.total (l1 ++ l2) = JSOutput.total l1 + JSOutput.total l2 := by
  simp [JSOutput.total]

theorem chainTotal_perm {l1 l2 : List ChainNote} (h : l1.Perm l2) :
    ChainNote.total l1 = ChainNote.total l2 := by
  unfold ChainNote.total
  exact (h.map _).sum_eq

theorem chooseInputs_spec (o : TxOracles) : ∀ (fuel : Nat) (c : Chosen),
    ChainNote.total (chooseInputs o fuel c).pulled
        + ChainNote.total (chooseInputs o fuel c).inputNotes
      = ChainNote.total c.pulled + ChainNote.total c.inputNotes ∧
    (c.inputValue = ChainNote.total c.pulled % u64 →
      (chooseInputs o fuel c).inputValue
        = ChainNote.total (chooseInputs o fuel c).pulled % u64)
  | 0, c => ⟨rfl, fun h => h⟩
  | fuel + 1, c => by
    unfold chooseInputs
    cases hl : c.inputNotes.getLast? with
    | none => exact ⟨rfl, fun h => h⟩
    | some chainNote =>
      simp only
      by_cases hlen : c.inputs.length < NumDescInputs
      · rw [if_pos hlen]
        have hsplit : c.inputNotes.dropLast ++ [chainNote] = c.inputNotes :=
          List.dropLast_append_getLast? chainNote (by rw [hl]; rfl)
        have hT : ChainNote.total c.inputNotes
            = ChainNote.total c.inputNotes.dropLast + chainNote.note.Value := by
          conv_lhs => rw [← hsplit]
          simp [ChainNote.total]
        have key : ∀ c2 : Chosen, c2.pulled = c.pulled ++ [chainNote] →
            c2.inputNotes = c.inputNotes.dropLast →
            c2.inputValue = (c.inputValue + chainNote.note.Value) % u64 →
            (ChainNote.total (chooseInputs o fuel c2).pulled
                + ChainNote.total (chooseInputs o fuel c2).inputNotes
              = ChainNote.total c.pulled + ChainNote.total c.inputNotes ∧
            (c.inputValue = ChainNote.total c.pulled % u64 →
              (chooseInputs o fuel c2).inputValue
                = ChainNote.total (chooseInputs o fuel c2).pulled % u64)) := by
          intro c2 hp hn hv
          obtain ⟨ih1, ih2⟩ := chooseInputs_spec o fuel c2
          have hP : ChainNote.total c2.pulled
              = ChainNote.total c.pulled + chainNote.note.Value := by
            rw [hp]
            simp [ChainNote.total]
          constructor
          · rw [ih1, hP, hn, hT]
            omega
          · intro h
            apply ih2
            rw [hv, hP, h, Nat.mod_add_mod]
        exact key _ rfl rfl rfl
      · rw [if_neg hlen]
        exact ⟨rfl, fun h => h⟩

theorem outputLoop_spec : ∀ (room : Nat) (ps : List PaymentInfo) (outs : List JSOutput)
    (iv : Nat),
    JSOutput.total (outputLoop room ps outs iv).2.1 + (outputLoop room ps outs iv).2.2
      = JSOutput.total outs + iv
  | 0, _, _, _ => rfl
  | room + 1, ps, outs, iv => by
    unfold outputLoop
    cases hl : ps.getLast? with
    | none => rfl
    | some p =>
      simp only
      by_cases hiv : iv = 0
      · rw [if_pos hiv]
      · rw [if_neg hiv]
        by_cases hle : p.Amount ≤ iv
        · rw [if_pos hle, outputLoop_spec room]
          simp only [outputTotal_append]
          simp only [JSOutput.total, List.map_cons, List.map_nil, List.sum_cons, List.sum_nil]
          omega
        · rw [if_neg hle, outputLoop_spec room]
          simp only [outputTotal_append]
          simp only [JSOutput.total, List.map_cons, List.map_nil, List.sum_cons, List.sum_nil]
          omega

theorem finishOutputs_spec (sender : PaymentAddress) (ps : List PaymentInfo) (iv : Nat) :
    JSOutput.total ((finishOutputs sender ps iv).exact.toList
        ++ (finishOutputs sender ps iv).change.toList) = iv ∧
      ∀ ch, (finishOutputs sender ps iv).change = some ch → ch.OutputNote.Value = iv := by
  unfold finishOutputs
  by_cases hiv : iv > 0
  · rw [if_pos hiv]
    cases hl : ps.getLast? with
    | none => simp [JSOutput.total]
    | some p =>
      simp only
      by_cases hp : p.Amount = iv
      · rw [if_pos hp]
        simp [JSOutput.total, hp]
      · rw [if_neg hp]
        simp [JSOutput.total]
  · rw [if_neg hiv]
    have : iv = 0 := by omega
    simp [JSOutput.total, this]

theorem buildJSDescAndEncrypt_descs (tx tx2 : Tx) (inputs : List JSInput)
    (outputs : List JSOutput) (rts : List Slice) (reward : Nat)
    (h : tx.buildJSDescAndEncrypt inputs outputs rts reward = .returned tx2) :
    tx2.Descs.length = tx.Descs.length + 1 := by
  unfold Tx.buildJSDescAndEncrypt at h
  split at h
  · cases h
    simp
  · cases h

theorem BuildNewJSDesc_descs (o : TxOracles) (tx tx2 : Tx) (inputMap : GoMap (List JSInput))
    (outputs outputs2 : List JSOutput) (rtMap : GoMap Slice) (reward fee : Nat)
    (h : tx.BuildNewJSDesc o inputMap outputs rtMap reward fee = .returned (.ok (tx2, outputs2))) :
    tx2.Descs.length = tx.Descs.length + 1 := by
  unfold Tx.BuildNewJSDesc at h
  split at h
  · cases h
  · split at h
    · cases h
    · split at h
      · cases h
      · split at h
        · cases h
        · rename_i tx3 hb
          cases h
          exact buildJSDescAndEncrypt_descs _ _ _ _ _ _ hb

theorem roundProve_ok (o : TxOracles) (a : CreateTxArgs) (st st2 : LoopState) (c : Chosen)
    (dummies : List JSInput) (feeApply : Nat) (tx1 : Tx) (newRts latestAnchor : GoMap Slice)
    (r : List PaymentInfo × List JSOutput × Nat) (fin : Finish) (dummyOuts : List JSOutput)
    (h : roundProve o a st c dummies feeApply tx1 newRts latestAnchor r fin dummyOuts
      = .returned (.ok st2)) :
    ∃ tx2 outputs2,
      tx2.Descs.length = tx1.Descs.length + 1 ∧
      st2 = roundResult a st c dummies feeApply newRts latestAnchor r fin dummyOuts tx2
        outputs2 := by
  unfold roundProve at h
  split at h
  · cases h
  · cases h
  · rename_i tx2 outputs2 hb
    cases h
    exact ⟨tx2, outputs2, BuildNewJSDesc_descs _ _ _ _ _ _ _ _ _ hb, rfl⟩

theorem roundResult_inputNotes_total (a : CreateTxArgs) (st : LoopState) (c : Chosen)
    (dummies : List JSInput) (feeApply : Nat) (newRts latestAnchor : GoMap Slice)
    (r : List PaymentInfo × List JSOutput × Nat) (fin : Finish) (dummyOuts : List JSOutput)
    (tx2 : Tx) (outputs2 : List JSOutput) (v : Nat)
    (hv : ∀ ch, fin.change = some ch → ch.OutputNote.Value = v) :
    ChainNote.total
        (roundResult a st c dummies feeApply newRts latestAnchor r fin dummyOuts tx2
          outputs2).inputNotes
      ≤ ChainNote.total c.inputNotes + v := by
  unfold roundResult
  simp only [chainTotal_append]
  cases hch : fin.change with
  | none => simp [ChainNote.total]
  | some ch =>
    have := hv ch hch
    simp only
    split
    · simp [ChainNote.total, this]
    · simp [ChainNote.total]

/-- What a round that builds a description does to the values. -/
theorem round_ok (o : TxOracles) (a : CreateTxArgs) (st st2 : LoopState)
    (hsort : ∀ l, (o.sortNotes l).Perm l)
    (hfit : ChainNote.total st.inputNotes < u64)
    (h : CreateTx.round o a st = .returned (.ok st2)) :
    ∃ r, st2.rounds = st.rounds ++ [r] ∧
      ChainNote.total r.realInputs
        = JSOutput.total (r.payOutputs ++ r.changeOutput.toList) + r.feeApply ∧
      r.feeApply = (if st.tx.Descs.length = 0 then a.fee else 0) ∧
      st2.tx.Descs.length = st.tx.Descs.length + 1 ∧
      ChainNote.total st2.inputNotes ≤ ChainNote.total st.inputNotes := by
  -- the choice of the inputs
  obtain ⟨hc1, hc2⟩ := chooseInputs_spec o (o.sortNotes st.inputNotes).length
    { inputNotes := o.sortNotes st.inputNotes, inputs := [], inputsToBuildWitness := [],
      inputValue := 0, numInputNotes := 0, pulled := [] }
  have hperm := chainTotal_perm (hsort st.inputNotes)
  have hsum0 : ChainNote.total ([] : List ChainNote) + ChainNote.total (o.sortNotes st.inputNotes)
      = ChainNote.total st.inputNotes := by
    rw [hperm]
    simp [ChainNote.total]
  have hc1b := hc1.trans hsum0
  have hc2b := hc2 (by simp [ChainNote.total])
  clear hc1 hc2 hsum0
  unfold CreateTx.round at h
  simp only [] at h
  generalize chooseInputs o (o.sortNotes st.inputNotes).length
    { inputNotes := o.sortNotes st.inputNotes, inputs := [], inputsToBuildWitness := [],
      inputValue := 0, numInputNotes := 0, pulled := [] } = c at h hc1b hc2b
  have hiv2 : c.inputValue = ChainNote.total c.pulled := by
    rw [hc2b]
    exact Nat.mod_eq_of_lt (by omega)
  generalize hfa : (if st.tx.Descs.length = 0 then a.fee else 0) = feeApply at h
  generalize hivd : (if st.tx.Descs.length = 0 then c.inputValue - feeApply else c.inputValue)
    = iv at h
  generalize htx : (if st.tx.Descs.length = 0 then ({ st.tx with Fee := a.fee } : Tx) else st.tx)
    = tx1 at h
  have hB : tx1.Descs.length = st.tx.Descs.length := by
    rw [← htx]
    split <;> rfl
  by_cases hfee : st.tx.Descs.length = 0 ∧ c.inputValue < feeApply
  · rw [if_pos hfee] at h
    cases h
  · rw [if_neg hfee] at h
    have hA : iv + feeApply = c.inputValue := by
      rw [← hivd, ← hfa]
      rw [← hfa] at hfee
      by_cases hk : st.tx.Descs.length = 0
      · simp only [hk, if_true, true_and, not_lt] at hfee ⊢
        omega
      · simp only [hk, if_false]
        omega
    by_cases hcm : ¬ commitmentsFound st.commitments c.inputsToBuildWitness = true
    · rw [if_pos hcm] at h
      cases h
    · rw [if_neg hcm] at h
      cases hw : o.BuildWitnessPathMultiChain c.inputsToBuildWitness st.commitments with
      | error e =>
        rw [hw] at h
        cases h
      | ok newRts =>
        rw [hw] at h
        simp only at h
        cases ha : (if st.latestAnchor.isNone = true then checkAnchors a.rts newRts
            else GoResult.returned (Except.ok ())) with
        | panicked =>
          rw [ha] at h
          cases h
        | returned res =>
          rw [ha] at h
          cases res with
          | error e => cases h
          | ok u =>
          simp only at h
          unfold roundOutputs at h
          simp only [] at h
          have hol := outputLoop_spec (NumDescOutputs - 1) (o.sortPayments st.paymentInfo) [] iv
          generalize outputLoop (NumDescOutputs - 1) (o.sortPayments st.paymentInfo) [] iv
            = r at hol h
          obtain ⟨hf1, hf2⟩ := finishOutputs_spec (o.ImportKey a.senderKey) r.1 r.2.2
          generalize finishOutputs (o.ImportKey a.senderKey) r.1 r.2.2 = fin at hf1 hf2 h
          obtain ⟨tx2, outputs2, hd, rfl⟩ := roundProve_ok _ _ _ _ _ _ _ _ _ _ _ _ _ h
          have hol2 : JSOutput.total r.2.1 + r.2.2 = iv := by
            rw [hol]
            simp [JSOutput.total]
          rw [outputTotal_append] at hf1
          refine ⟨_, rfl, ?_, rfl, ?_, ?_⟩
          · show ChainNote.total c.pulled
              = JSOutput.total ((r.2.1 ++ fin.exact.toList) ++ fin.change.toList) + feeApply
            rw [outputTotal_append, outputTotal_append]
            omega
          · show tx2.Descs.length = st.tx.Descs.length + 1
            omega
          · have := roundResult_inputNotes_total a st c
              (dummyInputs o st.tx.Descs.length c.numInputNotes) feeApply newRts
              (if (((newRts.get? 0).getD none).getD []).length = 0 then
                newRts.set 0 (some (List.replicate 32 0)) else newRts)
              r fin
              (dummyOutputs o st.tx.Descs.length
                (r.2.1 ++ fin.exact.toList ++ fin.change.toList).length)
              tx2 outputs2 r.2.2 hf2
            omega

theorem round_preserves_BalanceInv (o : TxOracles) (a : CreateTxArgs) (st st2 : LoopState)
    (hsort : ∀ l, (o.sortNotes l).Perm l) (hinv : st.BalanceInv a.fee)
    (h : CreateTx.round o a st = .returned (.ok st2)) : st2.BalanceInv a.fee := by
  obtain ⟨h1, h2, h3⟩ := hinv
  obtain ⟨r, hr, hbal, hfee, hd, hle⟩ := round_ok o a st st2 hsort h1 h
  refine ⟨by omega, ?_, ?_⟩
  · rw [hr, hd, List.length_append, h2]
    rfl
  · intro k r2 hk
    rw [hr] at hk
    by_cases hlt : k < st.rounds.length
    · rw [List.getElem?_append_left hlt] at hk
      exact h3 k r2 hk
    · have hge : st.rounds.length ≤ k := by omega
      rw [List.getElem?_append_right hge] at hk
      have hk0 : k - st.rounds.length = 0 := by
        by_contra hne
        rw [List.getElem?_eq_none (by simp; omega)] at hk
        cases hk
      rw [hk0] at hk
      simp only [List.getElem?_cons_zero, Option.some.injEq] at hk
      subst hk
      refine ⟨hbal, ?_⟩
      rw [hfee]
      have : k = st.tx.Descs.length := by omega
      rw [this]

theorem loop_preserves_BalanceInv (o : TxOracles) (a : CreateTxArgs)
    (hsort : ∀ l, (o.sortNotes l).Perm l) : ∀ (fuel : Nat) (st st2 : LoopState),
    st.BalanceInv a.fee → CreateTx.loop o a fuel st = some (.returned (.ok st2)) →
    st2.BalanceInv a.fee
  | 0, st, st2, hinv, h => by
    unfold CreateTx.loop at h
    split at h
    · cases h
      exact hinv
    · cases h
  | fuel + 1, st, st2, hinv, h => by
    unfold CreateTx.loop at h
    split at h
    · cases h
      exact hinv
    · cases hr : CreateTx.round o a st with
      | panicked =>
        rw [hr] at h
        cases h
      | returned res =>
        rw [hr] at h
        cases res with
        | error e => cases h
        | ok st3 =>
          exact loop_preserves_BalanceInv o a hsort fuel st3 st2
            (round_preserves_BalanceInv o a st st3 hsort hinv hr) h

theorem SignTx_Descs (o : SigOracles) (tx tx2 : Tx) (h : SignTx o tx = .ok tx2) :
    tx2.Descs = tx.Descs := by
  unfold SignTx at h
  split at h
  · cases h
  · simp only at h
    cases hs : o.Sign tx.sigPrivKey (tx.Hash o) with
    | error e =>
      rw [hs] at h
      cases h
    | ok sig =>
      rw [hs] at h
      cases h
      rfl

theorem init_BalanceInv (o : TxOracles) (a : CreateTxArgs) (st : LoopState)
    (hfit : ChainNote.total (gatherNotes a.usableTx) < u64)
    (h : CreateTx.init o a = .returned (.ok st)) : st.BalanceInv a.fee := by
  unfold CreateTx.init at h
  simp only [] at h
  split at h
  · cases h
  · unfold NewTxTemplate at h
    split at h
    · cases h
    · rename_i tx htx
      split at htx
      · cases htx
      · cases htx
        cases h
        exact ⟨hfit, rfl, by intro k r hk; simp at hk⟩

theorem CreateTx_BalanceInv (o : TxOracles) (a : CreateTxArgs) (fuel : Nat) (tx : Tx)
    (rounds : List Round) (hsort : ∀ l, (o.sortNotes l).Perm l)
    (hfit : ChainNote.total (gatherNotes a.usableTx) < u64)
    (hrun : CreateTx o a fuel = some (.returned (.ok (tx, rounds)))) :
    rounds.length = tx.Descs.length ∧ ∀ k r, rounds[k]? = some r → Round.Balanced a.fee k r := by
  unfold CreateTx at hrun
  split at hrun
  · cases hrun
  · cases hrun
  · rename_i st0 hinit
    have hinv0 := init_BalanceInv o a st0 hfit hinit
    split at hrun
    · cases hrun
    · cases hrun
    · cases hrun
    · rename_i st hloop
      have hinv := loop_preserves_BalanceInv o a hsort fuel st0 st hinv0 hloop
      split at hrun
      · cases hrun
      · rename_i tx2 hs
        cases hrun
        rw [SignTx_Descs _ _ _ hs]
        exact ⟨hinv.2.1, hinv.2.2⟩

/-! ## The claims C11 to C19 -/

/-- Claim C11, counterexample: the nullifier `[1]` of `dupTx` is in the
nullifier list of shard 1, and validation against shard 0 returns nil. -/
theorem C11_counterexample :
    some [1] ∈ dupTx.allNullifiers ∧
      (otherShardChain.FetchTxViewPoint 1).map (fun vp => vp.ListNullifiers)
        = some [some [1]] ∧
      otherShardChain.ValidateDoubleSpend (.ofTx dupTx) 0 = .returned none :=
  ⟨by decide, by decide, by decide⟩

/-- Claim C11, amended. For every transaction of normal type and every chain id
`c` whose view point can be fetched, `ValidateDoubleSpend(tx, c)` fails whenever
some nullifier of `tx` is in the nullifier list of shard `c`; the lists of the
other shards are not consulted, the result being the same on every chain that
agrees with this one on shard `c`. -/
theorem C11_only_shard_c_consulted (self : BlockChain) (t : Tx) (c : Fin 256)
    (vp : TxViewPoint) (nf : Slice) (hT : t.Type_ = TxNormalType)
    (hvp : self.FetchTxViewPoint c = some vp) (hnf : nf ∈ t.allNullifiers)
    (hin : ∃ x ∈ vp.ListNullifiers, bytesEqual x nf = true) :
    (∃ e, self.ValidateDoubleSpend (.ofTx t) c = .returned (some e)) ∧
      ∀ self2 : BlockChain, self2.FetchTxViewPoint c = self.FetchTxViewPoint c →
        self2.ValidateDoubleSpend (.ofTx t) c = self.ValidateDoubleSpend (.ofTx t) c := by
  refine ⟨?_, fun self2 h => ValidateDoubleSpend_congr self self2 _ c h⟩
  rw [ValidateDoubleSpend_normal self t c vp hT hvp]
  obtain ⟨d, hd, hnf2⟩ : ∃ d ∈ t.Descs, nf ∈ d.Nullifiers := by
    simpa [Tx.allNullifiers, List.mem_flatMap] using hnf
  obtain ⟨x, hx, hxe⟩ := hin
  have hsome := (checkDescs_isSome vp.ListNullifiers t.Descs).2 ⟨d, hd, nf, hnf2, x, hx, hxe⟩
  obtain ⟨e, he⟩ := Option.isSome_iff_exists.1 hsome
  exact ⟨e, by rw [he]⟩

theorem C11_witness :
    dupTx.Type_ = TxNormalType ∧ spentChain.FetchTxViewPoint 0 = some ⟨[some [1]]⟩ ∧
      some [1] ∈ dupTx.allNullifiers ∧
      (∃ x ∈ (TxViewPoint.mk [some [1]]).ListNullifiers, bytesEqual x (some [1]) = true) ∧
      ((∃ e, spentChain.ValidateDoubleSpend (.ofTx dupTx) 0 = .returned (some e)) ∧
        ∀ self2 : BlockChain, self2.FetchTxViewPoint 0 = spentChain.FetchTxViewPoint 0 →
          self2.ValidateDoubleSpend (.ofTx dupTx) 0
            = spentChain.ValidateDoubleSpend (.ofTx dupTx) 0) :=
  ⟨rfl, rfl, by decide, ⟨some [1], by decide, by decide⟩,
    C11_only_shard_c_consulted spentChain dupTx 0 ⟨[some [1]]⟩ (some [1]) rfl rfl (by decide)
      ⟨some [1], by decide, by decide⟩⟩

/-- Claim C12, failing input: a loan-payment transaction whose embedded `Tx`
spends the nullifier `[1]`, on a chain that has `[1]` in its nullifier list, is
let through (`ValidateDoubleSpend` returns nil), although the same `Tx` submitted
as a normal transaction is rejected. -/
theorem C12_loan_payment_not_checked :
    (Transaction.ofTxLoanPayment dupTx ⟨none, false⟩).GetType = TxLoanPaymentType ∧
      (∃ x ∈ [some ([1] : Bytes)], ∃ nf ∈ dupTx.allNullifiers, bytesEqual x nf = true) ∧
      spentChain.ValidateDoubleSpend (.ofTxLoanPayment dupTx ⟨none, false⟩) 0
        = .returned none ∧
      spentChain.ValidateDoubleSpend (.ofTx dupTx) 0 ≠ .returned none :=
  ⟨rfl, ⟨some [1], by decide, some [1], by decide, by decide⟩, by decide, by decide⟩

/-- Claim C13, failing input: the signer answers `(R, S) = (1, 2^255)` and the
verifier accepts exactly this signature, but `JSSigToByteArray` yields 33 bytes
instead of 64, so `VerifySign(SignTx(tx))` never returns `(true, nil)`, whatever
the backing arrays hold beyond the slices: it panics or reads a different `R`. -/
theorem C13_short_signature_breaks_round_trip :
    (∀ pk data, smallROracles.VerifySign pk data 1 (2 ^ 255) = true) ∧
      (∃ stx, SignTx smallROracles unsignedTx = .ok stx ∧
        stx.JSSig.map List.length = some 33 ∧
        ∀ sparePub spareSig,
          VerifySign smallROracles sparePub spareSig stx ≠ .returned (true, none)) := by
  refine ⟨fun _ _ => rfl, ?_⟩
  refine ⟨{ unsignedTx with
      txId := some (Tx.Hash smallROracles unsignedTx)
      JSSig := JSSigToByteArray ⟨1, 2 ^ 255⟩ }, rfl, by decide, ?_⟩
  intro sparePub spareSig
  have hsig : JSSigToByteArray ⟨1, 2 ^ 255⟩ = some (1 :: 128 :: List.replicate 31 0) := by
    decide
  have hpub : unsignedTx.JSPubKey
      = some (bigIntBytes (2 ^ 255 + 5) ++ bigIntBytes (2 ^ 255 + 6)) := by decide
  simp only [VerifySign, hsig, hpub]
  rw [sliceExpr_from_zero _ spareSig 32 (by decide)]
  have hr : bigIntSetBytes ((1 :: 128 :: List.replicate 31 0 : Bytes).take 32) ≠ 1 := by
    decide
  split
  · rename_i x y r s hash h1 h2 h3 h4 h5
    cases h3
    simp only [smallROracles, ne_eq, GoResult.returned.injEq, Prod.mk.injEq, and_true,
      Bool.and_eq_true, beq_iff_eq, not_and]
    intro h
    exact absurd h hr
  · simp

/-- Claim C14, failing input: `signedTx` comes out of `SignTx` and verifies;
after its `Fee`, `LockTime`, `Type` or descriptions are changed, the hash of the
transaction is another one (a signature over it would be rejected), and yet
`VerifySign` still returns `(true, nil)`, because it reads the cached `txId`. -/
theorem C14_mutation_not_detected :
    SignTx sampleSigOracles unsignedTx = .ok signedTx ∧
      VerifySign sampleSigOracles [] [] signedTx = .returned (true, none) ∧
      Tx.Hash sampleSigOracles { unsignedTx with Fee := 1 }
        ≠ Tx.Hash sampleSigOracles unsignedTx ∧
      sampleSigOracles.VerifySign sampleKey.PublicKey
          (Tx.Hash sampleSigOracles { unsignedTx with Fee := 1 })
          (2 ^ 255 + bigIntSetBytes (Tx.Hash sampleSigOracles unsignedTx))
          sampleKey.PublicKey.X = false ∧
      VerifySign sampleSigOracles [] [] { signedTx with Fee := 1 } = .returned (true, none) ∧
      VerifySign sampleSigOracles [] [] { signedTx with LockTime := 7 }
        = .returned (true, none) ∧
      VerifySign sampleSigOracles [] [] { signedTx with Type_ := "x" }
        = .returned (true, none) ∧
      VerifySign sampleSigOracles [] [] { signedTx with Descs := rewardTx.Descs }
        = .returned (true, none) :=
  ⟨rfl, by decide, by decide, by decide, by decide, by decide, by decide, by decide⟩

/-- Claim C15, counterexample: two transactions that differ only in `JSSig`
(nil, and the one byte 7) have different records and, under the sample double
hash, different hashes. -/
theorem C15_counterexample :
    Tx.record sampleSigOracles unsignedTx
        ≠ Tx.record sampleSigOracles { unsignedTx with JSSig := some [7] } ∧
      Tx.Hash sampleSigOracles unsignedTx
        ≠ Tx.Hash sampleSigOracles { unsignedTx with JSSig := some [7] } :=
  ⟨by decide, by decide⟩

/-- Claim C15, amended. The record that `Tx.Hash` double-hashes contains
`JSSig`: two transactions that differ only in the contents of `JSSig` have
different records, hence the same hash only if `DoubleHashH` collides on two
different records. -/
theorem C15_record_contains_JSSig (o : SigOracles) (tx : Tx) (s1 s2 : Slice)
    (h : s1.getD [] ≠ s2.getD []) :
    Tx.record o { tx with JSSig := s1 } ≠ Tx.record o { tx with JSSig := s2 } ∧
      (Tx.Hash o { tx with JSSig := s1 } = Tx.Hash o { tx with JSSig := s2 } →
        ∃ r1 r2, r1 ≠ r2 ∧ o.DoubleHashH r1 = o.DoubleHashH r2) := by
  have hrec : Tx.record o { tx with JSSig := s1 } ≠ Tx.record o { tx with JSSig := s2 } := by
    simp only [Tx.record, ne_eq, List.append_cancel_right_eq, List.append_cancel_left_eq]
    exact h
  exact ⟨hrec, fun hh => ⟨_, _, hrec, hh⟩⟩

theorem C15_witness :
    (none : Slice).getD [] ≠ (some [7] : Slice).getD [] ∧
      (Tx.record sampleSigOracles { unsignedTx with JSSig := none }
          ≠ Tx.record sampleSigOracles { unsignedTx with JSSig := some [7] } ∧
        (Tx.Hash sampleSigOracles { unsignedTx with JSSig := none }
            = Tx.Hash sampleSigOracles { unsignedTx with JSSig := some [7] } →
          ∃ r1 r2, r1 ≠ r2 ∧
            sampleSigOracles.DoubleHashH r1 = sampleSigOracles.DoubleHashH r2)) :=
  ⟨by decide, C15_record_contains_JSSig sampleSigOracles unsignedTx none (some [7]) (by decide)⟩

/-- Claim C16, failing input: for the public key `(X, Y) = (1, 2^255)`
`PubKeyToByteArray` returns 33 bytes, not 64, and the first 32 bytes, which
`VerifySign` reads as `X`, are not the number 1; for a key whose coordinates
take 32 bytes each it does return 64 bytes. -/
theorem C16_short_coordinate_not_padded :
    PubKeyToByteArray ⟨1, 2 ^ 255⟩ = some (1 :: 128 :: List.replicate 31 0) ∧
      (PubKeyToByteArray ⟨1, 2 ^ 255⟩).map List.length = some 33 ∧
      (∀ spare, ∃ x, sliceExpr (1 :: 128 :: List.replicate 31 0) spare 0 32 = .returned x ∧
        bigIntSetBytes x ≠ 1) ∧
      (PubKeyToByteArray sampleKey.PublicKey).map List.length = some 64 := by
  refine ⟨by decide, by decide, fun spare => ?_, by decide⟩
  exact ⟨_, sliceExpr_from_zero _ spare 32 (by decide), by decide⟩

/-- Claim C17, failing input: a transaction whose `JSSig` does not verify under
its `JSPubKey` (`VerifySign` returns false) passes `Tx.ValidateTransaction`;
more generally the method returns true whenever every reward is 0, without
reading the signature. -/
theorem C17_signature_not_checked :
    VerifySign sampleSigOracles [] [] { signedTx with JSSig := some (List.replicate 64 255) }
        = .returned (false, none) ∧
      Tx.ValidateTransaction { signedTx with JSSig := some (List.replicate 64 255) } = true ∧
      ∀ tx : Tx, (∀ d ∈ tx.Descs, d.Reward = 0) → tx.ValidateTransaction = true :=
  ⟨by decide, by decide, fun tx h => validateDescs_eq_true tx.Descs h⟩

/-- Claim C18. For every transaction in which at least one description has
`Reward` different from 0, `Tx.ValidateTransaction` returns false. -/
theorem C18_reward_rejected (tx : Tx) (h : ∃ d ∈ tx.Descs, d.Reward ≠ 0) :
    tx.ValidateTransaction = false :=
  validateDescs_eq_false tx.Descs h

theorem C18_witness :
    (∃ d ∈ rewardTx.Descs, d.Reward ≠ 0) ∧ rewardTx.ValidateTransaction = false :=
  ⟨⟨_, List.mem_singleton.2 rfl, by decide⟩,
    C18_reward_rejected rewardTx ⟨_, List.mem_singleton.2 rfl, by decide⟩⟩

/-- Claim C19, failing input: one input note of value 5 against payments of
`(2^64 - 1) + 2 = 2^64 + 1` and fee 0; the `uint64` sum of the payments wraps to
1, the funds check passes, the first round of the loop builds a description
(the note is spent on a partial payment of 5), and the loop is still running
after 5 rounds. -/
theorem C19_overflow_passes_funds_check :
    ((gatherNotes overflowArgs.usableTx).map fun n => n.note.Value).sum
        < (overflowArgs.paymentInfo.map fun p => p.Amount).sum + overflowArgs.fee ∧
      CreateTx.init sampleTxOracles overflowArgs = .returned (.ok overflowInit) ∧
      CreateTx.round sampleTxOracles overflowArgs overflowInit
        = .returned (.ok overflowRound1) ∧
      overflowRound1.tx.Descs.length = 1 ∧
      CreateTx sampleTxOracles overflowArgs 5 = none :=
  ⟨by decide, rfl, rfl, by decide, rfl⟩

/-! ## Lemmas on salary and loan validation -/

theorem IsSalaryTx_salary (self : BlockChain) (tx : Transaction)
    (h : tx.GetType = TxSalaryType) : self.IsSalaryTx tx = false := by
  unfold BlockChain.IsSalaryTx
  rw [if_neg (by simp [h])]

example : emptyChain.IsSalaryTx (.ofTx rewardTx) = true := by decide

theorem loanIDIn_eq_true (LoanID : Slice) : ∀ ids : List Slice,
    loanIDIn LoanID ids = true ↔ ∃ id ∈ ids, bytesEqual LoanID id = true
  | [] => by simp [loanIDIn]
  | id :: rest => by
    unfold loanIDIn
    by_cases h : bytesEqual LoanID id = true
    · simp [h]
    · simp [h, loanIDIn_eq_true LoanID rest]

theorem checkLoanIDs_eq_none (LoanID : Slice) : ∀ states : List BestState,
    checkLoanIDs LoanID states = none ↔
      ∀ bestState ∈ states, ∀ id ∈ bestState.LoanIDs, bytesEqual LoanID id = false
  | [] => by simp [checkLoanIDs]
  | bs :: rest => by
    unfold checkLoanIDs
    by_cases h : loanIDIn LoanID bs.LoanIDs = true
    · rw [if_pos h]
      obtain ⟨id, hid, he⟩ := (loanIDIn_eq_true LoanID bs.LoanIDs).1 h
      simp only [List.mem_cons, forall_eq_or_imp, false_iff, not_and, reduceCtorEq]
      intro hall
      have := hall id hid
      rw [he] at this
      cases this
    · rw [if_neg h, checkLoanIDs_eq_none LoanID rest]
      have h2 : ∀ id ∈ bs.LoanIDs, bytesEqual LoanID id = false := by
        intro id hid
        by_contra hne
        exact h ((loanIDIn_eq_true LoanID bs.LoanIDs).2 ⟨id, hid, by simpa using hne⟩)
      simp only [List.mem_cons, forall_eq_or_imp]
      exact ⟨fun hr => ⟨h2, hr⟩, fun hr => hr.2⟩

theorem ValidateTxLoanRequest_iff (self : BlockChain) (request : LoanRequest) (chainID : Fin 256) :
    self.ValidateTxLoanRequest (.ofTxLoanRequest request) chainID = .returned none ↔
      (∃ bestState, self.BestState[chainID.val]? = some bestState ∧
        request.Params = bestState.BestBlock.Header.LoanParams) ∧
      ∀ bestState ∈ self.BestState, ∀ id ∈ bestState.LoanIDs,
        bytesEqual request.LoanID id = false := by
  unfold BlockChain.ValidateTxLoanRequest
  simp only [Transaction.asTxLoanRequest]
  cases hb : self.BestState[chainID.val]? with
  | none => simp
  | some bs =>
    simp only [Option.some.injEq, exists_eq_left', ne_eq]
    by_cases hp : request.Params = bs.BestBlock.Header.LoanParams
    · rw [if_neg (by simpa using hp)]
      simp only [GoResult.returned.injEq, hp, true_and]
      exact checkLoanIDs_eq_none _ _
    · rw [if_pos hp]
      simp [hp]

/-- The withdraw loop returns an error or leaves the flags as they were when
neither type assertion on `tx` can succeed. -/
theorem withdrawLoop_flags (self : BlockChain) (ShakeSum256 : Nat → Slice → Bytes)
    (tx : Transaction) (w : LoanWithdraw) (h1 : tx.asTxLoanRequest = none)
    (h2 : tx.asTxLoanResponse = none) : ∀ (hashes : List Slice) (flags res : Bool × Bool),
    self.withdrawLoop ShakeSum256 tx w hashes flags = .ok res → res = flags
  | [], flags, res, h => by
    unfold BlockChain.withdrawLoop at h
    cases h
    rfl
  | txHash :: rest, flags, res, h => by
    unfold BlockChain.withdrawLoop at h
    split at h
    · split at h
      · rw [h1] at h
        cases h
      · split at h
        · rw [h2] at h
          cases h
        · exact withdrawLoop_flags self ShakeSum256 tx w h1 h2 rest flags res h
    · cases h

theorem ValidateTxLoanWithdraw_ne_none (self : BlockChain) (ShakeSum256 : Nat → Slice → Bytes)
    (tx : Transaction) (chainID : Fin 256) :
    self.ValidateTxLoanWithdraw ShakeSum256 tx chainID ≠ none := by
  unfold BlockChain.ValidateTxLoanWithdraw
  cases hw : tx.asTxLoanWithdraw with
  | none => simp
  | some w =>
    have h1 : tx.asTxLoanRequest = none := by
      cases tx <;> simp_all [Transaction.asTxLoanWithdraw, Transaction.asTxLoanRequest]
    have h2 : tx.asTxLoanResponse = none := by
      cases tx <;> simp_all [Transaction.asTxLoanWithdraw, Transaction.asTxLoanResponse]
    simp only
    cases hl : self.GetLoanTxs w.LoanID with
    | error e => simp
    | ok hashes =>
      simp only
      cases hloop : self.withdrawLoop ShakeSum256 tx w hashes (false, false) with
      | error e => simp
      | ok res =>
        have := withdrawLoop_flags self ShakeSum256 tx w h1 h2 hashes _ _ hloop
        subst this
        simp

theorem paymentLoop_ok (self : BlockChain) : ∀ (hashes : List Slice) (found b : Bool),
    self.paymentLoop hashes found = .ok b ↔
      (∀ h ∈ hashes, ∃ txOld, self.GetTransactionByHash (copyHash h) = (some txOld, none)) ∧
      (b = true ↔ found = true ∨ ∃ h ∈ hashes, ∃ txOld,
        self.GetTransactionByHash (copyHash h) = (some txOld, none) ∧
          txOld.GetType = TxLoanResponseType)
  | [], found, b => by
    unfold BlockChain.paymentLoop
    simp only [Except.ok.injEq, List.not_mem_nil, false_and, exists_false, or_false,
      IsEmpty.forall_iff, implies_true, true_and]
    constructor
    · intro h
      rw [h]
    · intro h
      cases found <;> cases b <;> simp_all
  | txHash :: rest, found, b => by
    unfold BlockChain.paymentLoop
    simp only [List.mem_cons, forall_eq_or_imp, exists_eq_or_imp]
    cases hg : self.GetTransactionByHash (copyHash txHash) with
    | mk t e =>
      cases t with
      | none => simp
      | some txOld =>
        cases e with
        | some err => simp
        | none =>
          simp only [Prod.mk.injEq, Option.some.injEq, and_true, exists_eq_left', true_and]
          by_cases ht : txOld.GetType = TxLoanResponseType
          · rw [if_pos ht, paymentLoop_ok self rest true b]
            simp [ht]
          · rw [if_neg ht, paymentLoop_ok self rest found b]
            simp [ht]

theorem ValidateTxLoanPayment_iff (self : BlockChain) (tx : Transaction) (chainID : Fin 256) :
    self.ValidateTxLoanPayment tx chainID = none ↔
      ∃ txPayment txHashes, tx.asTxLoanPayment = some txPayment ∧
        self.GetLoanTxs txPayment.LoanID = .ok txHashes ∧
        (∀ h ∈ txHashes, ∃ txOld,
          self.GetTransactionByHash (copyHash h) = (some txOld, none)) ∧
        ∃ h ∈ txHashes, ∃ txOld,
          self.GetTransactionByHash (copyHash h) = (some txOld, none) ∧
            txOld.GetType = TxLoanResponseType := by
  unfold BlockChain.ValidateTxLoanPayment
  cases hp : tx.asTxLoanPayment with
  | none => simp
  | some p =>
    simp only [Option.some.injEq, exists_and_left, exists_eq_left']
    cases hl : self.GetLoanTxs p.LoanID with
    | error e => simp
    | ok hashes =>
      simp only [Except.ok.injEq, exists_eq_left']
      cases hloop : self.paymentLoop hashes false with
      | error e =>
        simp only [reduceCtorEq, false_iff, not_and]
        intro hall hex
        have := (paymentLoop_ok self hashes false true).2 ⟨hall, by simp [hex]⟩
        rw [hloop] at this
        cases this
      | ok found =>
        obtain ⟨hall, hb⟩ := (paymentLoop_ok self hashes false found).1 hloop
        cases found with
        | true =>
          simp only [Bool.true_eq_false, if_false, true_iff]
          exact ⟨hall, by simpa using hb⟩
        | false =>
          simp only [if_true, reduceCtorEq, false_iff, not_and]
          intro _ hex
          have := hb.2 (Or.inr hex)
          cases this

theorem responseLoop_ok (self : BlockChain) : ∀ (hashes : List Slice) (found b : Bool),
    self.responseLoop hashes found = .ok b ↔
      (∀ h ∈ hashes, ∃ txOld, self.GetTransactionByHash (copyHash h) = (some txOld, none) ∧
        txOld.GetType ≠ TxLoanResponseType ∧
        (txOld.GetType = TxLoanRequestType → txOld.asTxLoanRequest.isSome = true)) ∧
      (b = true ↔ found = true ∨ ∃ h ∈ hashes, ∃ txOld,
        self.GetTransactionByHash (copyHash h) = (some txOld, none) ∧
          txOld.GetType = TxLoanRequestType)
  | [], found, b => by
    unfold BlockChain.responseLoop
    simp only [Except.ok.injEq, List.not_mem_nil, false_and, exists_false, or_false,
      IsEmpty.forall_iff, implies_true, true_and]
    constructor
    · intro h
      rw [h]
    · intro h
      cases found <;> cases b <;> simp_all
  | txHash :: rest, found, b => by
    unfold BlockChain.responseLoop
    simp only [List.mem_cons, forall_eq_or_imp, exists_eq_or_imp]
    cases hg : self.GetTransactionByHash (copyHash txHash) with
    | mk t e =>
      cases t with
      | none => simp
      | some txOld =>
        cases e with
        | some err => simp
        | none =>
          simp only [Prod.mk.injEq, Option.some.injEq, and_true, exists_eq_left', true_and]
          by_cases ht : txOld.GetType = TxLoanResponseType
          · rw [if_pos ht]
            simp [ht]
          · rw [if_neg ht]
            by_cases hq : txOld.GetType = TxLoanRequestType
            · rw [if_pos hq]
              cases ha : txOld.asTxLoanRequest with
              | none => simp [hq]
              | some req =>
                have hne : TxLoanRequestType ≠ TxLoanResponseType := by decide
                simp only
                rw [responseLoop_ok self rest true b]
                simp [hq, hne]
            · rw [if_neg hq, responseLoop_ok self rest found b]
              simp [ht, hq]

theorem ValidateTxLoanResponse_iff (self : BlockChain) (txResponse : LoanResponse)
    (chainID : Fin 256) (txHashes : List Slice)
    (hlookup : self.GetLoanTxs txResponse.LoanID = .ok txHashes)
    (htags : ∀ h ∈ txHashes, ∀ txOld,
      self.GetTransactionByHash (copyHash h) = (some txOld, none) →
        txOld.GetType = TxLoanRequestType → txOld.asTxLoanRequest.isSome = true) :
    self.ValidateTxLoanResponse (.ofTxLoanResponse txResponse) chainID = none ↔
      (∀ h ∈ txHashes, ∃ txOld,
        self.GetTransactionByHash (copyHash h) = (some txOld, none)) ∧
      (∃ h ∈ txHashes, ∃ txOld,
        self.GetTransactionByHash (copyHash h) = (some txOld, none) ∧
          txOld.GetType = TxLoanRequestType) ∧
      ∀ h ∈ txHashes, ∀ txOld,
        self.GetTransactionByHash (copyHash h) = (some txOld, none) →
          txOld.GetType ≠ TxLoanResponseType := by
  unfold BlockChain.ValidateTxLoanResponse
  simp only [Transaction.asTxLoanResponse, hlookup]
  cases hloop : self.responseLoop txHashes false with
  | error e =>
    simp only [reduceCtorEq, false_iff]
    rintro ⟨hall, hex, hno⟩
    have := (responseLoop_ok self txHashes false true).2 ⟨?_, by simp [hex]⟩
    · rw [hloop] at this
      cases this
    · intro h hh
      obtain ⟨txOld, ht⟩ := hall h hh
      exact ⟨txOld, ht, hno h hh txOld ht, htags h hh txOld ht⟩
  | ok found =>
    obtain ⟨hall, hb⟩ := (responseLoop_ok self txHashes false found).1 hloop
    have hres : ∀ h ∈ txHashes, ∃ txOld,
        self.GetTransactionByHash (copyHash h) = (some txOld, none) := by
      intro h hh
      obtain ⟨t, ht, _⟩ := hall h hh
      exact ⟨t, ht⟩
    have hno : ∀ h ∈ txHashes, ∀ txOld,
        self.GetTransactionByHash (copyHash h) = (some txOld, none) →
          txOld.GetType ≠ TxLoanResponseType := by
      intro h hh txOld ht
      obtain ⟨t, ht2, hne, _⟩ := hall h hh
      rw [ht] at ht2
      cases ht2
      exact hne
    cases found with
    | true =>
      simp only [Bool.true_eq_false, if_false, true_iff]
      exact ⟨hres, by simpa using hb, hno⟩
    | false =>
      simp only [if_true, reduceCtorEq, false_iff, not_and]
      intro _ hex
      have := hb.2 (Or.inr hex)
      cases this

/-! ## Lemmas on the loop of `CreateTx` -/

/-- What is known of a round of `CreateTx` that built a description. -/
theorem round_inv (o : TxOracles) (a : CreateTxArgs) (st st2 : LoopState)
    (h : CreateTx.round o a st = .returned (.ok st2)) :
    ∃ newRts tx2 outputs2,
      ¬ (st.tx.Descs.length = 0 ∧ (roundChosen o st).inputValue < roundFee a st) ∧
      commitmentsFound st.commitments (roundChosen o st).inputsToBuildWitness = true ∧
      o.BuildWitnessPathMultiChain (roundChosen o st).inputsToBuildWitness st.commitments
        = .ok newRts ∧
      (st.latestAnchor.isNone = true → checkAnchors a.rts newRts = .returned (.ok ())) ∧
      Tx.BuildNewJSDesc o
          (if st.tx.Descs.length = 0 then { st.tx with Fee := a.fee } else st.tx)
          (roundInputMap o st)
          (roundRealOuts o a st ++ dummyOutputs o st.tx.Descs.length (roundRealOuts o a st).length)
          (roundAnchor newRts) 0 (roundFee a st)
        = .returned (.ok (tx2, outputs2)) ∧
      st2 = roundResult a st (roundChosen o st)
        (dummyInputs o st.tx.Descs.length (roundChosen o st).numInputNotes) (roundFee a st)
        newRts (roundAnchor newRts) (roundOut o a st) (roundFin o a st)
        (dummyOutputs o st.tx.Descs.length (roundRealOuts o a st).length) tx2 outputs2 := by
  unfold CreateTx.round at h
  simp only [] at h
  rw [show chooseInputs o (o.sortNotes st.inputNotes).length
      { inputNotes := o.sortNotes st.inputNotes, inputs := [], inputsToBuildWitness := [],
        inputValue := 0, numInputNotes := 0, pulled := [] } = roundChosen o st from rfl] at h
  rw [show (if st.tx.Descs.length = 0 then a.fee else 0) = roundFee a st from rfl] at h
  by_cases hfee : st.tx.Descs.length = 0 ∧ (roundChosen o st).inputValue < roundFee a st
  · rw [if_pos hfee] at h
    cases h
  · rw [if_neg hfee] at h
    by_cases hcm : ¬ commitmentsFound st.commitments (roundChosen o st).inputsToBuildWitness = true
    · rw [if_pos hcm] at h
      cases h
    · rw [if_neg hcm] at h
      cases hw : o.BuildWitnessPathMultiChain (roundChosen o st).inputsToBuildWitness
          st.commitments with
      | error e =>
        rw [hw] at h
        cases h
      | ok newRts =>
        rw [hw] at h
        simp only at h
        cases ha : (if st.latestAnchor.isNone = true then checkAnchors a.rts newRts
            else GoResult.returned (Except.ok ())) with
        | panicked =>
          rw [ha] at h
          cases h
        | returned res =>
          rw [ha] at h
          cases res with
          | error e => cases h
          | ok u =>
            simp only at h
            unfold roundOutputs roundProve at h
            simp only [] at h
            split at h
            · cases h
            · cases h
            · rename_i tx2 outputs2 hb
              cases h
              refine ⟨newRts, tx2, outputs2, hfee, by simpa using hcm, rfl, ?_, hb, rfl⟩
              intro hn
              rw [if_pos hn] at ha
              exact ha


/-- A property that holds of the initial state and that every round that builds
a description preserves holds of the state in which the loop ends, where both
lists are empty. -/
theorem loop_invariant (o : TxOracles) (a : CreateTxArgs) (P : LoopState → Prop)
    (hstep : ∀ st st2, P st → CreateTx.round o a st = .returned (.ok st2) → P st2) :
    ∀ (fuel : Nat) (st st2 : LoopState), P st →
      CreateTx.loop o a fuel st = some (.returned (.ok st2)) →
      P st2 ∧ st2.inputNotes = [] ∧ st2.paymentInfo = []
  | 0, st, st2, hP, h => by
    unfold CreateTx.loop at h
    split at h
    · rename_i he
      cases h
      exact ⟨hP, he.1, he.2⟩
    · cases h
  | fuel + 1, st, st2, hP, h => by
    unfold CreateTx.loop at h
    split at h
    · rename_i he
      cases h
      exact ⟨hP, he.1, he.2⟩
    · cases hr : CreateTx.round o a st with
      | panicked =>
        rw [hr] at h
        cases h
      | returned res =>
        rw [hr] at h
        cases res with
        | error e => cases h
        | ok st3 => exact loop_invariant o a P hstep fuel st3 st2 (hstep st st3 hP hr) h

/-- The state in which the loop of `CreateTx` starts. -/
theorem init_ok (o : TxOracles) (a : CreateTxArgs) (st : LoopState)
    (h : CreateTx.init o a = .returned (.ok st)) :
    st.inputNotes = gatherNotes a.usableTx ∧ st.paymentInfo = a.paymentInfo ∧
      st.commitments = a.commitments ∧ st.latestAnchor = none ∧ st.rounds = [] ∧
      st.tx.Descs = [] ∧
      ¬ sumU64 ((gatherNotes a.usableTx).map fun n => n.note.Value)
          < (sumU64 (a.paymentInfo.map fun p => p.Amount) + a.fee) % u64 := by
  unfold CreateTx.init at h
  simp only [] at h
  split at h
  · cases h
  · rename_i hf
    unfold NewTxTemplate at h
    split at h
    · cases h
    · rename_i tx htx
      split at htx
      · cases htx
      · cases htx
        cases h
        exact ⟨rfl, rfl, rfl, rfl, rfl, rfl, hf⟩

/-- Invariants of the loop of `CreateTx` hold of the record of the rounds that
comes with the transaction. -/
theorem CreateTx_invariant (o : TxOracles) (a : CreateTxArgs) (P : LoopState → Prop)
    (hinit : ∀ st, CreateTx.init o a = .returned (.ok st) → P st)
    (hstep : ∀ st st2, P st → CreateTx.round o a st = .returned (.ok st2) → P st2)
    (fuel : Nat) (tx : Tx) (rounds : List Round)
    (hrun : CreateTx o a fuel = some (.returned (.ok (tx, rounds)))) :
    ∃ st, P st ∧ st.inputNotes = [] ∧ st.paymentInfo = [] ∧ st.rounds = rounds ∧
      tx.Descs = st.tx.Descs := by
  unfold CreateTx at hrun
  split at hrun
  · cases hrun
  · cases hrun
  · rename_i st0 h0
    split at hrun
    · cases hrun
    · cases hrun
    · cases hrun
    · rename_i st hloop
      obtain ⟨hP, h1, h2⟩ := loop_invariant o a P hstep fuel st0 st (hinit st0 h0) hloop
      split at hrun
      · cases hrun
      · rename_i tx2 hs
        cases hrun
        exact ⟨st, hP, h1, h2, rfl, SignTx_Descs _ _ _ hs⟩

theorem payTotal_append (q : PaymentAddress → Bool) (l1 l2 : List PaymentInfo) :
    paymentTotal q (l1 ++ l2) = paymentTotal q l1 + paymentTotal q l2 := by
  simp [paymentTotal]

theorem outTotalTo_append (q : PaymentAddress → Bool) (l1 l2 : List JSOutput) :
    outputTotalTo q (l1 ++ l2) = outputTotalTo q l1 + outputTotalTo q l2 := by
  simp [outputTotalTo]

theorem payTotal_perm (q : PaymentAddress → Bool) {l1 l2 : List PaymentInfo}
    (h : l1.Perm l2) : paymentTotal q l1 = paymentTotal q l2 := by
  unfold paymentTotal
  exact ((h.filter _).map _).sum_eq

theorem payTotal_dropLast (q : PaymentAddress → Bool) (ps : List PaymentInfo) (p : PaymentInfo)
    (hl : ps.getLast? = some p) :
    paymentTotal q ps = paymentTotal q ps.dropLast + paymentTotal q [p] := by
  have hsplit : ps.dropLast ++ [p] = ps :=
    List.dropLast_append_getLast? p (by rw [hl]; rfl)
  conv_lhs => rw [← hsplit]
  rw [payTotal_append]

theorem writeAmount_addr (ps : List PaymentInfo) (addr v : Nat) :
    (writeAmount ps addr v).map (fun p => p.addr) = ps.map fun p => p.addr := by
  unfold writeAmount
  rw [List.map_map]
  apply List.map_congr_left
  intro q _
  simp only [Function.comp]
  split <;> rfl

theorem writeAmount_append (l1 l2 : List PaymentInfo) (addr v : Nat) :
    writeAmount (l1 ++ l2) addr v = writeAmount l1 addr v ++ writeAmount l2 addr v := by
  simp [writeAmount]

theorem writeAmount_self (p : PaymentInfo) (v : Nat) :
    writeAmount [p] p.addr v = [{ p with Amount := v }] := by
  simp [writeAmount]

/-- A write through the last pointer of a slice that holds no pointer twice
changes the last entry only. -/
theorem writeAmount_last_nodup (ps : List PaymentInfo) (p : PaymentInfo) (v : Nat)
    (hl : ps.getLast? = some p) (hnd : (ps.map fun p => p.addr).Nodup) :
    writeAmount ps p.addr v = ps.dropLast ++ [{ p with Amount := v }] := by
  have hsplit : ps.dropLast ++ [p] = ps :=
    List.dropLast_append_getLast? p (by rw [hl]; rfl)
  rw [← hsplit, List.map_append, List.nodup_append] at hnd
  obtain ⟨-, -, hdis⟩ := hnd
  conv_lhs => rw [← hsplit]
  rw [writeAmount_append, writeAmount_self]
  congr 1
  unfold writeAmount
  conv_rhs => rw [← List.map_id ps.dropLast]
  apply List.map_congr_left
  intro q hq
  have hne : q.addr ≠ p.addr := by
    intro he
    exact hdis (List.mem_map_of_mem (fun p => p.addr) hq) (by simp [he])
  rw [if_neg hne]
  rfl

theorem dropLast_addr_nodup (ps : List PaymentInfo) (hnd : (ps.map fun p => p.addr).Nodup) :
    (ps.dropLast.map fun p => p.addr).Nodup :=
  hnd.sublist ((List.dropLast_sublist ps).map _)

/-- The output-choosing loop moves value from the payments to the outputs, when
the slice holds no pointer twice. -/
theorem outputLoop_paid (q : PaymentAddress → Bool) : ∀ (room : Nat) (ps : List PaymentInfo)
    (outs : List JSOutput) (iv : Nat), (ps.map fun p => p.addr).Nodup →
    paymentTotal q (outputLoop room ps outs iv).1
        + outputTotalTo q (outputLoop room ps outs iv).2.1
      = paymentTotal q ps + outputTotalTo q outs
  | 0, _, _, _, _ => rfl
  | room + 1, ps, outs, iv, hnd => by
    unfold outputLoop
    cases hl : ps.getLast? with
    | none => rfl
    | some p =>
      simp only
      by_cases hiv : iv = 0
      · rw [if_pos hiv]
      · rw [if_neg hiv]
        rw [payTotal_dropLast q ps p hl]
        by_cases hle : p.Amount ≤ iv
        · rw [if_pos hle, outputLoop_paid q room _ _ _ (dropLast_addr_nodup ps hnd),
            outTotalTo_append]
          cases hq : q p.PaymentAddress <;>
            (simp [paymentTotal, outputTotalTo, hq]; try omega)
        · rw [if_neg hle,
            outputLoop_paid q room _ _ _ (by rw [writeAmount_addr]; exact hnd),
            writeAmount_last_nodup ps p _ hl hnd, outTotalTo_append, payTotal_append]
          cases hq : q p.PaymentAddress <;>
            (simp [paymentTotal, outputTotalTo, hq]; try omega)

/-- The addresses held by the payments that the output-choosing loop leaves are
among those it found, in the same order. -/
theorem outputLoop_addr : ∀ (room : Nat) (ps : List PaymentInfo) (outs : List JSOutput)
    (iv : Nat),
    ((outputLoop room ps outs iv).1.map fun p => p.addr).Sublist (ps.map fun p => p.addr)
  | 0, _, _, _ => List.Sublist.refl _
  | room + 1, ps, outs, iv => by
    unfold outputLoop
    cases hl : ps.getLast? with
    | none => exact List.Sublist.refl _
    | some p =>
      simp only
      by_cases hiv : iv = 0
      · rw [if_pos hiv]
      · rw [if_neg hiv]
        by_cases hle : p.Amount ≤ iv
        · rw [if_pos hle]
          exact (outputLoop_addr room _ _ _).trans ((List.dropLast_sublist ps).map _)
        · rw [if_neg hle]
          have := outputLoop_addr room (writeAmount ps p.addr (p.Amount - iv))
            (outs ++ [{ EncKey := p.PaymentAddress.Pkenc,
                        OutputNote := { Value := iv, Apk := p.PaymentAddress.Apk,
                                        Nf := none, Cm := none } }]) 0
          rw [writeAmount_addr] at this
          exact this

theorem finishOutputs_addr (sender : PaymentAddress) (ps : List PaymentInfo) (iv : Nat) :
    ((finishOutputs sender ps iv).paymentInfo.map fun p => p.addr).Sublist
      (ps.map fun p => p.addr) := by
  unfold finishOutputs
  split
  · split
    · split
      · exact (List.dropLast_sublist ps).map _
      · exact List.Sublist.refl _
    · exact List.Sublist.refl _
  · exact List.Sublist.refl _

/-- The block `if inputValue > 0` moves value from the payments to the exact
output. -/
theorem finishOutputs_paid (q : PaymentAddress → Bool) (sender : PaymentAddress)
    (ps : List PaymentInfo) (iv : Nat) :
    paymentTotal q (finishOutputs sender ps iv).paymentInfo
        + outputTotalTo q (finishOutputs sender ps iv).exact.toList
      = paymentTotal q ps := by
  unfold finishOutputs
  by_cases hiv : iv > 0
  · rw [if_pos hiv]
    cases hl : ps.getLast? with
    | none => simp [outputTotalTo]
    | some p =>
      simp only
      by_cases hp : p.Amount = iv
      · rw [if_pos hp, payTotal_dropLast q ps p hl]
        cases hq : q p.PaymentAddress <;>
          simp [paymentTotal, outputTotalTo, hq]
      · rw [if_neg hp]
        simp [outputTotalTo]
  · rw [if_neg hiv]
    simp [outputTotalTo]

/-- A round keeps the slice of payments free of pointers held twice. -/
theorem round_preserves_nodup (o : TxOracles) (a : CreateTxArgs)
    (hsort : ∀ l, (o.sortPayments l).Perm l) (st st2 : LoopState)
    (hnd : (st.paymentInfo.map fun p => p.addr).Nodup)
    (h : CreateTx.round o a st = .returned (.ok st2)) :
    (st2.paymentInfo.map fun p => p.addr).Nodup := by
  obtain ⟨newRts, tx2, outputs2, -, -, -, -, -, rfl⟩ := round_inv o a st st2 h
  have hs : ((o.sortPayments st.paymentInfo).map fun p => p.addr).Nodup :=
    (((hsort st.paymentInfo).map _).nodup_iff).2 hnd
  have h1 := outputLoop_addr (NumDescOutputs - 1) (o.sortPayments st.paymentInfo) []
    (roundValue o a st)
  have h2 := finishOutputs_addr (o.ImportKey a.senderKey) (roundOut o a st).1
    (roundOut o a st).2.2
  exact hs.sublist (h2.trans h1)

theorem round_preserves_PaidInv (q : PaymentAddress → Bool) (o : TxOracles) (a : CreateTxArgs)
    (hsort : ∀ l, (o.sortPayments l).Perm l) (st st2 : LoopState)
    (hnd : (st.paymentInfo.map fun p => p.addr).Nodup)
    (hinv : st.PaidInv q a) (h : CreateTx.round o a st = .returned (.ok st2)) :
    st2.PaidInv q a := by
  obtain ⟨newRts, tx2, outputs2, -, -, -, -, -, rfl⟩ := round_inv o a st st2 h
  unfold LoopState.PaidInv at hinv ⊢
  unfold roundResult
  simp only [List.flatMap_append, List.flatMap_cons, List.flatMap_nil, List.append_nil,
    outTotalTo_append]
  have h1 := outputLoop_paid q (NumDescOutputs - 1) (o.sortPayments st.paymentInfo) []
    (roundValue o a st) ((((hsort st.paymentInfo).map _).nodup_iff).2 hnd)
  have h2 := finishOutputs_paid q (o.ImportKey a.senderKey) (roundOut o a st).1
    (roundOut o a st).2.2
  have h3 := payTotal_perm q (hsort st.paymentInfo)
  have h4 : outputTotalTo q [] = 0 := rfl
  change paymentTotal q (roundOut o a st).1 + outputTotalTo q (roundOut o a st).2.1
    = _ at h1
  change paymentTotal q (roundFin o a st).paymentInfo
    + outputTotalTo q (roundFin o a st).exact.toList = _ at h2
  omega

theorem getElem?_append_singleton {α : Type} {l : List α} {x y : α} {k : Nat}
    (h : (l ++ [x])[k]? = some y) : l[k]? = some y ∨ (k = l.length ∧ y = x) := by
  by_cases hlt : k < l.length
  · rw [List.getElem?_append_left hlt] at h
    exact Or.inl h
  · have hge : l.length ≤ k := by omega
    rw [List.getElem?_append_right hge] at h
    have hk0 : k - l.length = 0 := by
      by_contra hne
      rw [List.getElem?_eq_none (by simp; omega)] at h
      cases h
    rw [hk0] at h
    simp only [List.getElem?_cons_zero, Option.some.injEq] at h
    exact Or.inr ⟨by omega, h.symm⟩

/-- Appending to the slice of one chain adds one value to the map. -/
theorem values_push {β : Type} (k : Fin 256) (x : β) : ∀ m : GoMap (List β),
    (GoMap.values (m.push k x)).Perm (GoMap.values m ++ [x])
  | [] => by simp [GoMap.push, GoMap.set, GoMap.get?, GoMap.values]
  | (k2, v2) :: rest => by
    by_cases hk : k2 = k
    · simp only [GoMap.push, GoMap.get?, GoMap.set, hk, if_true, Option.getD_some, GoMap.values,
        List.flatMap_cons, List.append_assoc]
      exact List.Perm.append_left _ List.perm_append_comm
    · have ih := values_push k x rest
      simp only [GoMap.push, GoMap.get?, GoMap.set, hk, if_false, GoMap.values,
        List.flatMap_cons, List.append_assoc] at ih ⊢
      exact List.Perm.append_left _ ih

theorem values_foldl_push {β : Type} (k : Fin 256) : ∀ (xs : List β) (m : GoMap (List β)),
    (GoMap.values (xs.foldl (fun m d => m.push k d) m)).Perm (GoMap.values m ++ xs)
  | [], m => by simp
  | x :: xs, m => by
    simp only [List.foldl_cons]
    refine (values_foldl_push k xs (m.push k x)).trans ?_
    refine ((values_push k x m).append_right xs).trans ?_
    simp

/-- The input-choosing loop keeps the count of the notes, files every note it
takes in the map of the inputs, and takes a note when it can. -/
theorem chooseInputs_shape (o : TxOracles) : ∀ (fuel : Nat) (c : Chosen),
    (chooseInputs o fuel c).pulled.length + (chooseInputs o fuel c).inputNotes.length
        = c.pulled.length + c.inputNotes.length ∧
      (c.numInputNotes = c.pulled.length →
        (chooseInputs o fuel c).numInputNotes = (chooseInputs o fuel c).pulled.length) ∧
      (((GoMap.values c.inputs).map fun i => i.InputNote.Nf).Perm
          (c.pulled.map fun n => n.note.Nf) →
        ((GoMap.values (chooseInputs o fuel c).inputs).map fun i => i.InputNote.Nf).Perm
          ((chooseInputs o fuel c).pulled.map fun n => n.note.Nf)) ∧
      c.pulled.length ≤ (chooseInputs o fuel c).pulled.length ∧
      (0 < fuel → c.inputNotes ≠ [] → c.inputs.length < NumDescInputs →
        c.pulled.length < (chooseInputs o fuel c).pulled.length)
  | 0, c => ⟨rfl, fun h => h, fun h => h, Nat.le_refl _, fun h => absurd h (by omega)⟩
  | fuel + 1, c => by
    unfold chooseInputs
    cases hl : c.inputNotes.getLast? with
    | none =>
      refine ⟨rfl, fun h => h, fun h => h, Nat.le_refl _, fun _ hne _ => ?_⟩
      rw [List.getLast?_eq_none_iff] at hl
      exact absurd hl hne
    | some chainNote =>
      simp only
      by_cases hlen : c.inputs.length < NumDescInputs
      · rw [if_pos hlen]
        have hsplit : c.inputNotes.dropLast ++ [chainNote] = c.inputNotes :=
          List.dropLast_append_getLast? chainNote (by rw [hl]; rfl)
        have hlen2 : c.inputNotes.length = c.inputNotes.dropLast.length + 1 := by
          conv_lhs => rw [← hsplit]
          simp
        obtain ⟨ih1, ih2, ih3, ih4, -⟩ := chooseInputs_shape o fuel
          { inputNotes := c.inputNotes.dropLast
            inputs := c.inputs.push chainNote.chainID
              { InputNote := { chainNote.note with Cm := o.GetCommitment chainNote.note } }
            inputsToBuildWitness := c.inputsToBuildWitness.push chainNote.chainID
              { InputNote := { chainNote.note with Cm := o.GetCommitment chainNote.note } }
            inputValue := (c.inputValue + chainNote.note.Value) % u64
            numInputNotes := c.numInputNotes + 1
            pulled := c.pulled ++ [chainNote] }
        simp only [List.length_append, List.length_singleton] at ih1 ih2 ih4
        refine ⟨by omega, fun h => ih2 (by omega), fun h => ih3 ?_, by omega,
          fun _ _ _ => by omega⟩
        simp only [List.map_append, List.map_cons, List.map_nil]
        refine ((values_push _ _ c.inputs).map _).trans ?_
        simp only [List.map_append, List.map_cons, List.map_nil]
        exact h.append_right _
      · rw [if_neg hlen]
        exact ⟨rfl, fun h => h, fun h => h, Nat.le_refl _, fun _ _ h => absurd h hlen⟩

theorem gatherChain_ok (rtMap : GoMap Slice) (chainID : Fin 256) :
    ∀ (l : List JSInput) (acc res : List JSInput × List Slice),
    gatherChain rtMap chainID l acc = .ok res →
      res.1 = acc.1 ++ l ∧
        ∃ rs : List Slice, res.2 = acc.2 ++ rs ∧ rs.length = l.length ∧
          ∀ rt ∈ rs, rtMap.get? chainID = some rt
  | [], acc, res, h => by
    unfold gatherChain at h
    cases h
    exact ⟨by simp, [], by simp, rfl, by simp⟩
  | input :: rest, acc, res, h => by
    unfold gatherChain at h
    cases hg : rtMap.get? chainID with
    | none =>
      rw [hg] at h
      cases h
    | some rt =>
      rw [hg] at h
      obtain ⟨h1, rs, h2, h3, h4⟩ := gatherChain_ok rtMap chainID rest _ res h
      refine ⟨by simp [h1], rt :: rs, by simp [h2], by simp [h3], ?_⟩
      intro x hx
      rcases List.mem_cons.1 hx with rfl | hx
      · rfl
      · rw [← hg]
        exact h4 x hx

theorem gatherInputs_ok (rtMap : GoMap Slice) :
    ∀ (m : GoMap (List JSInput)) (acc res : List JSInput × List Slice),
    gatherInputs rtMap m acc = .ok res →
      res.1 = acc.1 ++ GoMap.values m ∧
        ∃ rs : List Slice, res.2 = acc.2 ++ rs ∧ rs.length = (GoMap.values m).length ∧
          ∀ rt ∈ rs, ∃ chainID, rtMap.get? chainID = some rt
  | [], acc, res, h => by
    unfold gatherInputs at h
    cases h
    exact ⟨by simp [GoMap.values], [], by simp, rfl, by simp⟩
  | (chainID, inputList) :: rest, acc, res, h => by
    unfold gatherInputs at h
    cases hg : gatherChain rtMap chainID inputList acc with
    | error e =>
      rw [hg] at h
      cases h
    | ok acc2 =>
      rw [hg] at h
      obtain ⟨g1, rs1, g2, g3, g4⟩ := gatherChain_ok rtMap chainID inputList acc acc2 hg
      obtain ⟨h1, rs, h2, h3, h4⟩ := gatherInputs_ok rtMap rest acc2 res h
      refine ⟨by simp [h1, g1, GoMap.values], rs1 ++ rs, by simp [h2, g2],
        by simp [h3, g3, GoMap.values], ?_⟩
      intro x hx
      rcases List.mem_append.1 hx with hx | hx
      · exact ⟨chainID, g4 x hx⟩
      · exact h4 x hx

theorem setCms_length : ∀ (outs : List JSOutput) (cms : List Slice),
    (setCms outs cms).length = outs.length
  | [], _ => rfl
  | _ :: _, [] => rfl
  | _ :: outs, _ :: cms => by simp [setCms, setCms_length outs cms]

/-- What `BuildNewJSDesc` appends to the transaction when it succeeds. -/
theorem BuildNewJSDesc_ok (o : TxOracles) (tx tx2 : Tx) (inputMap : GoMap (List JSInput))
    (outputs outputs2 : List JSOutput) (rtMap : GoMap Slice) (reward fee : Nat)
    (h : tx.BuildNewJSDesc o inputMap outputs rtMap reward fee
      = .returned (.ok (tx2, outputs2))) :
    (GoMap.values inputMap).length = NumDescInputs ∧ outputs.length = NumDescOutputs ∧
      outputs2.length = NumDescOutputs ∧
      ∃ d, tx2.Descs = tx.Descs ++ [d] ∧
        d.Nullifiers = (GoMap.values inputMap).map (fun i => i.InputNote.Nf) ∧
        d.Commitments = outputs2.map (fun x => x.OutputNote.Cm) ∧
        d.Reward = reward ∧
        d.Anchor.length = NumDescInputs ∧
        ∀ rt ∈ d.Anchor, ∃ chainID, rtMap.get? chainID = some rt := by
  unfold Tx.BuildNewJSDesc at h
  cases hg : gatherInputs rtMap inputMap ([], []) with
  | error e =>
    rw [hg] at h
    cases h
  | ok res =>
    obtain ⟨inputs, rts⟩ := res
    rw [hg] at h
    obtain ⟨g1, rs, g2, g3, g4⟩ := gatherInputs_ok rtMap inputMap _ _ hg
    simp only [List.nil_append] at g1 g2
    subst g1 g2
    simp only at h
    by_cases hlen : (GoMap.values inputMap).length ≠ NumDescInputs
        ∨ outputs.length ≠ NumDescOutputs
    · rw [if_pos hlen] at h
      cases h
    · rw [if_neg hlen] at h
      have hl1 : (GoMap.values inputMap).length = NumDescInputs := by
        by_contra hne
        exact hlen (Or.inl hne)
      have hl2 : outputs.length = NumDescOutputs := by
        by_contra hne
        exact hlen (Or.inr hne)
      cases hp : o.Prove (GoMap.values inputMap) outputs tx.JSPubKey rts reward fee with
      | error e =>
        rw [hp] at h
        cases h
      | ok cms =>
        rw [hp] at h
        simp only at h
        have hl3 := setCms_length outputs cms
        rw [hl2] at hl3
        unfold Tx.buildJSDescAndEncrypt at h
        generalize setCms outputs cms = outs2 at h hl3
        generalize GoMap.values inputMap = inputs at h hl1 g3
        match inputs, outs2, hl1, hl3 with
        | [i0, i1], [o0, o1], _, _ =>
          simp only at h
          cases h
          refine ⟨rfl, hl2, rfl, _, rfl, rfl, rfl, rfl, ?_, g4⟩
          simpa using g3

theorem roundChosen_shape (o : TxOracles) (st : LoopState) :
    (roundChosen o st).pulled.length + (roundChosen o st).inputNotes.length
        = (o.sortNotes st.inputNotes).length ∧
      (roundChosen o st).numInputNotes = (roundChosen o st).pulled.length ∧
      ((GoMap.values (roundChosen o st).inputs).map fun i => i.InputNote.Nf).Perm
        ((roundChosen o st).pulled.map fun n => n.note.Nf) ∧
      (o.sortNotes st.inputNotes ≠ [] → 0 < (roundChosen o st).pulled.length) := by
  obtain ⟨h1, h2, h3, -, h5⟩ := chooseInputs_shape o (o.sortNotes st.inputNotes).length
    { inputNotes := o.sortNotes st.inputNotes, inputs := [], inputsToBuildWitness := [],
      inputValue := 0, numInputNotes := 0, pulled := [] }
  refine ⟨by simpa using h1, h2 rfl, h3 (by simp [GoMap.values]), fun hne => ?_⟩
  have := h5 (List.length_pos.2 hne) hne (by simp [NumDescInputs])
  simpa using this

/-- A round that builds a description appends one record and one description of
the fixed shape. -/
theorem round_shape (o : TxOracles) (a : CreateTxArgs) (st st2 : LoopState)
    (h : CreateTx.round o a st = .returned (.ok st2)) :
    ∃ r d newRts, st2.rounds = st.rounds ++ [r] ∧ st2.tx.Descs = st.tx.Descs ++ [d] ∧
      Round.Shaped r d ∧ st2.latestAnchor = some (roundAnchor newRts) ∧
      r.newRts = newRts ∧ r.latestAnchor = roundAnchor newRts ∧
      (∀ rt ∈ d.Anchor, ∃ chainID, r.latestAnchor.get? chainID = some rt) ∧
      (st.latestAnchor = none → checkAnchors a.rts newRts = .returned (.ok ())) := by
  obtain ⟨newRts, tx2, outputs2, -, -, -, hchk, hb, rfl⟩ := round_inv o a st st2 h
  obtain ⟨b1, b2, b3, d, b4, b5, b6, -, -, b9⟩ := BuildNewJSDesc_ok _ _ _ _ _ _ _ _ _ hb
  obtain ⟨c1, c2, c3, -⟩ := roundChosen_shape o st
  have hd : (if st.tx.Descs.length = 0 then ({ st.tx with Fee := a.fee } : Tx) else st.tx).Descs
      = st.tx.Descs := by
    split <;> rfl
  rw [hd] at b4
  have hv := values_foldl_push (0 : Fin 256)
    (dummyInputs o st.tx.Descs.length (roundChosen o st).numInputNotes) (roundChosen o st).inputs
  refine ⟨_, d, newRts, rfl, b4, ⟨?_, ?_, ?_, ?_, ?_, ?_⟩, rfl, rfl, rfl, b9, ?_⟩
  · have := hv.length_eq
    rw [List.length_append] at this
    have hc := c3.length_eq
    simp only [List.length_map] at hc
    show (roundChosen o st).pulled.length + _ = NumDescInputs
    rw [← hc, ← this]
    exact b1
  · show ((roundOut o a st).2.1 ++ (roundFin o a st).exact.toList
        ++ (roundFin o a st).change.toList ++ _).length = NumDescOutputs
    exact b2
  · intro i hi
    simp only [dummyInputs, List.mem_map] at hi
    obtain ⟨j, -, rfl⟩ := hi
    rfl
  · intro x hx
    simp only [dummyOutputs, List.mem_map] at hx
    obtain ⟨j, -, rfl⟩ := hx
    rfl
  · rw [b5]
    refine (hv.map _).trans ?_
    simp only [List.map_append]
    exact c3.append_right _
  · rw [b6, List.length_map]
    exact b3
  · intro hn
    exact hchk (by rw [hn]; rfl)

theorem round_preserves_ShapeInv (o : TxOracles) (a : CreateTxArgs) (st st2 : LoopState)
    (hinv : st.ShapeInv) (h : CreateTx.round o a st = .returned (.ok st2)) : st2.ShapeInv := by
  obtain ⟨r, d, newRts, hr, hd, hs, -⟩ := round_shape o a st st2 h
  obtain ⟨h1, h2⟩ := hinv
  refine ⟨by rw [hr, hd, List.length_append, List.length_append, h1]; rfl, ?_⟩
  intro k r2 d2 hk hk2
  rw [hr] at hk
  rw [hd] at hk2
  rcases getElem?_append_singleton hk with hk | ⟨hk, rfl⟩
  · rcases getElem?_append_singleton hk2 with hk2 | ⟨hk2, rfl⟩
    · exact h2 k r2 d2 hk hk2
    · rw [List.getElem?_eq_none (by omega)] at hk
      cases hk
  · rcases getElem?_append_singleton hk2 with hk2 | ⟨-, rfl⟩
    · rw [List.getElem?_eq_none (by omega)] at hk2
      cases hk2
    · exact hs

theorem paymentTotal_true (l : List PaymentInfo) :
    paymentTotal (fun _ => true) l = (l.map fun p => p.Amount).sum := by
  simp [paymentTotal]

theorem outputTotalTo_true_sum (l : List JSOutput) :
    outputTotalTo (fun _ => true) l = (l.map fun x => x.OutputNote.Value).sum := by
  simp [outputTotalTo]

/-- The inputs that the input-choosing loop files in the map are the inputs made
of the notes it takes. -/
theorem chooseInputs_inputs (o : TxOracles) : ∀ (fuel : Nat) (c : Chosen),
    (GoMap.values c.inputs).Perm (c.pulled.map (realInput o)) →
    (GoMap.values (chooseInputs o fuel c).inputs).Perm
      ((chooseInputs o fuel c).pulled.map (realInput o))
  | 0, _, h => h
  | fuel + 1, c, h => by
    unfold chooseInputs
    cases hl : c.inputNotes.getLast? with
    | none => exact h
    | some chainNote =>
      simp only
      by_cases hlen : c.inputs.length < NumDescInputs
      · rw [if_pos hlen]
        apply chooseInputs_inputs o fuel
        simp only [List.map_append, List.map_cons, List.map_nil]
        exact (values_push _ _ c.inputs).trans (h.append_right _)
      · rw [if_neg hlen]
        exact h

theorem roundChosen_inputs (o : TxOracles) (st : LoopState) :
    (GoMap.values (roundInputMap o st)).Perm
      ((roundChosen o st).pulled.map (realInput o)
        ++ dummyInputs o st.tx.Descs.length (roundChosen o st).numInputNotes) := by
  have h1 := chooseInputs_inputs o (o.sortNotes st.inputNotes).length
    { inputNotes := o.sortNotes st.inputNotes, inputs := [], inputsToBuildWitness := [],
      inputValue := 0, numInputNotes := 0, pulled := [] } (by simp [GoMap.values])
  have h2 := values_foldl_push (0 : Fin 256)
    (dummyInputs o st.tx.Descs.length (roundChosen o st).numInputNotes) (roundChosen o st).inputs
  exact h2.trans (h1.append_right _)

/-- The prover run behind a successful `BuildNewJSDesc`. -/
theorem BuildNewJSDesc_prove (o : TxOracles) (tx tx2 : Tx) (inputMap : GoMap (List JSInput))
    (outputs outputs2 : List JSOutput) (rtMap : GoMap Slice) (reward fee : Nat)
    (h : tx.BuildNewJSDesc o inputMap outputs rtMap reward fee
      = .returned (.ok (tx2, outputs2))) :
    ∃ d cms, tx2.Descs = tx.Descs ++ [d] ∧ tx2.JSPubKey = tx.JSPubKey ∧
      o.Prove (GoMap.values inputMap) outputs tx.JSPubKey d.Anchor reward fee = .ok cms ∧
      d.Nullifiers = (GoMap.values inputMap).map (fun i => i.InputNote.Nf) ∧
      d.Commitments = (setCms outputs cms).map (fun x => x.OutputNote.Cm) ∧
      d.Reward = reward := by
  unfold Tx.BuildNewJSDesc at h
  cases hg : gatherInputs rtMap inputMap ([], []) with
  | error e =>
    rw [hg] at h
    cases h
  | ok res =>
    obtain ⟨inputs, rts⟩ := res
    rw [hg] at h
    obtain ⟨g1, -⟩ := gatherInputs_ok rtMap inputMap _ _ hg
    simp only [List.nil_append] at g1
    subst g1
    simp only at h
    by_cases hlen : (GoMap.values inputMap).length ≠ NumDescInputs
        ∨ outputs.length ≠ NumDescOutputs
    · rw [if_pos hlen] at h
      cases h
    · rw [if_neg hlen] at h
      have hl1 : (GoMap.values inputMap).length = NumDescInputs := by
        by_contra hne
        exact hlen (Or.inl hne)
      have hl2 : outputs.length = NumDescOutputs := by
        by_contra hne
        exact hlen (Or.inr hne)
      cases hp : o.Prove (GoMap.values inputMap) outputs tx.JSPubKey rts reward fee with
      | error e =>
        rw [hp] at h
        cases h
      | ok cms =>
        rw [hp] at h
        simp only at h
        have hl3 := setCms_length outputs cms
        rw [hl2] at hl3
        unfold Tx.buildJSDescAndEncrypt at h
        generalize hs : setCms outputs cms = outs2 at h hl3
        generalize GoMap.values inputMap = inputs at h hl1 hp
        match inputs, outs2, hl1, hl3, hs, hp, h with
        | [i0, i1], [o0, o1], _, _, hs, hp, h =>
          simp only at h
          cases h
          exact ⟨_, cms, rfl, rfl, hp, rfl, by rw [hs]; rfl, rfl⟩

/-- A round that builds a description keeps the key of the transaction and the
tie between the records of the rounds and the descriptions. -/
theorem round_preserves_ProvedInv (o : TxOracles) (a : CreateTxArgs) (st st2 : LoopState)
    (hinv : st.ProvedInv o) (h : CreateTx.round o a st = .returned (.ok st2)) :
    st2.ProvedInv o ∧ st2.tx.JSPubKey = st.tx.JSPubKey := by
  obtain ⟨newRts, tx2, outputs2, -, -, -, -, hb, rfl⟩ := round_inv o a st st2 h
  obtain ⟨d, cms, b1, b2, b3, b4, b5, b6⟩ := BuildNewJSDesc_prove _ _ _ _ _ _ _ _ _ hb
  have hd : (if st.tx.Descs.length = 0 then ({ st.tx with Fee := a.fee } : Tx) else st.tx).Descs
      = st.tx.Descs := by
    split <;> rfl
  have hk : (if st.tx.Descs.length = 0 then ({ st.tx with Fee := a.fee } : Tx)
      else st.tx).JSPubKey = st.tx.JSPubKey := by
    split <;> rfl
  rw [hd] at b1
  rw [hk] at b2 b3
  obtain ⟨hlen, hall⟩ := hinv
  have hkey : (roundResult a st (roundChosen o st)
      (dummyInputs o st.tx.Descs.length (roundChosen o st).numInputNotes) (roundFee a st)
      newRts (roundAnchor newRts) (roundOut o a st) (roundFin o a st)
      (dummyOutputs o st.tx.Descs.length (roundRealOuts o a st).length) tx2
      outputs2).tx.JSPubKey = st.tx.JSPubKey := b2
  refine ⟨⟨?_, ?_⟩, hkey⟩
  · show (st.rounds ++ [_]).length = tx2.Descs.length
    rw [b1, List.length_append, List.length_append, hlen]
    rfl
  · intro k r hk
    rw [hkey]
    show ∃ d2, tx2.Descs[k]? = some d2 ∧ _
    rw [b1]
    rcases getElem?_append_singleton hk with hold | ⟨hk2, hr⟩
    · obtain ⟨d2, hd2, hp2⟩ := hall k r hold
      refine ⟨d2, ?_, hp2⟩
      rw [List.getElem?_append_left (by
        have := (List.getElem?_eq_some_iff.1 hd2).1
        exact this)]
      exact hd2
    · refine ⟨d, ?_, ?_⟩
      · rw [hk2, hlen, List.getElem?_append_right (Nat.le_refl _)]
        simp
      · subst hr
        exact ⟨_, cms, roundChosen_inputs o st, b3, b4, b5, b6⟩

theorem SignTx_JSPubKey (o : SigOracles) (tx tx2 : Tx) (h : SignTx o tx = .ok tx2) :
    tx2.JSPubKey = tx.JSPubKey := by
  unfold SignTx at h
  split at h
  · cases h
  · simp only at h
    cases hs : o.Sign tx.sigPrivKey (tx.Hash o) with
    | error e =>
      rw [hs] at h
      cases h
    | ok sig =>
      rw [hs] at h
      cases h
      rfl

/-- In a successful `CreateTx` run every record of a round belongs to the
description of the same rank in the transaction, which is what the prover run
of the round gave. -/
theorem CreateTx_proved (o : TxOracles) (a : CreateTxArgs) (fuel : Nat) (tx : Tx)
    (rounds : List Round) (hrun : CreateTx o a fuel = some (.returned (.ok (tx, rounds)))) :
    rounds.length = tx.Descs.length ∧
      ∀ (k : Nat) (r : Round), rounds[k]? = some r →
        ∃ d, tx.Descs[k]? = some d ∧ Round.Proved o tx.JSPubKey r d := by
  unfold CreateTx at hrun
  split at hrun
  · cases hrun
  · cases hrun
  · rename_i st0 h0
    split at hrun
    · cases hrun
    · cases hrun
    · cases hrun
    · rename_i st hloop
      obtain ⟨-, -, -, -, g5, g6, -⟩ := init_ok o a st0 h0
      have hinit : st0.ProvedInv o ∧ st0.tx.JSPubKey = st0.tx.JSPubKey := by
        refine ⟨⟨by rw [g5, g6]; rfl, ?_⟩, rfl⟩
        intro k r hk
        rw [g5] at hk
        simp at hk
      obtain ⟨⟨hP, -⟩, -, -⟩ := loop_invariant o a
        (fun s => s.ProvedInv o ∧ s.tx.JSPubKey = st0.tx.JSPubKey)
        (fun s s2 hs hr =>
          ⟨(round_preserves_ProvedInv o a s s2 hs.1 hr).1,
            (round_preserves_ProvedInv o a s s2 hs.1 hr).2.trans hs.2⟩)
        fuel st0 st hinit hloop
      split at hrun
      · cases hrun
      · rename_i tx2 hs
        cases hrun
        rw [SignTx_Descs _ _ _ hs, SignTx_JSPubKey _ _ _ hs]
        exact hP

/-- A sum of zeros is zero. -/
theorem sum_map_eq_zero {α : Type} (f : α → Nat) (l : List α) (h : ∀ x ∈ l, f x = 0) :
    (l.map f).sum = 0 := by
  induction l with
  | nil => rfl
  | cons x xs ih =>
    rw [List.map_cons, List.sum_cons, h x (List.mem_cons_self _ _),
      ih fun y hy => h y (List.mem_cons_of_mem _ hy)]

/-- In a successful `CreateTx` run the dummy inputs and the dummy outputs of
every round have value 0. -/
theorem CreateTx_dummies (o : TxOracles) (a : CreateTxArgs) (fuel : Nat) (tx : Tx)
    (rounds : List Round) (hrun : CreateTx o a fuel = some (.returned (.ok (tx, rounds)))) :
    ∀ (k : Nat) (r : Round), rounds[k]? = some r →
      (∀ i ∈ r.dummyInputs, i.InputNote.Value = 0) ∧
        ∀ x ∈ r.dummyOutputs, x.OutputNote.Value = 0 := by
  obtain ⟨st, hP, -, -, h3, h4⟩ := CreateTx_invariant o a (fun st => st.ShapeInv)
    (fun st0 h0 => by
      obtain ⟨-, -, -, -, g5, g6, -⟩ := init_ok o a st0 h0
      refine ⟨by rw [g5, g6]; rfl, ?_⟩
      intro k r d hk
      rw [g5] at hk
      simp at hk)
    (fun st st2 hinv h => round_preserves_ShapeInv o a st st2 hinv h)
    fuel tx rounds hrun
  obtain ⟨p1, p2⟩ := hP
  intro k r hk
  rw [← h3] at hk
  have hlt : k < st.tx.Descs.length := by
    rw [← p1]
    exact (List.getElem?_eq_some_iff.1 hk).1
  obtain ⟨-, -, s3, s4, -⟩ := p2 k r _ hk (List.getElem?_eq_getElem hlt)
  exact ⟨s3, s4⟩

/-! ## The claims C20 to C30 -/

/-- Claim C20. For every successful `CreateTx` run in which the sum of all
input note values fits in 64 bits (the sort of the notes returning a
permutation of them), there is one round per description of the transaction.
The `k`-th description is what the prover gave in the `k`-th round: handed the
real inputs of the round (the notes pulled, with their commitments) and its
dummy inputs, its outputs, the key of the transaction, the anchors of the
description, the reward 0 and the fee `f_k`, where `f_0 = fee` and `f_k = 0`
for `k > 0`, the prover returned the commitments of the description, whose
nullifiers are those of the inputs, and the values of the inputs handed to the
prover add up to the values of the outputs handed to it plus `f_k`. And the
sum of the values of the notes pulled as real inputs equals the sum of the
values of the non-dummy outputs (payment outputs and change) plus `f_k`. -/
theorem C20_round_balance (o : TxOracles) (a : CreateTxArgs) (fuel : Nat) (tx : Tx)
    (rounds : List Round) (hsort : ∀ l, (o.sortNotes l).Perm l)
    (hfit : ((gatherNotes a.usableTx).map fun n => n.note.Value).sum < u64)
    (hrun : CreateTx o a fuel = some (.returned (.ok (tx, rounds)))) :
    rounds.length = tx.Descs.length ∧
      ∀ (k : Nat) (r : Round), rounds[k]? = some r →
        (∃ d inputs cms, tx.Descs[k]? = some d ∧
          inputs.Perm (r.realInputs.map (realInput o) ++ r.dummyInputs) ∧
          o.Prove inputs (r.payOutputs ++ r.changeOutput.toList ++ r.dummyOutputs) tx.JSPubKey
              d.Anchor 0 (if k = 0 then a.fee else 0) = .ok cms ∧
          d.Nullifiers = inputs.map (fun i => i.InputNote.Nf) ∧
          d.Commitments
            = (setCms (r.payOutputs ++ r.changeOutput.toList ++ r.dummyOutputs) cms).map
                (fun x => x.OutputNote.Cm) ∧
          d.Reward = 0 ∧
          (inputs.map fun i => i.InputNote.Value).sum
            = ((r.payOutputs ++ r.changeOutput.toList ++ r.dummyOutputs).map
                fun x => x.OutputNote.Value).sum + (if k = 0 then a.fee else 0)) ∧
        (r.realInputs.map fun n => n.note.Value).sum
            = ((r.payOutputs ++ r.changeOutput.toList).map fun x => x.OutputNote.Value).sum
              + (if k = 0 then a.fee else 0) ∧
        r.feeApply = if k = 0 then a.fee else 0 := by
  obtain ⟨h1, h2⟩ := CreateTx_BalanceInv o a fuel tx rounds hsort hfit hrun
  obtain ⟨-, h3⟩ := CreateTx_proved o a fuel tx rounds hrun
  have h4 := CreateTx_dummies o a fuel tx rounds hrun
  refine ⟨h1, fun k r hk => ?_⟩
  obtain ⟨b1, b2⟩ := h2 k r hk
  obtain ⟨d, hd, inputs, cms, p1, p2, p3, p4, p5⟩ := h3 k r hk
  obtain ⟨z1, z2⟩ := h4 k r hk
  rw [b2] at p2
  have hb : (r.realInputs.map fun n => n.note.Value).sum
      = ((r.payOutputs ++ r.changeOutput.toList).map fun x => x.OutputNote.Value).sum
        + (if k = 0 then a.fee else 0) := by
    rw [← b2]
    exact b1
  refine ⟨⟨d, inputs, cms, hd, p1, p2, p3, p4, p5, ?_⟩, hb, b2⟩
  have hin : ((r.realInputs.map (realInput o)).map fun i => i.InputNote.Value).sum
      = (r.realInputs.map fun n => n.note.Value).sum := by
    rw [List.map_map]
    rfl
  rw [(p1.map fun i => i.InputNote.Value).sum_eq, List.map_append, List.sum_append,
    List.map_append _ _ r.dummyOutputs, List.sum_append,
    sum_map_eq_zero _ _ z1, sum_map_eq_zero _ _ z2, hin, hb]
  omega

/-- Witness of C20 on `fundedArgs`, a run of two rounds. -/
theorem C20_witness :
    (∀ l, (sampleTxOracles.sortNotes l).Perm l) ∧
      ((gatherNotes fundedArgs.usableTx).map fun n => n.note.Value).sum < u64 ∧
      CreateTx sampleTxOracles fundedArgs 10 = some (.returned (.ok fundedRun)) ∧
      fundedRun.2.length = 2 ∧
      (fundedRun.2.map fun r => r.feeApply) = [1, 0] ∧
      fundedRun.2.length = fundedRun.1.Descs.length :=
  ⟨fun l => List.perm_insertionSort _ l, by decide, rfl, by decide, by decide,
    (C20_round_balance sampleTxOracles fundedArgs 10 fundedRun.1 fundedRun.2
      (fun l => List.perm_insertionSort _ l) (by decide) rfl).1⟩

/-- Claim C21, counterexample: on `aliasArgs` the slice of payments holds one
pointer twice, to a payment of 9, so 18 are asked for. `CreateTx` returns a
transaction of four descriptions whose outputs to the receiver are 8, 1 and 1:
the first round pays 8 in part and writes the amount 1 through the pointer, and
each of the two entries is then paid with 1. -/
theorem C21_counterexample :
    CreateTx sampleTxOracles aliasArgs 10 = some (.returned (.ok aliasRun)) ∧
      aliasRun.1.Descs.length = 4 ∧
      (aliasArgs.paymentInfo.map fun p => (p.addr, p.Amount)) = [(1, 9), (1, 9)] ∧
      (aliasRun.2.map fun r => r.payOutputs.map fun x => x.OutputNote.Value)
        = [[8], [1], [1], []] ∧
      ((aliasRun.2.flatMap fun r => r.payOutputs).map fun x => x.OutputNote.Value).sum = 10 ∧
      (aliasArgs.paymentInfo.map fun p => p.Amount).sum = 18 :=
  ⟨rfl, by decide, by decide, by decide, by decide, by decide⟩

/-- Claim C21, amended. For every successful `CreateTx` run in which the slice
of payments holds no pointer twice (the sort of the payments returning a
permutation of its argument), there is one round per description of the
transaction, the `k`-th description being what the prover gave for the inputs
and the outputs of the `k`-th round, and the values of the outputs to payment
receivers (the outputs other than the change and the dummies), summed over all
rounds, equal the sum of the requested amounts; the same equality holds for the
outputs and the payments of any set `q` of receiving addresses. -/
theorem C21_payments_paid_in_full (o : TxOracles) (a : CreateTxArgs) (fuel : Nat) (tx : Tx)
    (rounds : List Round) (hsort : ∀ l, (o.sortPayments l).Perm l)
    (hnd : (a.paymentInfo.map fun p => p.addr).Nodup)
    (hrun : CreateTx o a fuel = some (.returned (.ok (tx, rounds)))) :
    rounds.length = tx.Descs.length ∧
      (∀ (k : Nat) (r : Round), rounds[k]? = some r →
        ∃ d, tx.Descs[k]? = some d ∧ Round.Proved o tx.JSPubKey r d) ∧
      ((rounds.flatMap fun r => r.payOutputs).map fun x => x.OutputNote.Value).sum
        = (a.paymentInfo.map fun p => p.Amount).sum ∧
      ∀ q : PaymentAddress → Bool,
        outputTotalTo q (rounds.flatMap fun r => r.payOutputs) = paymentTotal q a.paymentInfo := by
  obtain ⟨st, hP, -, h2, h3, -⟩ := CreateTx_invariant o a
    (fun st => (st.paymentInfo.map fun p => p.addr).Nodup ∧ ∀ q, st.PaidInv q a)
    (fun st0 h0 => by
      obtain ⟨-, g2, -, -, g5, -⟩ := init_ok o a st0 h0
      refine ⟨by rw [g2]; exact hnd, fun q => ?_⟩
      unfold LoopState.PaidInv
      rw [g2, g5]
      simp [outputTotalTo])
    (fun st st2 hinv h =>
      ⟨round_preserves_nodup o a hsort st st2 hinv.1 h,
        fun q => round_preserves_PaidInv q o a hsort st st2 hinv.1 (hinv.2 q) h⟩)
    fuel tx rounds hrun
  have key : ∀ q : PaymentAddress → Bool,
      outputTotalTo q (rounds.flatMap fun r => r.payOutputs) = paymentTotal q a.paymentInfo := by
    intro q
    have := hP.2 q
    unfold LoopState.PaidInv at this
    rw [h2, h3] at this
    simpa [paymentTotal] using this
  obtain ⟨c1, c2⟩ := CreateTx_proved o a fuel tx rounds hrun
  refine ⟨c1, c2, ?_, key⟩
  rw [← outputTotalTo_true_sum, ← paymentTotal_true]
  exact key _

/-- Witness of C21 on `fundedArgs`, whose payments of 3 and 2 are held by two
pointers. -/
theorem C21_witness :
    (∀ l, (sampleTxOracles.sortPayments l).Perm l) ∧
      (fundedArgs.paymentInfo.map fun p => p.addr).Nodup ∧
      CreateTx sampleTxOracles fundedArgs 10 = some (.returned (.ok fundedRun)) ∧
      (fundedArgs.paymentInfo.map fun p => p.Amount).sum = 5 ∧
      ((fundedRun.2.flatMap fun r => r.payOutputs).map fun x => x.OutputNote.Value).sum
        = (fundedArgs.paymentInfo.map fun p => p.Amount).sum :=
  ⟨fun l => List.perm_insertionSort _ l, by decide, rfl, by decide,
    (C21_payments_paid_in_full sampleTxOracles fundedArgs 10 fundedRun.1 fundedRun.2
      (fun l => List.perm_insertionSort _ l) (by decide) rfl).2.2.1⟩

/-- Claim C22. For every successful `CreateTx` run, every description was built
in a round whose real and dummy inputs add up to `NumDescInputs` and whose
outputs (to receivers, change and dummies) add up to `NumDescOutputs`; the
dummy inputs and the dummy outputs have value 0, the nullifiers of the
description are those of the real and dummy inputs of the round, and it has
`NumDescOutputs` commitments. -/
theorem C22_descriptions_have_fixed_shape (o : TxOracles) (a : CreateTxArgs) (fuel : Nat)
    (tx : Tx) (rounds : List Round)
    (hrun : CreateTx o a fuel = some (.returned (.ok (tx, rounds)))) :
    rounds.length = tx.Descs.length ∧
      ∀ (k : Nat) (r : Round) (d : JoinSplitDesc),
        rounds[k]? = some r → tx.Descs[k]? = some d →
          r.realInputs.length + r.dummyInputs.length = NumDescInputs ∧
            (r.payOutputs ++ r.changeOutput.toList ++ r.dummyOutputs).length = NumDescOutputs ∧
            (∀ i ∈ r.dummyInputs, i.InputNote.Value = 0) ∧
            (∀ x ∈ r.dummyOutputs, x.OutputNote.Value = 0) ∧
            d.Nullifiers.Perm
              ((r.realInputs.map fun n => n.note.Nf)
                ++ r.dummyInputs.map fun i => i.InputNote.Nf) ∧
            d.Commitments.length = NumDescOutputs := by
  obtain ⟨st, hP, -, -, h3, h4⟩ := CreateTx_invariant o a (fun st => st.ShapeInv)
    (fun st0 h0 => by
      obtain ⟨-, -, -, -, g5, g6, -⟩ := init_ok o a st0 h0
      refine ⟨by rw [g5, g6]; rfl, ?_⟩
      intro k r d hk
      rw [g5] at hk
      simp at hk)
    (fun st st2 hinv h => round_preserves_ShapeInv o a st st2 hinv h)
    fuel tx rounds hrun
  obtain ⟨p1, p2⟩ := hP
  rw [h3, ← h4] at p1 p2
  exact ⟨p1, p2⟩

theorem C22_witness :
    CreateTx sampleTxOracles fundedArgs 10 = some (.returned (.ok fundedRun)) ∧
      fundedRun.1.Descs.length = 2 ∧
      (fundedRun.2.length = fundedRun.1.Descs.length ∧
        ∀ (k : Nat) (r : Round) (d : JoinSplitDesc),
          fundedRun.2[k]? = some r → fundedRun.1.Descs[k]? = some d →
            r.realInputs.length + r.dummyInputs.length = NumDescInputs ∧
              (r.payOutputs ++ r.changeOutput.toList ++ r.dummyOutputs).length
                = NumDescOutputs ∧
              (∀ i ∈ r.dummyInputs, i.InputNote.Value = 0) ∧
              (∀ x ∈ r.dummyOutputs, x.OutputNote.Value = 0) ∧
              d.Nullifiers.Perm
                ((r.realInputs.map fun n => n.note.Nf)
                  ++ r.dummyInputs.map fun i => i.InputNote.Nf) ∧
              d.Commitments.length = NumDescOutputs) :=
  ⟨rfl, by decide,
    C22_descriptions_have_fixed_shape sampleTxOracles fundedArgs 10 fundedRun.1 fundedRun.2 rfl⟩

/-- Claim C24, counterexample: on the scenario of section 8 (`splitArgs`: notes 7
and 3 on the sender's chain, one payment of 9, fee 1) `CreateTx` returns a
transaction with one description, not two. -/
theorem C24_counterexample :
    CreateTx sampleTxOracles splitArgs 10 = some (.returned (.ok splitRun)) ∧
      splitRun.1.Descs.length ≠ 2 ∧ splitRun.2.length ≠ 2 :=
  ⟨rfl, by decide, by decide⟩

/-- Claim C24, amended. On `splitArgs`, with oracles that always succeed and at
least one round allowed, `CreateTx` builds exactly one description: its round
takes both notes, 7 and 3, pays the fee 1 and outputs 9 to the recipient, with no
change, no dummy input and one dummy output. -/
theorem C24_one_description (fuel : Nat) :
    CreateTx sampleTxOracles splitArgs (fuel + 1) = some (.returned (.ok splitRun)) ∧
      splitRun.1.Descs.length = 1 ∧
      (splitRun.2.map fun r => r.realInputs.map fun n => n.note.Value) = [[7, 3]] ∧
      (splitRun.2.map fun r => r.payOutputs.map fun x => (x.OutputNote.Value, x.OutputNote.Apk))
        = [[(9, some [2])]] ∧
      (splitRun.2.map fun r => r.changeOutput) = [none] ∧
      (splitRun.2.map fun r => r.feeApply) = [1] ∧
      (splitRun.2.map fun r => (r.dummyInputs.length, r.dummyOutputs.length)) = [(0, 1)] := by
  refine ⟨?_, by decide, by decide, by decide, by decide, by decide, by decide⟩
  cases fuel <;> rfl

/-- Claim C26, failing input: `salaryTx` has the type `TxSalaryType` and one
description, of reward 5, and `IsSalaryTx` returns false on it; it returns
false on every transaction of type `TxSalaryType`, and true on `rewardTx`, a
transaction of the normal type with one description of reward 5. -/
theorem C26_salary_type_gives_false :
    (Transaction.ofTx salaryTx).GetType = TxSalaryType ∧ salaryTx.Descs.length = 1 ∧
      (∀ d ∈ salaryTx.Descs, d.Reward > 0) ∧
      emptyChain.IsSalaryTx (.ofTx salaryTx) = false ∧
      emptyChain.IsSalaryTx (.ofTx rewardTx) = true ∧
      ∀ (self : BlockChain) (tx : Transaction),
        tx.GetType = TxSalaryType → self.IsSalaryTx tx = false :=
  ⟨rfl, rfl, by decide, by decide, by decide, IsSalaryTx_salary⟩

/-- Claim C27, failing input: on `loanChain` the loan `[1]` has a request whose
key digest is that of the key `[7]` and an accepting response, and
`ValidateTxLoanWithdraw` returns an error on the withdrawal of loan `[1]` with
key `[7]`; it returns an error on every chain and every transaction. -/
theorem C27_withdraw_never_succeeds :
    loanChain.GetLoanTxs (some [1]) = .ok [some [1], some [2]] ∧
      loanChain.GetTransactionByHash (copyHash (some [1]))
        = (some (.ofTxLoanRequest ⟨⟨1, 2, 3⟩, some [1], some (sampleShake 32 (some [7]))⟩),
            none) ∧
      loanChain.GetTransactionByHash (copyHash (some [2]))
        = (some (.ofTxLoanResponse ⟨some [1], .Accept⟩), none) ∧
      loanChain.ValidateTxLoanWithdraw sampleShake (.ofTxLoanWithdraw ⟨some [1], some [7]⟩) 0
        = some "Error parsing corresponding loan request" ∧
      ∀ (self : BlockChain) (ShakeSum256 : Nat → Slice → Bytes) (tx : Transaction)
        (chainID : Fin 256), self.ValidateTxLoanWithdraw ShakeSum256 tx chainID ≠ none :=
  ⟨rfl, by decide, by decide, by decide, ValidateTxLoanWithdraw_ne_none⟩

/-- Claim C28, counterexample: on `loanChain` the only transaction recorded for
the loan `[2]` is a rejecting response, and `ValidateTxLoanPayment` returns nil
on a payment of loan `[2]`. -/
theorem C28_counterexample :
    loanChain.GetLoanTxs (some [2]) = .ok [some [3]] ∧
      loanChain.GetTransactionByHash (copyHash (some [3]))
        = (some (.ofTxLoanResponse ⟨some [2], .Reject⟩), none) ∧
      loanChain.ValidateTxLoanPayment (.ofTxLoanPayment unsignedTx ⟨some [2], false⟩) 0 = none :=
  ⟨rfl, by decide, by decide⟩

/-- Claim C28, amended. `ValidateTxLoanPayment` returns nil if and only if the
transaction is a loan payment, the lookup of its loan id succeeds, every hash
recorded for the loan id resolves to a stored transaction, and one of these
transactions has the type of a loan response; the status of the response is
not read. -/
theorem C28_payment_needs_a_response (self : BlockChain) (tx : Transaction)
    (chainID : Fin 256) :
    self.ValidateTxLoanPayment tx chainID = none ↔
      ∃ txPayment txHashes, tx.asTxLoanPayment = some txPayment ∧
        self.GetLoanTxs txPayment.LoanID = .ok txHashes ∧
        (∀ h ∈ txHashes, ∃ txOld,
          self.GetTransactionByHash (copyHash h) = (some txOld, none)) ∧
        ∃ h ∈ txHashes, ∃ txOld,
          self.GetTransactionByHash (copyHash h) = (some txOld, none) ∧
            txOld.GetType = TxLoanResponseType :=
  ValidateTxLoanPayment_iff self tx chainID

/-- Claim C29. For every loan request, `ValidateTxLoanRequest` returns nil if
and only if the chain `chainID` has a best state whose best block header holds
loan params equal to those of the request, and the loan id of the request
differs, under `bytes.Equal`, from every id in the list `LoanIDs` of every best
state. -/
theorem C29_ValidateTxLoanRequest_iff (self : BlockChain) (request : LoanRequest)
    (chainID : Fin 256) :
    self.ValidateTxLoanRequest (.ofTxLoanRequest request) chainID = .returned none ↔
      (∃ bestState, self.BestState[chainID.val]? = some bestState ∧
        request.Params = bestState.BestBlock.Header.LoanParams) ∧
      ∀ bestState ∈ self.BestState, ∀ id ∈ bestState.LoanIDs,
        bytesEqual request.LoanID id = false :=
  ValidateTxLoanRequest_iff self request chainID

/-- Claim C30. For every loan response whose loan-id lookup succeeds, the
recorded transactions of the type of a loan request being loan requests,
`ValidateTxLoanResponse` returns nil if and only if every hash recorded for the
loan id resolves to a stored transaction, one of these transactions is a loan
request, and none of them has the type of a loan response. -/
theorem C30_ValidateTxLoanResponse_iff (self : BlockChain) (txResponse : LoanResponse)
    (chainID : Fin 256) (txHashes : List Slice)
    (hlookup : self.GetLoanTxs txResponse.LoanID = .ok txHashes)
    (htags : ∀ h ∈ txHashes, ∀ txOld,
      self.GetTransactionByHash (copyHash h) = (some txOld, none) →
        txOld.GetType = TxLoanRequestType → txOld.asTxLoanRequest.isSome = true) :
    self.ValidateTxLoanResponse (.ofTxLoanResponse txResponse) chainID = none ↔
      (∀ h ∈ txHashes, ∃ txOld,
        self.GetTransactionByHash (copyHash h) = (some txOld, none)) ∧
      (∃ h ∈ txHashes, ∃ txOld,
        self.GetTransactionByHash (copyHash h) = (some txOld, none) ∧
          txOld.GetType = TxLoanRequestType) ∧
      ∀ h ∈ txHashes, ∀ txOld,
        self.GetTransactionByHash (copyHash h) = (some txOld, none) →
          txOld.GetType ≠ TxLoanResponseType :=
  ValidateTxLoanResponse_iff self txResponse chainID txHashes hlookup htags

theorem C30_witness :
    loanChain.GetLoanTxs (some [3]) = .ok [some [4]] ∧
      loanChain.ValidateTxLoanResponse (.ofTxLoanResponse ⟨some [3], .Accept⟩) 0 = none ∧
      (loanChain.ValidateTxLoanResponse (.ofTxLoanResponse ⟨some [3], .Accept⟩) 0 = none ↔
        (∀ h ∈ [some [4]], ∃ txOld,
          loanChain.GetTransactionByHash (copyHash h) = (some txOld, none)) ∧
        (∃ h ∈ [some [4]], ∃ txOld,
          loanChain.GetTransactionByHash (copyHash h) = (some txOld, none) ∧
            txOld.GetType = TxLoanRequestType) ∧
        ∀ h ∈ [some [4]], ∀ txOld,
          loanChain.GetTransactionByHash (copyHash h) = (some txOld, none) →
            txOld.GetType ≠ TxLoanResponseType) :=
  ⟨rfl, by decide,
    C30_ValidateTxLoanResponse_iff loanChain ⟨some [3], .Accept⟩ 0 [some [4]] rfl (by
      intro h hh txOld ht _
      simp only [List.mem_singleton] at hh
      subst hh
      have h4 : loanChain.GetTransactionByHash (copyHash (some [4]))
          = (some (.ofTxLoanRequest ⟨⟨1, 2, 3⟩, some [3], none⟩), none) := by decide
      rw [h4] at ht
      cases ht
      rfl)⟩

/-! ## Lemmas on loan payments, dividend payouts and parsing -/

theorem validateDescs_iff : ∀ ds : List JoinSplitDesc,
    validateDescs ds = true ↔ ∀ d ∈ ds, d.Reward = 0
  | [] => by simp [validateDescs]
  | d :: rest => by
    unfold validateDescs
    by_cases hd : d.Reward ≠ 0
    · rw [if_pos hd]
      simp only [Bool.false_eq_true, List.mem_cons, forall_eq_or_imp, false_iff, not_and]
      intro h
      exact absurd h hd
    · rw [if_neg hd, validateDescs_iff rest]
      have : d.Reward = 0 := by
        by_contra h
        exact hd h
      simp [this]

theorem notesPresent_iff : ∀ ds : List JoinSplitDesc,
    notesPresent ds = true ↔ ∀ d ∈ ds, d.Note ≠ none
  | [] => by simp [notesPresent]
  | d :: rest => by
    unfold notesPresent
    by_cases hd : d.Note = none
    · rw [if_pos hd]
      simp [hd]
    · rw [if_neg hd, notesPresent_iff rest]
      simp [hd]

theorem LoanPayment_ValidateTransaction_iff (tx : Tx) (payment : LoanPayment) :
    TxLoanPayment.ValidateTransaction tx payment = true ↔
      ∀ d ∈ tx.Descs, d.Reward = 0 ∧ d.Note ≠ none := by
  unfold TxLoanPayment.ValidateTransaction Tx.ValidateTransaction
  by_cases hv : validateDescs tx.Descs = true
  · rw [if_neg (by simp [hv]), notesPresent_iff]
    have := (validateDescs_iff tx.Descs).1 hv
    exact ⟨fun h d hd => ⟨this d hd, h d hd⟩, fun h d hd => (h d hd).2⟩
  · rw [if_pos hv]
    simp only [Bool.false_eq_true, false_iff]
    intro h
    exact hv ((validateDescs_iff tx.Descs).2 fun d hd => (h d hd).1)

theorem totalSupply_zero (self : BlockChain) : ∀ holders : List Slice,
    self.totalSupply holders 0 = 0
  | [] => rfl
  | holder :: rest => by
    unfold BlockChain.totalSupply
    have : ∀ utxos : List Slice, utxos.foldl (fun acc _ => (acc + 0) % u64) 0 = 0 := by
      intro utxos
      induction utxos with
      | nil => rfl
      | cons u us ih => simpa using ih
    rw [this, totalSupply_zero self rest]

theorem holderAmount_zero (self : BlockChain) (proposal : PayoutProposal) :
    ∀ (utxos : List Slice) (amount : Nat),
    self.holderAmount proposal utxos 0 = .ok amount → amount = 0
  | [], amount, h => by
    unfold BlockChain.holderAmount at h
    cases h
    rfl
  | utxo :: rest, amount, h => by
    unfold BlockChain.holderAmount at h
    cases hr : self.GetUTXOReward utxo with
    | error e =>
      rw [hr] at h
      cases h
    | ok reward =>
      rw [hr] at h
      simp only at h
      split at h
      · exact holderAmount_zero self proposal rest amount h
      · exact holderAmount_zero self proposal rest amount h

theorem rewardLoop_acc (self : BlockChain) (proposal : PayoutProposal) :
    ∀ (holders : List Slice) (acc res : List Slice × List Nat),
    self.rewardLoop proposal holders acc = .ok res → res = acc
  | [], acc, res, h => by
    unfold BlockChain.rewardLoop at h
    cases h
    rfl
  | holder :: rest, acc, res, h => by
    unfold BlockChain.rewardLoop at h
    cases ha : self.holderAmount proposal (self.GetAccountUTXO holder) 0 with
    | error e =>
      rw [ha] at h
      cases h
    | ok amount =>
      rw [ha] at h
      have h0 := holderAmount_zero self proposal _ amount ha
      subst h0
      simp only [gt_iff_lt, Nat.lt_irrefl, if_false] at h
      exact rewardLoop_acc self proposal rest acc res h

/-- Whenever `GetAmountPerAccount` succeeds, it returns the total supply 0 and
empty lists of holders and amounts. -/
theorem GetAmountPerAccount_ok (self : BlockChain) (proposal : PayoutProposal)
    (r : Nat × List Slice × List Nat) (h : self.GetAmountPerAccount proposal = .ok r) :
    r = (0, [], []) := by
  unfold BlockChain.GetAmountPerAccount at h
  cases hl : self.GetListTokenHolders proposal.TokenID with
  | error e =>
    rw [hl] at h
    cases h
  | ok holders =>
    rw [hl] at h
    simp only at h
    cases hr : self.rewardLoop proposal holders ([], []) with
    | error e =>
      rw [hr] at h
      cases h
    | ok res =>
      rw [hr] at h
      have := rewardLoop_acc self proposal holders _ res hr
      subst this
      simp only [Except.ok.injEq] at h
      rw [← h, totalSupply_zero]

theorem checkPayoutNote_error (self : BlockChain) (proposal : PayoutProposal) (note : Note) :
    ∃ err, self.checkPayoutNote proposal [] [] note = .returned (some err) := by
  unfold BlockChain.checkPayoutNote
  cases self.checkNotRewarded proposal (self.GetAccountUTXO note.Apk) with
  | some err => exact ⟨err, rfl⟩
  | none => exact ⟨_, rfl⟩

theorem checkPayoutNotes_error (self : BlockChain) (proposal : PayoutProposal) :
    ∀ notes : List Note, notes ≠ [] →
      ∃ err, self.checkPayoutNotes proposal [] [] notes = .returned (some err)
  | [], h => absurd rfl h
  | note :: rest, _ => by
    obtain ⟨err, he⟩ := checkPayoutNote_error self proposal note
    unfold BlockChain.checkPayoutNotes
    rw [he]
    exact ⟨err, rfl⟩

theorem checkPayoutNotes_nil_or_error (self : BlockChain) (proposal : PayoutProposal)
    (notes : List Note) :
    self.checkPayoutNotes proposal [] [] notes = .returned none ∨
      ∃ err, self.checkPayoutNotes proposal [] [] notes = .returned (some err) := by
  cases notes with
  | nil => exact Or.inl rfl
  | cons n rest => exact Or.inr (checkPayoutNotes_error self proposal (n :: rest) (by simp))

theorem checkPayoutDescs_error (self : BlockChain) (proposal : PayoutProposal) :
    ∀ descs : List JoinSplitDesc, (∃ d ∈ descs, d.Note.getD [] ≠ []) →
      ∃ err, self.checkPayoutDescs proposal [] [] descs = .returned (some err)
  | [], h => by simp at h
  | desc :: rest, h => by
    unfold BlockChain.checkPayoutDescs
    rcases checkPayoutNotes_nil_or_error self proposal (desc.Note.getD []) with hn | ⟨err, he⟩
    · rw [hn]
      simp only
      apply checkPayoutDescs_error self proposal rest
      obtain ⟨d, hd, hne⟩ := h
      rcases List.mem_cons.1 hd with rfl | hd
      · exfalso
        cases hnotes : d.Note.getD [] with
        | nil => exact hne hnotes
        | cons n ns =>
          obtain ⟨err, he⟩ := checkPayoutNotes_error self proposal (d.Note.getD [])
            (by rw [hnotes]; simp)
          rw [hn] at he
          cases he
      · exact ⟨d, hd, hne⟩
    · rw [he]
      exact ⟨err, rfl⟩

theorem ValidateTxDividendPayout_error (self : BlockChain) (txPayout : Tx) (chainID : Fin 256)
    (h : ∃ d ∈ txPayout.Descs, d.Note.getD [] ≠ []) :
    ∃ err, self.ValidateTxDividendPayout (.ofTxDividendPayout txPayout) chainID
      = .returned (some err) := by
  unfold BlockChain.ValidateTxDividendPayout
  simp only [Transaction.asTxDividendPayout]
  cases hg : self.GetAmountPerAccount { TokenID := none, PayoutID := 0 } with
  | error e => exact ⟨e, rfl⟩
  | ok r =>
    have := GetAmountPerAccount_ok self _ r hg
    subst this
    exact checkPayoutDescs_error self _ txPayout.Descs h

theorem parseInfoForSetBytes_spec (b : Bytes) (offset : Int) (h0 : 0 ≤ offset) :
    parseInfoForSetBytes b offset ≠ .panicked ∧
      ((∃ info off, parseInfoForSetBytes b offset = .returned (.ok info, off)) ↔
        ∃ lenField, b[offset.toNat]? = some lenField ∧
          offset + 1 + lenField.val ≤ b.length) ∧
      ∀ info off, parseInfoForSetBytes b offset = .returned (.ok info, off) →
        ∃ lenField, b[offset.toNat]? = some lenField ∧
          info = (b.drop (offset.toNat + 1)).take lenField.val ∧
          info.length = lenField.val ∧
          off = offset + 1 + lenField.val ∧ off ≤ b.length := by
  obtain ⟨n, rfl⟩ := Int.eq_ofNat_of_zero_le h0
  simp only [Int.toNat_ofNat]
  unfold parseInfoForSetBytes
  by_cases hge : (n : Int) ≥ b.length
  · rw [if_pos hge]
    have hn : b.length ≤ n := by omega
    have hnone : b[n]? = none := List.getElem?_eq_none hn
    simp [hnone]
  · rw [if_neg hge]
    have hn : n < b.length := by omega
    have hsome : b[n]? = some b[n] := List.getElem?_eq_getElem hn
    have hidx : indexAt b (n : Int) = .returned b[n] := by
      unfold indexAt
      rw [if_neg (by omega)]
      simp [hsome]
    rw [hidx]
    simp only [hsome, Option.some.injEq, exists_eq_left']
    by_cases hz : b[n] ≠ 0
    · rw [if_pos hz]
      by_cases hgt : (n : Int) + 1 + (b[n]).val > b.length
      · rw [if_pos hgt]
        refine ⟨by simp, ?_, by simp⟩
        simp only [GoResult.returned.injEq, Prod.mk.injEq, reduceCtorEq, false_and, exists_false,
          false_iff, not_le]
        omega
      · rw [if_neg hgt]
        have hle : n + 1 + (b[n]).val ≤ b.length := by omega
        have hs : sliceAt b ((n : Int) + 1) ((n : Int) + 1 + (b[n]).val)
            = .returned ((b.take (n + 1 + (b[n]).val)).drop (n + 1)) := by
          unfold sliceAt
          rw [if_pos (by omega)]
          have e1 : ((n : Int) + 1 + ((b[n]).val : Int)).toNat = n + 1 + (b[n]).val := by omega
          have e2 : ((n : Int) + 1).toNat = n + 1 := by omega
          rw [e1, e2]
        rw [hs]
        refine ⟨by simp, ?_, ?_⟩
        · simp only [GoResult.returned.injEq, Prod.mk.injEq, Except.ok.injEq, exists_and_left,
            exists_eq', and_true, true_iff]
          omega
        · intro info off h
          simp only [GoResult.returned.injEq, Prod.mk.injEq, Except.ok.injEq] at h
          obtain ⟨h1, h2⟩ := h
          subst h1 h2
          refine ⟨?_, ?_, rfl, by omega⟩
          · rw [List.drop_take]
            congr 1
            omega
          · simp only [List.length_drop, List.length_take]
            omega
    · rw [if_neg hz]
      have hz0 : b[n] = 0 := by
        by_contra hne
        exact hz hne
      refine ⟨by simp, ?_, ?_⟩
      · simp only [GoResult.returned.injEq, Prod.mk.injEq, Except.ok.injEq, exists_and_left,
          exists_eq', and_true, true_iff, hz0]
        simp
        omega
      · intro info off h
        simp only [GoResult.returned.injEq, Prod.mk.injEq, Except.ok.injEq] at h
        obtain ⟨h1, h2⟩ := h
        subst h1 h2
        rw [hz0]
        refine ⟨by simp, by simp, by simp, ?_⟩
        omega

theorem climbRun_eq (k : Nat) : ∀ (l : List Slice) (i : Nat) (st : ClimbState),
    (climbRun k l i st).tree = st.tree ∧
      ((climbRun k l i st).root, (climbRun k l i st).paths)
        = climbLoop st.tree.hasher k l i st.root st.paths
  | [], _, _ => ⟨rfl, rfl⟩
  | sibling :: rest, i, st => by
    unfold climbRun climbLoop
    obtain ⟨h1, h2⟩ := climbRun_eq k rest (i + 1) (climbStep k i sibling st)
    refine ⟨h1, ?_⟩
    rw [h2]
    cases sibling <;> rfl

theorem climbRun_path (tree : IncrementalMerkleTree) (st : Slice × Nat × List Slice) :
    (if st.2.1 + 1 ≥ tree.nodes.length then
        (st.2.2.set (st.2.2.length - 1) st.1, tree)
      else
        ((climbRun st.2.1 (tree.nodes.drop (st.2.1 + 1)) 0
            { tree := tree, root := tree.hasher [st.1, st.1]
              paths := st.2.2.set (st.2.1 + 1) (tree.hasher [st.1, st.1]) }).paths,
          (climbRun st.2.1 (tree.nodes.drop (st.2.1 + 1)) 0
            { tree := tree, root := tree.hasher [st.1, st.1]
              paths := st.2.2.set (st.2.1 + 1) (tree.hasher [st.1, st.1]) }).tree))
      = ((if st.2.1 + 1 ≥ tree.nodes.length then
          st.2.2.set (st.2.2.length - 1) st.1
        else
          (climbLoop tree.hasher st.2.1 (tree.nodes.drop (st.2.1 + 1)) 0
            (tree.hasher [st.1, st.1])
            (st.2.2.set (st.2.1 + 1) (tree.hasher [st.1, st.1]))).2), tree) := by
  by_cases hk : st.2.1 + 1 ≥ tree.nodes.length
  · rw [if_pos hk, if_pos hk]
  · rw [if_neg hk, if_neg hk]
    obtain ⟨h1, h2⟩ := climbRun_eq st.2.1 (tree.nodes.drop (st.2.1 + 1)) 0
      { tree := tree, root := tree.hasher [st.1, st.1]
        paths := st.2.2.set (st.2.1 + 1) (tree.hasher [st.1, st.1]) }
    exact Prod.ext (congrArg Prod.snd h2) h1

theorem GetPathToRoot_run (tree : IncrementalMerkleTree) :
    IncrementalMerkleTree.GetPathToRoot.run tree = (tree.GetPathToRoot, tree) :=
  climbRun_path tree _

theorem GetRoot_run (tree : IncrementalMerkleTree) :
    IncrementalMerkleTree.GetRoot.run tree = (tree.GetRoot, tree) := by
  unfold IncrementalMerkleTree.GetRoot.run IncrementalMerkleTree.GetRoot
  by_cases h : tree.length = 0
  · rw [if_pos h, if_pos h]
  · rw [if_neg h, if_neg h, GetPathToRoot_run]

theorem Add_append (tree : IncrementalMerkleTree) (xs ys : List Slice) :
    tree.Add (xs ++ ys) = (tree.Add xs).Add ys := by
  unfold IncrementalMerkleTree.Add
  simp only [List.foldl_append, List.length_append, IncrementalMerkleTree.mk.injEq, true_and,
    and_true]
  rw [← Nat.add_assoc]
  exact (Nat.mod_add_mod _ _ _).symm

theorem Add_nil (tree : IncrementalMerkleTree) (hlen : tree.length < u64) :
    tree.Add [] = tree := by
  unfold IncrementalMerkleTree.Add
  simp [Nat.mod_eq_of_lt hlen]

/-! ## Lemmas on the choice of the inputs -/

/-- The notes taken by the input-choosing loop, last taken first, follow the
notes it leaves: together they are the list the loop started from. -/
theorem chooseInputs_suffix (o : TxOracles) : ∀ (fuel : Nat) (c : Chosen),
    (chooseInputs o fuel c).inputNotes ++ (chooseInputs o fuel c).pulled.reverse
      = c.inputNotes ++ c.pulled.reverse
  | 0, _ => rfl
  | fuel + 1, c => by
    unfold chooseInputs
    cases hl : c.inputNotes.getLast? with
    | none => rfl
    | some chainNote =>
      simp only
      by_cases hlen : c.inputs.length < NumDescInputs
      · rw [if_pos hlen, chooseInputs_suffix o fuel]
        have hsplit : c.inputNotes.dropLast ++ [chainNote] = c.inputNotes :=
          List.dropLast_append_getLast? chainNote (by rw [hl]; rfl)
        simp only [List.reverse_append, List.reverse_cons, List.reverse_nil, List.nil_append,
          List.singleton_append]
        conv_rhs => rw [← hsplit]
        simp
      · rw [if_neg hlen]

/-! ## Lemmas on the conversion proof -/

theorem indexAt_natCast (b : Bytes) (n : Nat) :
    indexAt b (n : Int) = match b[n]? with
      | some x => .returned x
      | none => .panicked := by
  unfold indexAt
  rw [if_neg (by omega)]
  rfl

theorem indexAt_lt (b : Bytes) (n : Nat) (h : n < b.length) :
    indexAt b (n : Int) = .returned b[n] := by
  rw [indexAt_natCast, List.getElem?_eq_getElem h]

theorem indexAt_zero (b : Bytes) (h : 0 < b.length) : indexAt b 0 = .returned b[0] :=
  indexAt_lt b 0 h

theorem sliceAt_natCast (b : Bytes) (lo hi : Nat) (h1 : lo ≤ hi) (h2 : hi ≤ b.length) :
    sliceAt b (lo : Int) (hi : Int) = .returned ((b.take hi).drop lo) := by
  unfold sliceAt
  rw [if_pos (by omega)]
  rfl

theorem parseLoop_ne_panicked {α : Type} (decode : Bytes → Except PrivacyError α) (msg : String)
    (proofBytes : Bytes) : ∀ (n offset : Nat) (acc : List α),
    parseLoop decode msg proofBytes n offset acc ≠ .panicked
  | 0, _, _ => by simp [parseLoop]
  | n + 1, offset, acc => by
    unfold parseLoop
    by_cases h1 : offset ≥ proofBytes.length
    · rw [if_pos h1]
      simp
    · rw [if_neg h1, indexAt_lt proofBytes offset (by omega)]
      simp only
      by_cases h2 : offset + 1 + (proofBytes[offset]).val > proofBytes.length
      · rw [if_pos h2]
        simp
      · rw [if_neg h2, sliceAt_natCast proofBytes _ _ (by omega) (by omega)]
        simp only
        cases decode (List.drop (offset + 1) (List.take (offset + 1 + (proofBytes[offset]).val)
            proofBytes)) with
        | error e => simp
        | ok item => exact parseLoop_ne_panicked decode msg proofBytes n _ _

theorem parseArray_ne_panicked {α : Type} (decode : Bytes → Except PrivacyError α)
    (msg : String) (proofBytes : Bytes) (offset : Nat) :
    parseArray decode msg proofBytes offset ≠ .panicked := by
  unfold parseArray
  by_cases h1 : offset ≥ proofBytes.length
  · rw [if_pos h1]
    simp
  · rw [if_neg h1, indexAt_lt proofBytes offset (by omega)]
    exact parseLoop_ne_panicked decode msg proofBytes _ _ _

theorem parseSections_ne_panicked {CoinV1 CoinV2 SNProof : Type}
    (o : ConversionOracles CoinV1 CoinV2 SNProof) (proofBytes : Bytes) :
    parseSections o proofBytes ≠ .panicked := by
  unfold parseSections
  cases h1 : parseArray (decodeInputCoin o) "Out of range input coins" proofBytes 1 with
  | panicked => exact absurd h1 (parseArray_ne_panicked _ _ _ _)
  | returned r1 =>
    cases r1 with
    | error e => simp
    | ok p1 =>
      obtain ⟨inputCoins, offset1⟩ := p1
      simp only
      cases h2 : parseArray (decodeOutputCoin o) "Out of range output coins" proofBytes
          offset1 with
      | panicked => exact absurd h2 (parseArray_ne_panicked _ _ _ _)
      | returned r2 =>
        cases r2 with
        | error e => simp
        | ok p2 =>
          obtain ⟨outputCoins, offset2⟩ := p2
          simp only
          cases h3 : parseArray (decodeSNProof o)
              "Out of range serial number no privacy proof" proofBytes offset2 with
          | panicked => exact absurd h3 (parseArray_ne_panicked _ _ _ _)
          | returned r3 =>
            cases r3 with
            | error e => simp
            | ok p3 => simp

theorem parse_ne_panicked {CoinV1 CoinV2 SNProof : Type}
    (o : ConversionOracles CoinV1 CoinV2 SNProof) (proofBytes : Bytes) :
    ConversionProofVer1ToVer2.parse o proofBytes ≠ .panicked := by
  unfold ConversionProofVer1ToVer2.parse
  by_cases h0 : proofBytes.length = 0
  · rw [if_pos h0]
    simp
  · rw [if_neg h0, indexAt_zero proofBytes (by omega)]
    simp only
    by_cases hv : proofBytes[0] ≠ o.ConversionProofVersion
    · rw [if_pos hv]
      simp
    · rw [if_neg hv]
      exact parseSections_ne_panicked o proofBytes

theorem SetBytes_ne_panicked {CoinV1 CoinV2 SNProof : Type}
    (o : ConversionOracles CoinV1 CoinV2 SNProof) (proofBytes : Bytes) :
    ConversionProofVer1ToVer2.SetBytes o proofBytes ≠ .panicked := by
  unfold ConversionProofVer1ToVer2.SetBytes
  cases h : ConversionProofVer1ToVer2.parse o proofBytes with
  | panicked => exact absurd h (parse_ne_panicked o proofBytes)
  | returned r =>
    cases r with
    | error e => simp
    | ok p => simp

theorem foldl_appendItem {α : Type} (lenOf : α → Fin 256) (body : α → Bytes) :
    ∀ (items : List α) (pre : Bytes),
    items.foldl (fun acc c => appendItem acc (lenOf c) (body c)) pre
      = pre ++ encodeItems lenOf body items
  | [], pre => by simp [encodeItems]
  | x :: rest, pre => by
    rw [List.foldl_cons, foldl_appendItem lenOf body rest]
    simp [encodeItems, appendItem]

theorem encodeItems_cons {α : Type} (lenOf : α → Fin 256) (body : α → Bytes) (x : α)
    (rest : List α) :
    encodeItems lenOf body (x :: rest) = lenOf x :: (body x ++ encodeItems lenOf body rest) := by
  simp [encodeItems]

/-- A loop of `SetBytes` started where a loop of `Bytes` wrote its items reads
the items back and stops behind them. -/
theorem parseLoop_encodeItems {α : Type} (decode : Bytes → Except PrivacyError α) (msg : String)
    (lenOf : α → Fin 256) (body : α → Bytes) (post : Bytes) :
    ∀ (items : List α) (pre : Bytes) (acc : List α),
    (∀ x ∈ items, (lenOf x).val = (body x).length ∧ decode (body x) = .ok x) →
    parseLoop decode msg (pre ++ encodeItems lenOf body items ++ post) items.length pre.length acc
      = .returned (.ok (acc ++ items, pre.length + (encodeItems lenOf body items).length))
  | [], pre, acc, _ => by simp [parseLoop, encodeItems]
  | x :: rest, pre, acc, h => by
    obtain ⟨hlen, hdec⟩ := h x (List.mem_cons_self _ _)
    have ih := parseLoop_encodeItems decode msg lenOf body post rest (pre ++ lenOf x :: body x)
      (acc ++ [x]) (fun y hy => h y (List.mem_cons_of_mem _ hy))
    have hb : pre ++ encodeItems lenOf body (x :: rest) ++ post
        = (pre ++ lenOf x :: body x) ++ encodeItems lenOf body rest ++ post := by
      simp [encodeItems_cons]
    rw [hb]
    rw [List.length_cons, parseLoop]
    have hlt : pre.length < ((pre ++ lenOf x :: body x) ++ encodeItems lenOf body rest
        ++ post).length := by
      simp
    rw [if_neg (by omega), indexAt_lt _ _ hlt]
    have hget : ((pre ++ lenOf x :: body x) ++ encodeItems lenOf body rest ++ post)[pre.length]
        = lenOf x := by
      simp [List.getElem_append_left, List.getElem_append_right]
    simp only [hget]
    have hle : pre.length + 1 + (lenOf x).val
        ≤ ((pre ++ lenOf x :: body x) ++ encodeItems lenOf body rest ++ post).length := by
      simp
      omega
    rw [if_neg (by omega), sliceAt_natCast _ _ _ (by omega) hle]
    have hslice : List.drop (pre.length + 1) (List.take (pre.length + 1 + (lenOf x).val)
        ((pre ++ lenOf x :: body x) ++ encodeItems lenOf body rest ++ post)) = body x := by
      have e1 : (pre ++ lenOf x :: body x) ++ encodeItems lenOf body rest ++ post
          = (pre ++ [lenOf x]) ++ (body x ++ (encodeItems lenOf body rest ++ post)) := by simp
      have e2 : pre.length + 1 + (lenOf x).val = (pre ++ [lenOf x]).length + (body x).length := by
        simp [hlen]
      have e3 : pre.length + 1 = (pre ++ [lenOf x]).length := by simp
      rw [e1, e2, List.take_append, e3, List.drop_left, List.take_left]
    simp only [hslice, hdec]
    have hoff : pre.length + 1 + (lenOf x).val = (pre ++ lenOf x :: body x).length := by
      simp [hlen]
      omega
    rw [hoff, ih]
    simp [encodeItems_cons]
    omega

/-- A section of `SetBytes` started where `Bytes` wrote a count byte and its
items reads the items back and stops behind them. -/
theorem parseArray_encodeItems {α : Type} (decode : Bytes → Except PrivacyError α)
    (msg : String) (lenOf : α → Fin 256) (body : α → Bytes) (items : List α) (pre post : Bytes)
    (hcount : items.length ≤ 255)
    (h : ∀ x ∈ items, (lenOf x).val = (body x).length ∧ decode (body x) = .ok x) :
    parseArray decode msg
        (pre ++ [Fin.ofNat items.length] ++ encodeItems lenOf body items ++ post) pre.length
      = .returned (.ok (items,
          (pre ++ [Fin.ofNat items.length] ++ encodeItems lenOf body items).length)) := by
  unfold parseArray
  have hlt : pre.length
      < (pre ++ [Fin.ofNat items.length] ++ encodeItems lenOf body items ++ post).length := by
    simp
  rw [if_neg (by omega), indexAt_lt _ _ hlt]
  have hget : (pre ++ [(Fin.ofNat items.length : Fin 256)] ++ encodeItems lenOf body items
      ++ post)[pre.length] = Fin.ofNat items.length := by
    simp [List.getElem_append_left, List.getElem_append_right]
  simp only [hget]
  have hval : (Fin.ofNat items.length : Fin 256).val = items.length := by
    simp [Fin.ofNat]
    omega
  have hpre : pre.length + 1 = (pre ++ [(Fin.ofNat items.length : Fin 256)]).length := by simp
  rw [hval, hpre, parseLoop_encodeItems decode msg lenOf body post items _ [] h]
  simp
  omega

theorem Bytes_eq {CoinV1 CoinV2 SNProof : Type} (o : ConversionOracles CoinV1 CoinV2 SNProof)
    (proof : ConversionProofVer1ToVer2 CoinV1 CoinV2 SNProof) :
    ConversionProofVer1ToVer2.Bytes o proof
      = [o.ConversionProofVersion] ++ [Fin.ofNat proof.inputCoins.length]
        ++ encodeItems (fun c => Fin.ofNat (o.coinV1Bytes c).length) o.coinV1Bytes
          proof.inputCoins
        ++ [Fin.ofNat proof.outputCoins.length]
        ++ encodeItems (fun c => Fin.ofNat (o.coinV2Bytes c).length) o.coinV2Bytes
          proof.outputCoins
        ++ [Fin.ofNat proof.serialNumberNoPrivacyProof.length]
        ++ encodeItems (fun _ => Fin.ofNat o.SnNoPrivacyProofSize) o.snBytes
          proof.serialNumberNoPrivacyProof := by
  unfold ConversionProofVer1ToVer2.Bytes
  simp only [foldl_appendItem]

theorem ofNat_val_of_le (n : Nat) (h : n ≤ 255) : (Fin.ofNat n : Fin 256).val = n := by
  simp [Fin.ofNat]
  omega

/-- What `SetBytes` makes of the bytes of `Bytes`, with the offset reached, the
length of the bytes. -/
theorem parse_Bytes {CoinV1 CoinV2 SNProof : Type} (o : ConversionOracles CoinV1 CoinV2 SNProof)
    (proof : ConversionProofVer1ToVer2 CoinV1 CoinV2 SNProof)
    (hnin : proof.inputCoins.length ≤ 255) (hnout : proof.outputCoins.length ≤ 255)
    (hnsn : proof.serialNumberNoPrivacyProof.length ≤ 255)
    (hin : ∀ c ∈ proof.inputCoins, (o.coinV1Bytes c).length ≤ 255 ∧
      o.NewPlainCoinFromByte (o.coinV1Bytes c) = .ok (.ofV1 c))
    (hout : ∀ c ∈ proof.outputCoins, (o.coinV2Bytes c).length ≤ 255 ∧
      o.NewPlainCoinFromByte (o.coinV2Bytes c) = .ok (.ofV2 c))
    (hsize : o.SnNoPrivacyProofSize ≤ 255)
    (hsn : ∀ p ∈ proof.serialNumberNoPrivacyProof,
      (o.snBytes p).length = o.SnNoPrivacyProofSize ∧ o.snSetBytes (o.snBytes p) = .ok p) :
    ConversionProofVer1ToVer2.parse o (ConversionProofVer1ToVer2.Bytes o proof)
      = .returned (.ok ({ Version := o.ConversionProofVersion, inputCoins := proof.inputCoins,
                          outputCoins := proof.outputCoins,
                          serialNumberNoPrivacyProof := proof.serialNumberNoPrivacyProof },
                        (ConversionProofVer1ToVer2.Bytes o proof).length)) := by
  rw [Bytes_eq]
  generalize hE1 : encodeItems (fun c => Fin.ofNat (o.coinV1Bytes c).length) o.coinV1Bytes
    proof.inputCoins = enc1
  generalize hE2 : encodeItems (fun c => Fin.ofNat (o.coinV2Bytes c).length) o.coinV2Bytes
    proof.outputCoins = enc2
  generalize hE3 : encodeItems (fun _ => Fin.ofNat o.SnNoPrivacyProofSize) o.snBytes
    proof.serialNumberNoPrivacyProof = enc3
  have s1 := parseArray_encodeItems (decodeInputCoin o) "Out of range input coins"
    (fun c => Fin.ofNat (o.coinV1Bytes c).length) o.coinV1Bytes proof.inputCoins
    [o.ConversionProofVersion]
    ([Fin.ofNat proof.outputCoins.length] ++ enc2
      ++ [Fin.ofNat proof.serialNumberNoPrivacyProof.length] ++ enc3) hnin
    (fun c hc => ⟨ofNat_val_of_le _ (hin c hc).1, by simp [decodeInputCoin, (hin c hc).2]⟩)
  have s2 := parseArray_encodeItems (decodeOutputCoin o) "Out of range output coins"
    (fun c => Fin.ofNat (o.coinV2Bytes c).length) o.coinV2Bytes proof.outputCoins
    ([o.ConversionProofVersion] ++ [Fin.ofNat proof.inputCoins.length] ++ enc1)
    ([Fin.ofNat proof.serialNumberNoPrivacyProof.length] ++ enc3) hnout
    (fun c hc => ⟨ofNat_val_of_le _ (hout c hc).1, by simp [decodeOutputCoin, (hout c hc).2]⟩)
  have s3 := parseArray_encodeItems (decodeSNProof o)
    "Out of range serial number no privacy proof"
    (fun _ => Fin.ofNat o.SnNoPrivacyProofSize) o.snBytes proof.serialNumberNoPrivacyProof
    ([o.ConversionProofVersion] ++ [Fin.ofNat proof.inputCoins.length] ++ enc1
      ++ [Fin.ofNat proof.outputCoins.length] ++ enc2) [] hnsn
    (fun p hp => ⟨(ofNat_val_of_le _ hsize).trans (hsn p hp).1.symm,
      by simp [decodeSNProof, (hsn p hp).2]⟩)
  rw [hE1] at s1
  rw [hE2] at s2
  rw [hE3] at s3
  simp only [List.append_assoc, List.append_nil, List.length_append, List.length_singleton,
    List.length_cons, List.length_nil, List.singleton_append, List.cons_append,
    List.nil_append, Nat.zero_add] at s1 s2 s3 ⊢
  unfold ConversionProofVer1ToVer2.parse
  rw [if_neg (by simp), indexAt_zero _ (by simp)]
  simp only [List.getElem_cons_zero, ne_eq, not_true_eq_false, if_false]
  unfold parseSections
  rw [s1]
  simp only
  rw [s2]
  simp only
  rw [s3]

theorem indexAt_some (b : Bytes) (n : Nat) (x : Fin 256) (h : b[n]? = some x) :
    indexAt b (n : Int) = .returned x := by
  rw [indexAt_natCast, h]

theorem parseLoop_short {α : Type} (decode : Bytes → Except PrivacyError α) (msg : String)
    (b : Bytes) (n offset : Nat) (acc : List α) (h : b.length ≤ offset) :
    parseLoop decode msg b (n + 1) offset acc = .returned (.error ⟨.SetBytesProofErr, msg⟩) := by
  rw [parseLoop, if_pos h]

theorem parseLoop_long {α : Type} (decode : Bytes → Except PrivacyError α) (msg : String)
    (b : Bytes) (n offset : Nat) (acc : List α) (lenByte : Fin 256)
    (hget : b[offset]? = some lenByte) (h : offset + 1 + lenByte.val > b.length) :
    parseLoop decode msg b (n + 1) offset acc = .returned (.error ⟨.SetBytesProofErr, msg⟩) := by
  have hlt : offset < b.length := (List.getElem?_eq_some_iff.1 hget).1
  rw [parseLoop, if_neg (by omega), indexAt_some b offset lenByte hget]
  simp only
  rw [if_pos h]

theorem parseLoop_step {α : Type} (decode : Bytes → Except PrivacyError α) (msg : String)
    (b : Bytes) (n offset : Nat) (acc : List α) (lenByte : Fin 256)
    (hget : b[offset]? = some lenByte) (h : offset + 1 + lenByte.val ≤ b.length) :
    parseLoop decode msg b (n + 1) offset acc
      = match decode ((b.take (offset + 1 + lenByte.val)).drop (offset + 1)) with
        | .error err => .returned (.error err)
        | .ok item => parseLoop decode msg b n (offset + 1 + lenByte.val) (acc ++ [item]) := by
  have hlt : offset < b.length := (List.getElem?_eq_some_iff.1 hget).1
  rw [parseLoop, if_neg (by omega), indexAt_some b offset lenByte hget]
  simp only
  rw [if_neg (by omega), sliceAt_natCast b _ _ (by omega) h]

/-- A loop of `SetBytes` that succeeds on `b`, stopping at offset `k`, stops
inside `b`, succeeds with the same result on every prefix of `b` of length at
least `k`, and returns an error on every shorter prefix that reaches the
offset where the loop starts. -/
theorem parseLoop_take {α : Type} (decode : Bytes → Except PrivacyError α) (msg : String)
    (b : Bytes) : ∀ (n offset : Nat) (acc r : List α) (k : Nat),
    parseLoop decode msg b n offset acc = .returned (.ok (r, k)) →
    offset ≤ k ∧ (offset ≤ b.length → k ≤ b.length) ∧
      (∀ t, k ≤ t → parseLoop decode msg (b.take t) n offset acc = .returned (.ok (r, k))) ∧
      (∀ t, offset ≤ t → t < k →
        ∃ e, parseLoop decode msg (b.take t) n offset acc = .returned (.error e))
  | 0, offset, acc, r, k, h => by
    simp only [parseLoop, GoResult.returned.injEq, Except.ok.injEq, Prod.mk.injEq] at h
    obtain ⟨rfl, rfl⟩ := h
    exact ⟨Nat.le_refl _, fun h => h, fun _ _ => rfl, fun t h1 h2 => absurd h1 (by omega)⟩
  | n + 1, offset, acc, r, k, h => by
    cases hget : b[offset]? with
    | none =>
      rw [parseLoop_short decode msg b n offset acc
        (by rw [List.getElem?_eq_none_iff] at hget; exact hget)] at h
      simp at h
    | some lenByte =>
      have hlt : offset < b.length := (List.getElem?_eq_some_iff.1 hget).1
      by_cases hlong : offset + 1 + lenByte.val > b.length
      · rw [parseLoop_long decode msg b n offset acc lenByte hget hlong] at h
        simp at h
      · have hle : offset + 1 + lenByte.val ≤ b.length := by omega
        rw [parseLoop_step decode msg b n offset acc lenByte hget hle] at h
        cases hdec : decode ((b.take (offset + 1 + lenByte.val)).drop (offset + 1)) with
        | error e =>
          rw [hdec] at h
          simp at h
        | ok item =>
          rw [hdec] at h
          simp only at h
          obtain ⟨ih1, ih2, ih3, ih4⟩ := parseLoop_take decode msg b n _ _ r k h
          refine ⟨by omega, fun _ => ih2 hle, fun t ht => ?_, fun t ht1 ht2 => ?_⟩
          · have hget2 : (b.take t)[offset]? = some lenByte := by
              rw [List.getElem?_take_of_lt (by omega), hget]
            have hle2 : offset + 1 + lenByte.val ≤ (b.take t).length := by
              rw [List.length_take]
              omega
            rw [parseLoop_step decode msg (b.take t) n offset acc lenByte hget2 hle2,
              List.take_take, Nat.min_eq_left (by omega), hdec]
            exact ih3 t ht
          · by_cases hto : t ≤ offset
            · exact ⟨_, parseLoop_short decode msg (b.take t) n offset acc
                (by rw [List.length_take]; omega)⟩
            · have hget2 : (b.take t)[offset]? = some lenByte := by
                rw [List.getElem?_take_of_lt (by omega), hget]
              by_cases hlong2 : offset + 1 + lenByte.val > t
              · exact ⟨_, parseLoop_long decode msg (b.take t) n offset acc lenByte hget2
                  (by rw [List.length_take]; omega)⟩
              · have hle2 : offset + 1 + lenByte.val ≤ (b.take t).length := by
                  rw [List.length_take]
                  omega
                rw [parseLoop_step decode msg (b.take t) n offset acc lenByte hget2 hle2,
                  List.take_take, Nat.min_eq_left (by omega), hdec]
                exact ih4 t (by omega) ht2

theorem parseArray_take {α : Type} (decode : Bytes → Except PrivacyError α) (msg : String)
    (b : Bytes) (offset : Nat) (r : List α) (k : Nat)
    (h : parseArray decode msg b offset = .returned (.ok (r, k))) :
    offset < k ∧ k ≤ b.length ∧
      (∀ t, k ≤ t → parseArray decode msg (b.take t) offset = .returned (.ok (r, k))) ∧
      (∀ t, t < k → ∃ e, parseArray decode msg (b.take t) offset = .returned (.error e)) := by
  unfold parseArray at h
  by_cases hge : offset ≥ b.length
  · rw [if_pos hge] at h
    simp at h
  · have hlt : offset < b.length := by omega
    rw [if_neg hge, indexAt_lt b offset hlt] at h
    simp only at h
    obtain ⟨h1, h2, h3, h4⟩ := parseLoop_take decode msg b _ _ _ r k h
    refine ⟨by omega, h2 (by omega), fun t ht => ?_, fun t ht => ?_⟩
    · have hget2 : (b.take t)[offset]? = some b[offset] := by
        rw [List.getElem?_take_of_lt (by omega), List.getElem?_eq_getElem hlt]
      unfold parseArray
      rw [if_neg (by rw [List.length_take]; omega), indexAt_some _ _ _ hget2]
      exact h3 t ht
    · unfold parseArray
      by_cases hto : t ≤ offset
      · rw [if_pos (by rw [List.length_take]; omega)]
        exact ⟨_, rfl⟩
      · have hget2 : (b.take t)[offset]? = some b[offset] := by
          rw [List.getElem?_take_of_lt (by omega), List.getElem?_eq_getElem hlt]
        rw [if_neg (by rw [List.length_take]; omega), indexAt_some _ _ _ hget2]
        exact h4 t (by omega) ht

theorem parse_nil {CoinV1 CoinV2 SNProof : Type}
    (o : ConversionOracles CoinV1 CoinV2 SNProof) :
    ConversionProofVer1ToVer2.parse o []
      = .returned (.error ⟨.InvalidInputToSetBytesErr, "Proof bytes = 0"⟩) := rfl

theorem parse_cons {CoinV1 CoinV2 SNProof : Type}
    (o : ConversionOracles CoinV1 CoinV2 SNProof) (v : Fin 256) (rest : Bytes) :
    ConversionProofVer1ToVer2.parse o (v :: rest)
      = if v ≠ o.ConversionProofVersion then
          .returned (.error ⟨.SetBytesProofErr, "Proof bytes version is not correct"⟩)
        else parseSections o (v :: rest) := by
  unfold ConversionProofVer1ToVer2.parse
  rw [if_neg (by simp), indexAt_zero _ (by simp)]
  rfl

theorem parseSections_take {CoinV1 CoinV2 SNProof : Type}
    (o : ConversionOracles CoinV1 CoinV2 SNProof) (b : Bytes)
    (p : ConversionProofVer1ToVer2 CoinV1 CoinV2 SNProof) (k : Nat)
    (h : parseSections o b = .returned (.ok (p, k))) :
    3 < k ∧ k ≤ b.length ∧
      ∀ t, t < k → ∃ e, parseSections o (b.take t) = .returned (.error e) := by
  unfold parseSections at h
  cases h1 : parseArray (decodeInputCoin o) "Out of range input coins" b 1 with
  | panicked =>
    rw [h1] at h
    cases h
  | returned r1 =>
    cases r1 with
    | error e =>
      rw [h1] at h
      cases h
    | ok p1 =>
      obtain ⟨inputCoins, offset1⟩ := p1
      rw [h1] at h
      simp only at h
      cases h2 : parseArray (decodeOutputCoin o) "Out of range output coins" b offset1 with
      | panicked =>
        rw [h2] at h
        cases h
      | returned r2 =>
        cases r2 with
        | error e =>
          rw [h2] at h
          cases h
        | ok p2 =>
          obtain ⟨outputCoins, offset2⟩ := p2
          rw [h2] at h
          simp only at h
          cases h3 : parseArray (decodeSNProof o)
              "Out of range serial number no privacy proof" b offset2 with
          | panicked =>
            rw [h3] at h
            cases h
          | returned r3 =>
            cases r3 with
            | error e =>
              rw [h3] at h
              cases h
            | ok p3 =>
              obtain ⟨snProofs, offset3⟩ := p3
              rw [h3] at h
              simp only [GoResult.returned.injEq, Except.ok.injEq, Prod.mk.injEq] at h
              obtain ⟨-, rfl⟩ := h
              obtain ⟨a1, a2, a3, a4⟩ := parseArray_take _ _ b 1 inputCoins offset1 h1
              obtain ⟨b1, b2, b3, b4⟩ := parseArray_take _ _ b offset1 outputCoins offset2 h2
              obtain ⟨c1, c2, c3, c4⟩ := parseArray_take _ _ b offset2 snProofs offset3 h3
              refine ⟨by omega, c2, fun t ht => ?_⟩
              unfold parseSections
              by_cases t1 : t < offset1
              · obtain ⟨e, he⟩ := a4 t t1
                rw [he]
                exact ⟨e, rfl⟩
              · rw [a3 t (by omega)]
                simp only
                by_cases t2 : t < offset2
                · obtain ⟨e, he⟩ := b4 t t2
                  rw [he]
                  exact ⟨e, rfl⟩
                · rw [b3 t (by omega)]
                  simp only
                  obtain ⟨e, he⟩ := c4 t ht
                  rw [he]
                  exact ⟨e, rfl⟩

/-- When `SetBytes` succeeds on `b`, stopping at offset `k`, it stops inside `b`
and returns an error on every prefix of `b` shorter than `k`. -/
theorem parse_take {CoinV1 CoinV2 SNProof : Type}
    (o : ConversionOracles CoinV1 CoinV2 SNProof) (b : Bytes)
    (p : ConversionProofVer1ToVer2 CoinV1 CoinV2 SNProof) (k : Nat)
    (h : ConversionProofVer1ToVer2.parse o b = .returned (.ok (p, k))) :
    3 < k ∧ k ≤ b.length ∧
      ∀ t, t < k → ∃ e, ConversionProofVer1ToVer2.parse o (b.take t) = .returned (.error e) := by
  cases b with
  | nil =>
    rw [parse_nil] at h
    cases h
  | cons v rest =>
    rw [parse_cons] at h
    by_cases hv : v ≠ o.ConversionProofVersion
    · rw [if_pos hv] at h
      cases h
    · rw [if_neg hv] at h
      obtain ⟨h1, h2, h3⟩ := parseSections_take o (v :: rest) p k h
      refine ⟨h1, h2, fun t ht => ?_⟩
      cases t with
      | zero => exact ⟨_, rfl⟩
      | succ t =>
        obtain ⟨e, he⟩ := h3 (t + 1) ht
        rw [List.take_succ_cons] at he ⊢
        rw [parse_cons, if_neg hv, he]
        exact ⟨e, rfl⟩

theorem SetBytes_of_parse {CoinV1 CoinV2 SNProof : Type}
    (o : ConversionOracles CoinV1 CoinV2 SNProof) (b : Bytes) :
    (∀ p k, ConversionProofVer1ToVer2.parse o b = .returned (.ok (p, k)) →
        ConversionProofVer1ToVer2.SetBytes o b = .returned (.ok p)) ∧
      (∀ e, ConversionProofVer1ToVer2.parse o b = .returned (.error e) →
        ConversionProofVer1ToVer2.SetBytes o b = .returned (.error e)) := by
  unfold ConversionProofVer1ToVer2.SetBytes
  refine ⟨fun p k h => ?_, fun e h => ?_⟩ <;> rw [h]

theorem verifyInputs_sum {CoinV1 CoinV2 SNProof : Type}
    (o : ConversionOracles CoinV1 CoinV2 SNProof) (pubKey : Slice) :
    ∀ (coins : List CoinV1) (acc s : Nat), acc < u64 →
    verifyInputs o pubKey coins acc = .ok s →
    s = (acc + (coins.map fun c => o.v1Value (o.CommitAll c)).sum) % u64
  | [], acc, s, hacc, h => by
    simp only [verifyInputs, Except.ok.injEq] at h
    subst h
    simp [Nat.mod_eq_of_lt hacc]
  | c :: rest, acc, s, _, h => by
    unfold verifyInputs at h
    split at h
    · cases h
    · split at h
      · cases h
      · simp only at h
        split at h
        · cases h
        · have ih := verifyInputs_sum o pubKey rest _ s (Nat.mod_lt _ (by decide)) h
          rw [ih, Nat.mod_add_mod, List.map_cons, List.sum_cons, Nat.add_assoc]

theorem verifyOutputs_sum {CoinV1 CoinV2 SNProof : Type}
    (o : ConversionOracles CoinV1 CoinV2 SNProof) :
    ∀ (coins : List CoinV2) (acc s : Nat), acc < u64 →
    verifyOutputs o coins acc = .ok s →
    s = (acc + (coins.map o.v2Value).sum) % u64
  | [], acc, s, hacc, h => by
    simp only [verifyOutputs, Except.ok.injEq] at h
    subst h
    simp [Nat.mod_eq_of_lt hacc]
  | c :: rest, acc, s, _, h => by
    unfold verifyOutputs at h
    split at h
    · cases h
    · have ih := verifyOutputs_sum o rest _ s (Nat.mod_lt _ (by decide)) h
      rw [ih, Nat.mod_add_mod, List.map_cons, List.sum_cons, Nat.add_assoc]

/-- What a true result of `Verify` says of the values: the sums agree modulo
`2 ^ 64`. -/
theorem Verify_true_sum {CoinV1 CoinV2 SNProof : Type}
    (o : ConversionOracles CoinV1 CoinV2 SNProof)
    (proof : ConversionProofVer1ToVer2 CoinV1 CoinV2 SNProof) (hasPrivacy : Bool)
    (pubKey : Slice) (fee : Nat)
    (h : (ConversionProofVer1ToVer2.Verify o proof hasPrivacy pubKey fee).1 = true) :
    (proof.inputCoins.map fun c => o.v1Value (o.CommitAll c)).sum % u64
      = ((proof.outputCoins.map o.v2Value).sum + fee) % u64 := by
  unfold ConversionProofVer1ToVer2.Verify at h
  split at h
  · cases h
  · cases h1 : verifyInputs o pubKey proof.inputCoins 0 with
    | error e =>
      rw [h1] at h
      cases h
    | ok sumInput =>
      rw [h1] at h
      simp only at h
      cases h2 : verifyOutputs o proof.outputCoins 0 with
      | error e =>
        rw [h2] at h
        cases h
      | ok sumOutput =>
        rw [h2] at h
        simp only at h
        split at h
        · cases h
        · rename_i heq
          have e1 := verifyInputs_sum o pubKey _ 0 sumInput (by decide) h1
          have e2 := verifyOutputs_sum o _ 0 sumOutput (by decide) h2
          simp only [Nat.zero_add] at e1 e2
          have heq2 : sumInput = (sumOutput + fee) % u64 := by
            by_contra hne
            exact heq hne
          rw [← e1, heq2, e2, Nat.mod_add_mod]

/-! ## Lemmas on the record of `Tx.Hash` -/

theorem lor_eq_add (x t i a : Nat) (hx : x < 2 ^ i) (ht : t = 2 ^ i * a) : x ||| t = t + x := by
  rw [ht, Nat.mul_add_lt_is_or hx a, Nat.lor_comm]

theorem uint8_and_or (a m t : UInt8) :
    (a &&& m ||| t).toNat = (a.toNat &&& m.toNat) ||| t.toNat := by
  show ((a.toBitVec &&& m.toBitVec) ||| t.toBitVec).toNat = _
  simp [UInt8.toNat]

theorem toUInt8_toNat (v : UInt32) : v.toUInt8.toNat = v.toNat % 256 := by
  show (BitVec.ofNat 8 v.toNat).toNat = _
  simp

theorem shiftRight_toNat (v k : UInt32) (hk : k.toNat < 32) :
    (v >>> k).toNat = v.toNat / 2 ^ k.toNat := by
  show (v.toBitVec >>> ((k.mod 32).toBitVec).toNat).toNat = _
  rw [BitVec.toNat_ushiftRight, Nat.shiftRight_eq_div_pow]
  have : ((k.mod 32).toBitVec).toNat = k.toNat := by
    show (k.toBitVec % (32 : UInt32).toBitVec).toNat = _
    rw [BitVec.toNat_umod]
    exact Nat.mod_eq_of_lt hk
  rw [this]
  rfl

theorem byte1 (v : UInt32) (k : UInt32) (hk : k.toNat < 32) (m t : UInt8) (i a : Nat)
    (hm : m.toNat = 2 ^ i - 1) (ht : t.toNat = 2 ^ i * a) (hi : i ≤ 8) :
    ((v >>> k).toUInt8 &&& m ||| t).toNat = t.toNat + v.toNat / 2 ^ k.toNat % 2 ^ i := by
  rw [uint8_and_or, toUInt8_toNat, shiftRight_toNat v k hk, hm, Nat.and_pow_two_sub_one_eq_mod,
    lor_eq_add _ _ i a (Nat.mod_lt _ (Nat.two_pow_pos i)) ht]
  congr 1
  have : (2:Nat) ^ 8 = 2 ^ i * 2 ^ (8 - i) := by
    rw [← Nat.pow_add]
    congr 1
    omega
  show v.toNat / 2 ^ k.toNat % 2 ^ 8 % 2 ^ i = _
  rw [this, Nat.mod_mul_right_mod]



theorem byte0 (v : UInt32) (m t : UInt8) (i a : Nat)
    (hm : m.toNat = 2 ^ i - 1) (ht : t.toNat = 2 ^ i * a) (hi : i ≤ 8) :
    (v.toUInt8 &&& m ||| t).toNat = t.toNat + v.toNat % 2 ^ i := by
  rw [uint8_and_or, toUInt8_toNat, hm, Nat.and_pow_two_sub_one_eq_mod,
    lor_eq_add _ _ i a (Nat.mod_lt _ (Nat.two_pow_pos i)) ht]
  congr 1
  have : (2:Nat) ^ 8 = 2 ^ i * 2 ^ (8 - i) := by
    rw [← Nat.pow_add]
    congr 1
    omega
  show v.toNat % 2 ^ 8 % 2 ^ i = _
  rw [this, Nat.mod_mul_right_mod]

theorem uint32_le_iff (v w : UInt32) : v ≤ w ↔ v.toNat ≤ w.toNat := Iff.rfl

theorem utf8EncodeChar_toNat (c : Char) :
    (String.utf8EncodeChar c).map (fun b => b.toNat) = utf8Nat c.val.toNat := by
  unfold String.utf8EncodeChar utf8Nat
  simp only [uint32_le_iff]
  have e127 : (127 : UInt32).toNat = 127 := rfl
  have e2047 : (2047 : UInt32).toNat = 2047 := rfl
  have e65535 : (65535 : UInt32).toNat = 65535 := rfl
  rw [e127, e2047, e65535]
  by_cases h1 : c.val.toNat ≤ 127
  · rw [if_pos h1, if_pos h1]
    simp only [List.map_cons, List.map_nil, toUInt8_toNat]
    congr 1
    omega
  · rw [if_neg h1, if_neg h1]
    by_cases h2 : c.val.toNat ≤ 2047
    · rw [if_pos h2, if_pos h2]
      simp only [List.map_cons, List.map_nil]
      rw [byte1 c.val 6 (by decide) 31 192 5 6 rfl rfl (by decide),
        byte0 c.val 63 128 6 2 rfl rfl (by decide)]
      rfl
    · rw [if_neg h2, if_neg h2]
      by_cases h3 : c.val.toNat ≤ 65535
      · rw [if_pos h3, if_pos h3]
        simp only [List.map_cons, List.map_nil]
        rw [byte1 c.val 12 (by decide) 15 224 4 14 rfl rfl (by decide),
          byte1 c.val 6 (by decide) 63 128 6 2 rfl rfl (by decide),
          byte0 c.val 63 128 6 2 rfl rfl (by decide)]
        rfl
      · rw [if_neg h3, if_neg h3]
        simp only [List.map_cons, List.map_nil]
        rw [byte1 c.val 18 (by decide) 7 240 3 30 rfl rfl (by decide),
          byte1 c.val 12 (by decide) 63 128 6 2 rfl rfl (by decide),
          byte1 c.val 6 (by decide) 63 128 6 2 rfl rfl (by decide),
          byte0 c.val 63 128 6 2 rfl rfl (by decide)]
        rfl

/-- The UTF-8 encoding is a prefix code on the code points below `0x110000`. -/
theorem utf8Nat_prefix_free (v w : Nat) (r1 r2 : List Nat) (hv : v < 1114112)
    (hw : w < 1114112) (h : utf8Nat v ++ r1 = utf8Nat w ++ r2) : v = w ∧ r1 = r2 := by
  unfold utf8Nat at h
  split at h <;> split at h
  all_goals try (split at h)
  all_goals try (split at h)
  all_goals try (split at h)
  all_goals try (split at h)
  all_goals
    simp only [List.cons_append, List.nil_append, List.cons.injEq] at h
  all_goals first
    | (exfalso; omega)
    | (refine ⟨by omega, ?_⟩
       simp only [h])

theorem stringBytes_toNat (l : List Char) :
    (l.flatMap fun c => (String.utf8EncodeChar c).map fun b => b.val).map (fun b => b.val)
      = l.flatMap fun c => utf8Nat c.val.toNat := by
  induction l with
  | nil => rfl
  | cons c rest ih =>
    simp only [List.flatMap_cons, List.map_append, ih, List.map_map]
    congr 1
    exact utf8EncodeChar_toNat c

theorem utf8Nat_ne_nil (v : Nat) : utf8Nat v ≠ [] := by
  unfold utf8Nat
  split
  · simp
  · split
    · simp
    · split <;> simp

theorem char_valid_lt (c : Char) : c.val.toNat < 1114112 := by
  have h := c.valid
  unfold UInt32.isValidChar Nat.isValidChar at h
  rcases h with h | h
  · omega
  · omega

theorem char_eq_of_toNat (c d : Char) (h : c.val.toNat = d.val.toNat) : c = d := by
  apply Char.ext
  cases hc : c.val with
  | mk bc =>
    cases hd : d.val with
    | mk bd =>
      rw [hc, hd] at h
      congr 1
      exact BitVec.eq_of_toNat_eq h

theorem flatMap_utf8Nat_injective : ∀ l1 l2 : List Char,
    (l1.flatMap fun c => utf8Nat c.val.toNat) = (l2.flatMap fun c => utf8Nat c.val.toNat) →
    l1 = l2
  | [], [], _ => rfl
  | [], d :: l2, h => by
    simp only [List.flatMap_nil, List.flatMap_cons] at h
    have := utf8Nat_ne_nil d.val.toNat
    cases hd : utf8Nat d.val.toNat with
    | nil => exact absurd hd this
    | cons x xs =>
      rw [hd] at h
      cases h
  | c :: l1, [], h => by
    simp only [List.flatMap_nil, List.flatMap_cons] at h
    have := utf8Nat_ne_nil c.val.toNat
    cases hc : utf8Nat c.val.toNat with
    | nil => exact absurd hc this
    | cons x xs =>
      rw [hc] at h
      cases h
  | c :: l1, d :: l2, h => by
    simp only [List.flatMap_cons] at h
    obtain ⟨h1, h2⟩ := utf8Nat_prefix_free _ _ _ _ (char_valid_lt c) (char_valid_lt d) h
    rw [char_eq_of_toNat c d h1, flatMap_utf8Nat_injective l1 l2 h2]

/-- Different strings have different bytes. -/
theorem stringBytes_injective (s1 s2 : String) (h : stringBytes s1 = stringBytes s2) :
    s1 = s2 := by
  unfold stringBytes at h
  have h2 := congrArg (List.map fun b => b.val) h
  rw [stringBytes_toNat, stringBytes_toNat] at h2
  exact String.ext (flatMap_utf8Nat_injective _ _ h2)

theorem toDigitsCore_append (b : Nat) : ∀ (fuel n : Nat) (ds : List Char),
    Nat.toDigitsCore b fuel n ds = Nat.toDigitsCore b fuel n [] ++ ds
  | 0, _, _ => rfl
  | fuel + 1, n, ds => by
    simp only [Nat.toDigitsCore]
    split
    · rfl
    · rw [toDigitsCore_append b fuel (n / b) ((n % b).digitChar :: ds),
        toDigitsCore_append b fuel (n / b) [(n % b).digitChar]]
      simp

theorem digitByte (d : Nat) (h : d < 10) :
    ((Fin.ofNat d.digitChar.toNat : Fin 256)).val = 48 + d := by
  interval_cases d <;> rfl

theorem decodeUint_append (xs : Bytes) (x : Fin 256) :
    decodeUint (xs ++ [x]) = 10 * decodeUint xs + (x.val - 48) := by
  simp [decodeUint]

/-- The decimal digits of `n`, read back, give `n`. -/
theorem decodeUint_toDigitsCore : ∀ (fuel n : Nat), n < fuel →
    decodeUint ((Nat.toDigitsCore 10 fuel n []).map fun c => Fin.ofNat c.toNat) = n
  | 0, _, h => absurd h (by omega)
  | fuel + 1, n, h => by
    simp only [Nat.toDigitsCore]
    split
    · rename_i hz
      have hn : n < 10 := by omega
      have hd := digitByte (n % 10) (Nat.mod_lt _ (by decide))
      simp only [List.map_cons, List.map_nil, decodeUint, List.foldl_cons, List.foldl_nil, hd]
      omega
    · rename_i hz
      rw [toDigitsCore_append, List.map_append, List.map_cons, List.map_nil, decodeUint_append,
        decodeUint_toDigitsCore fuel (n / 10) (by omega),
        digitByte (n % 10) (Nat.mod_lt _ (by decide))]
      omega

theorem decodeUint_formatUint (n : Nat) : decodeUint (formatUint n) = n :=
  decodeUint_toDigitsCore (n + 1) n (Nat.lt_succ_self n)

theorem formatUint_injective (n m : Nat) (h : formatUint n = formatUint m) : n = m := by
  rw [← decodeUint_formatUint n, ← decodeUint_formatUint m, h]

/-- The first byte of the decimal digits of a number is a digit. -/
theorem toDigitsCore_head : ∀ (fuel n : Nat),
    ∃ d rest, d < 10 ∧ Nat.toDigitsCore 10 (fuel + 1) n [] = (d.digitChar) :: rest
  | 0, n => by
    simp only [Nat.toDigitsCore]
    split
    · exact ⟨n % 10, [], Nat.mod_lt _ (by decide), rfl⟩
    · exact ⟨n % 10, [], Nat.mod_lt _ (by decide), rfl⟩
  | fuel + 1, n => by
    rw [Nat.toDigitsCore]
    split
    · exact ⟨n % 10, [], Nat.mod_lt _ (by decide), rfl⟩
    · obtain ⟨d, rest, hd, he⟩ := toDigitsCore_head fuel (n / 10)
      rw [toDigitsCore_append, he]
      exact ⟨d, rest ++ [(n % 10).digitChar], hd, rfl⟩

theorem formatUint_head (n : Nat) : ∃ d rest, 48 ≤ d.val ∧ formatUint n = d :: rest := by
  obtain ⟨d, rest, hd, he⟩ := toDigitsCore_head n n
  refine ⟨Fin.ofNat d.digitChar.toNat, rest.map fun c => Fin.ofNat c.toNat, ?_, ?_⟩
  · rw [digitByte d hd]
    omega
  · unfold formatUint Nat.toDigits
    rw [he]
    rfl

theorem formatInt_injective (a b : Int) (h : formatInt a = formatInt b) : a = b := by
  cases a with
  | ofNat n =>
    cases b with
    | ofNat m => rw [formatUint_injective n m h]
    | negSucc m =>
      exfalso
      obtain ⟨d, rest, hd, he⟩ := formatUint_head n
      simp only [formatInt] at h
      rw [he] at h
      simp only [List.cons.injEq] at h
      rw [h.1] at hd
      exact absurd hd (by decide)
  | negSucc n =>
    cases b with
    | ofNat m =>
      exfalso
      obtain ⟨d, rest, hd, he⟩ := formatUint_head m
      simp only [formatInt] at h
      rw [he] at h
      simp only [List.cons.injEq] at h
      rw [← h.1] at hd
      exact absurd hd (by decide)
    | negSucc m =>
      simp only [formatInt, List.cons.injEq, true_and] at h
      have := formatUint_injective _ _ h
      congr 1
      omega

/-! ## The claims C31 to C40 -/

/-- Claim C31. `TxLoanPayment.ValidateTransaction` returns true exactly when
every description of the embedded transaction has `Reward = 0` and a non-nil
list `Note`; one description with a nil `Note` makes it return false. -/
theorem C31_loan_payment_valid_iff (tx : Tx) (payment : LoanPayment) :
    (TxLoanPayment.ValidateTransaction tx payment = true ↔
        ∀ d ∈ tx.Descs, d.Reward = 0 ∧ d.Note ≠ none) ∧
      ((∃ d ∈ tx.Descs, d.Note = none) →
        TxLoanPayment.ValidateTransaction tx payment = false) := by
  refine ⟨LoanPayment_ValidateTransaction_iff tx payment, ?_⟩
  rintro ⟨d, hd, hnone⟩
  cases hv : TxLoanPayment.ValidateTransaction tx payment with
  | false => rfl
  | true => exact absurd hnone (((LoanPayment_ValidateTransaction_iff tx payment).1 hv) d hd).2

/-- Claim C32, failing input: on `wrapConversion` (one input coin of value 5, one
output coin of value `2^64 - 1`, a serial-number proof that verifies) with fee 6,
`Verify` returns true and no error, although the inputs add up to 5 and the
outputs plus the fee to `2^64 + 5`, every value and the fee being `uint64`
values. What a true result does give, for every proof, is the equality of the
two sums modulo `2^64`. -/
theorem C32_wrapped_sum_verifies :
    ConversionProofVer1ToVer2.Verify sampleConversionOracles wrapConversion false (some [7]) 6
        = (true, none) ∧
      (wrapConversion.inputCoins.map sampleConversionOracles.v1Value).sum = 5 ∧
      (wrapConversion.outputCoins.map sampleConversionOracles.v2Value).sum + 6 = 2 ^ 64 + 5 ∧
      (∀ c ∈ wrapConversion.inputCoins, sampleConversionOracles.v1Value c < u64) ∧
      (∀ c ∈ wrapConversion.outputCoins, sampleConversionOracles.v2Value c < u64) ∧
      6 < u64 ∧
      ∀ (CoinV1 CoinV2 SNProof : Type) (o : ConversionOracles CoinV1 CoinV2 SNProof)
        (proof : ConversionProofVer1ToVer2 CoinV1 CoinV2 SNProof) (hasPrivacy : Bool)
        (pubKey : Slice) (fee : Nat),
        (ConversionProofVer1ToVer2.Verify o proof hasPrivacy pubKey fee).1 = true →
        (proof.inputCoins.map fun c => o.v1Value (o.CommitAll c)).sum % u64
          = ((proof.outputCoins.map o.v2Value).sum + fee) % u64 :=
  ⟨by decide, by decide, by decide, by decide, by decide, by decide,
    fun _ _ _ o proof hasPrivacy pubKey fee h => Verify_true_sum o proof hasPrivacy pubKey fee h⟩

/-- Claim C33. On `threeNotesArgs` (notes 1, 2 and 3 on one chain, payment 5,
fee 1) the first round takes all three notes, more than `NumDescInputs`, filed
under one key of the map of inputs, and `CreateTx` returns the error of the
count check of `BuildNewJSDesc`; on `smallFeeArgs` (three notes on three chains)
the round takes `NumDescInputs` notes. In every round the notes taken, last
taken first, are the tail of the sorted list of the remaining notes. -/
theorem C33_one_chain_takes_all_notes :
    ((roundChosen sampleTxOracles threeNotesInit).pulled.map fun n => (n.note.Value, n.chainID))
        = [(3, 0), (2, 0), (1, 0)] ∧
      NumDescInputs < (roundChosen sampleTxOracles threeNotesInit).pulled.length ∧
      (roundChosen sampleTxOracles threeNotesInit).inputs.length = 1 ∧
      (roundChosen sampleTxOracles threeNotesInit).numInputNotes = 3 ∧
      (∀ fuel, CreateTx sampleTxOracles threeNotesArgs (fuel + 1)
        = some (.returned (.error "Cannot build JSDesc with that many inputs and outputs"))) ∧
      smallFeeInit.inputNotes.length = 3 ∧
      (roundChosen sampleTxOracles smallFeeInit).pulled.length = NumDescInputs ∧
      ∀ (o : TxOracles) (st : LoopState),
        (roundChosen o st).inputNotes ++ (roundChosen o st).pulled.reverse
          = o.sortNotes st.inputNotes := by
  refine ⟨by decide, by decide, by decide, by decide, ?_, by decide, by decide, ?_⟩
  · intro fuel
    cases fuel <;> rfl
  · intro o st
    unfold roundChosen
    rw [chooseInputs_suffix]
    simp

/-- Claim C34. For every tree whose length is a `uint64` value and all lists
`xs` and `ys`, `Add (xs ++ ys)` leaves the same tree (frontier, length and
hasher) as `Add xs` followed by `Add ys`, and `Add` of the empty list leaves the
tree as it was. -/
theorem C34_Add_append (tree : IncrementalMerkleTree) (xs ys : List Slice)
    (hlen : tree.length < u64) :
    tree.Add (xs ++ ys) = (tree.Add xs).Add ys ∧
      (tree.Add (xs ++ ys)).nodes = ((tree.Add xs).Add ys).nodes ∧
      (tree.Add (xs ++ ys)).length = ((tree.Add xs).Add ys).length ∧
      tree.Add [] = tree :=
  ⟨Add_append tree xs ys, congrArg _ (Add_append tree xs ys),
    congrArg _ (Add_append tree xs ys), Add_nil tree hlen⟩

/-- Witness of C34 on the tree holding the leaf `[1]`, with `xs` the leaves `[2]`
and `[3]` and `ys` the leaf `[4]`. -/
theorem C34_witness :
    ((NewIncrementalMerkleTree sampleHasher).Add [some [1]]).length < u64 ∧
      ((NewIncrementalMerkleTree sampleHasher).Add [some [1]]).Add
          ([some [2], some [3]] ++ [some [4]])
        = ((((NewIncrementalMerkleTree sampleHasher).Add [some [1]]).Add
            [some [2], some [3]]).Add [some [4]]) :=
  ⟨by decide, (C34_Add_append _ [some [2], some [3]] [some [4]] (by decide)).1⟩

/-- Claim C35. `GetPathToRoot` and `GetRoot` leave every tree as it was
(frontier, length and hasher), so a second `GetRoot` call returns the value of
the first; the values they return are those of the functions
`IncrementalMerkleTree.GetPathToRoot` and `IncrementalMerkleTree.GetRoot`. -/
theorem C35_reads_leave_tree (tree : IncrementalMerkleTree) :
    (IncrementalMerkleTree.GetPathToRoot.run tree).2 = tree ∧
      (IncrementalMerkleTree.GetRoot.run tree).2 = tree ∧
      (IncrementalMerkleTree.GetRoot.run (IncrementalMerkleTree.GetRoot.run tree).2).1
        = (IncrementalMerkleTree.GetRoot.run tree).1 ∧
      (IncrementalMerkleTree.GetPathToRoot.run tree).1 = tree.GetPathToRoot ∧
      (IncrementalMerkleTree.GetRoot.run tree).1 = tree.GetRoot := by
  rw [GetPathToRoot_run, GetRoot_run]
  simp only [GetRoot_run, and_self]

/-- Claim C36, counterexample: the transactions with `LockTime` 12 and `Fee` 3
and with `LockTime` 1 and `Fee` 23, equal in every other field, differ in
`LockTime` and in `Fee` and have the same record, hence the same hash. -/
theorem C36_counterexample :
    ({ unsignedTx with LockTime := 12, Fee := 3 } : Tx).LockTime
        ≠ ({ unsignedTx with LockTime := 1, Fee := 23 } : Tx).LockTime ∧
      ({ unsignedTx with LockTime := 12, Fee := 3 } : Tx).Fee
        ≠ ({ unsignedTx with LockTime := 1, Fee := 23 } : Tx).Fee ∧
      Tx.record sampleSigOracles { unsignedTx with LockTime := 12, Fee := 3 }
        = Tx.record sampleSigOracles { unsignedTx with LockTime := 1, Fee := 23 } ∧
      Tx.Hash sampleSigOracles { unsignedTx with LockTime := 12, Fee := 3 }
        = Tx.Hash sampleSigOracles { unsignedTx with LockTime := 1, Fee := 23 } :=
  ⟨by decide, by decide, by decide, by decide⟩

/-- Claim C36, amended. Two transactions that differ in exactly one of
`Version`, `Type`, `LockTime` and `Fee`, and in no other field, have different
records. -/
theorem C36_record_separates_one_field (o : SigOracles) (tx : Tx) :
    (∀ v1 v2 : Int, v1 ≠ v2 →
        Tx.record o { tx with Version := v1 } ≠ Tx.record o { tx with Version := v2 }) ∧
      (∀ t1 t2 : String, t1 ≠ t2 →
        Tx.record o { tx with Type_ := t1 } ≠ Tx.record o { tx with Type_ := t2 }) ∧
      (∀ l1 l2 : Int, l1 ≠ l2 →
        Tx.record o { tx with LockTime := l1 } ≠ Tx.record o { tx with LockTime := l2 }) ∧
      (∀ f1 f2 : Nat, f1 ≠ f2 →
        Tx.record o { tx with Fee := f1 } ≠ Tx.record o { tx with Fee := f2 }) := by
  refine ⟨fun v1 v2 h he => ?_, fun t1 t2 h he => ?_, fun l1 l2 h he => ?_,
    fun f1 f2 h he => ?_⟩
  · simp only [Tx.record, List.append_cancel_right_eq, List.append_cancel_left_eq] at he
    exact h (formatInt_injective _ _ he)
  · simp only [Tx.record, List.append_cancel_right_eq, List.append_cancel_left_eq] at he
    exact h (stringBytes_injective _ _ he)
  · simp only [Tx.record, List.append_cancel_right_eq, List.append_cancel_left_eq] at he
    exact h (formatInt_injective _ _ he)
  · simp only [Tx.record, List.append_cancel_right_eq, List.append_cancel_left_eq] at he
    exact h (formatUint_injective _ _ he)

/-- Witness of C36 on `unsignedTx`: the fees 3 and 23, the lock times 1 and 12,
the versions 1 and -1, the types `n` and `né`. -/
theorem C36_witness :
    Tx.record sampleSigOracles { unsignedTx with Fee := 3 }
        ≠ Tx.record sampleSigOracles { unsignedTx with Fee := 23 } ∧
      Tx.record sampleSigOracles { unsignedTx with LockTime := 1 }
        ≠ Tx.record sampleSigOracles { unsignedTx with LockTime := 12 } ∧
      Tx.record sampleSigOracles { unsignedTx with Version := 1 }
        ≠ Tx.record sampleSigOracles { unsignedTx with Version := -1 } ∧
      Tx.record sampleSigOracles { unsignedTx with Type_ := "n" }
        ≠ Tx.record sampleSigOracles { unsignedTx with Type_ := "né" } :=
  ⟨(C36_record_separates_one_field sampleSigOracles unsignedTx).2.2.2 3 23 (by decide),
    (C36_record_separates_one_field sampleSigOracles unsignedTx).2.2.1 1 12 (by decide),
    (C36_record_separates_one_field sampleSigOracles unsignedTx).1 1 (-1) (by decide),
    (C36_record_separates_one_field sampleSigOracles unsignedTx).2.1 "n" "né" (by decide)⟩

/-- Claim C37. Whenever `GetAmountPerAccount` succeeds it returns the total
supply 0 and empty lists of holders and amounts, and `ValidateTxDividendPayout`
returns an error, without failing, for every dividend payout that has a note in
some description. -/
theorem C37_payout_always_rejected (self : BlockChain) (txPayout : Tx) (chainID : Fin 256)
    (h : ∃ d ∈ txPayout.Descs, d.Note.getD [] ≠ []) :
    (∀ proposal r, self.GetAmountPerAccount proposal = .ok r → r = (0, [], [])) ∧
      ∃ err, self.ValidateTxDividendPayout (.ofTxDividendPayout txPayout) chainID
        = .returned (some err) :=
  ⟨fun proposal r hr => GetAmountPerAccount_ok self proposal r hr,
    ValidateTxDividendPayout_error self txPayout chainID h⟩

/-- Witness of C37 on the chain `loanChain` and the payout `payoutTx`. -/
theorem C37_witness :
    (∃ d ∈ payoutTx.Descs, d.Note.getD [] ≠ []) ∧
      ∃ err, loanChain.ValidateTxDividendPayout (.ofTxDividendPayout payoutTx) 0
        = .returned (some err) :=
  ⟨⟨_, List.mem_singleton.2 rfl, by decide⟩,
    (C37_payout_always_rejected loanChain payoutTx 0
      ⟨_, List.mem_singleton.2 rfl, by decide⟩).2⟩

/-- Claim C38. For every conversion proof with at most 255 input coins, output
coins and serial-number proofs, in which every coin is written in at most 255
bytes from which `NewPlainCoinFromByte` gives the coin back, and every
serial-number proof in exactly `SnNoPrivacyProofSize` bytes, at most 255, from
which its `SetBytes` gives the proof back, `SetBytes` of the bytes of `Bytes`
returns nil and leaves the same input coins, output coins and serial-number
proofs in the same order, having read all the bytes. -/
theorem C38_SetBytes_restores_Bytes {CoinV1 CoinV2 SNProof : Type}
    (o : ConversionOracles CoinV1 CoinV2 SNProof)
    (proof : ConversionProofVer1ToVer2 CoinV1 CoinV2 SNProof)
    (hnin : proof.inputCoins.length ≤ 255) (hnout : proof.outputCoins.length ≤ 255)
    (hnsn : proof.serialNumberNoPrivacyProof.length ≤ 255)
    (hin : ∀ c ∈ proof.inputCoins, (o.coinV1Bytes c).length ≤ 255 ∧
      o.NewPlainCoinFromByte (o.coinV1Bytes c) = .ok (.ofV1 c))
    (hout : ∀ c ∈ proof.outputCoins, (o.coinV2Bytes c).length ≤ 255 ∧
      o.NewPlainCoinFromByte (o.coinV2Bytes c) = .ok (.ofV2 c))
    (hsize : o.SnNoPrivacyProofSize ≤ 255)
    (hsn : ∀ p ∈ proof.serialNumberNoPrivacyProof,
      (o.snBytes p).length = o.SnNoPrivacyProofSize ∧ o.snSetBytes (o.snBytes p) = .ok p) :
    ConversionProofVer1ToVer2.SetBytes o (ConversionProofVer1ToVer2.Bytes o proof)
        = .returned (.ok { Version := o.ConversionProofVersion, inputCoins := proof.inputCoins,
                           outputCoins := proof.outputCoins,
                           serialNumberNoPrivacyProof := proof.serialNumberNoPrivacyProof }) ∧
      ConversionProofVer1ToVer2.parse o (ConversionProofVer1ToVer2.Bytes o proof)
        = .returned (.ok ({ Version := o.ConversionProofVersion, inputCoins := proof.inputCoins,
                            outputCoins := proof.outputCoins,
                            serialNumberNoPrivacyProof := proof.serialNumberNoPrivacyProof },
                          (ConversionProofVer1ToVer2.Bytes o proof).length)) :=
  ⟨(SetBytes_of_parse o _).1 _ _ (parse_Bytes o proof hnin hnout hnsn hin hout hsize hsn),
    parse_Bytes o proof hnin hnout hnsn hin hout hsize hsn⟩

/-- Witness of C38 on `sampleConversion`, whose bytes are 27 in number. -/
theorem C38_witness :
    ConversionProofVer1ToVer2.Bytes sampleConversionOracles sampleConversion
        = [255, 2, 4, 1, 1, 7, 5, 4, 1, 1, 7, 4, 1, 4, 2, 1, 9, 8, 2, 3, 1, 2, 3, 3, 1, 5, 6] ∧
      ConversionProofVer1ToVer2.SetBytes sampleConversionOracles
          (ConversionProofVer1ToVer2.Bytes sampleConversionOracles sampleConversion)
        = .returned (.ok sampleConversion) :=
  ⟨by decide,
    (C38_SetBytes_restores_Bytes sampleConversionOracles sampleConversion (by decide)
      (by decide) (by decide)
      (by
        intro c hc
        simp only [sampleConversion, List.mem_cons, List.mem_singleton, List.not_mem_nil,
          or_false] at hc
        rcases hc with rfl | rfl <;> exact ⟨by decide, rfl⟩)
      (by
        intro c hc
        simp only [sampleConversion, List.mem_singleton] at hc
        subst hc
        exact ⟨by decide, rfl⟩)
      (by decide)
      (by
        intro p hp
        simp only [sampleConversion, List.mem_cons, List.mem_singleton, List.not_mem_nil,
          or_false] at hp
        rcases hp with rfl | rfl <;> exact ⟨by decide, rfl⟩)).1⟩

/-- Claim C39. On a non-nil proof, `SetBytes` returns for every byte string,
no index or slice expression leaving the bounds of the input: it returns the
error `InvalidInputToSetBytesErr` on the empty input and the error
`SetBytesProofErr` on a first byte other than `ConversionProofVersion`; and
when it returns nil on an input, having read its first `k` bytes, it returns an
error on every prefix of the input shorter than `k`, that is on every input cut
inside a count byte, a length byte or an announced body. -/
theorem C39_SetBytes_never_fails {CoinV1 CoinV2 SNProof : Type}
    (o : ConversionOracles CoinV1 CoinV2 SNProof) (proofBytes : Bytes) :
    ConversionProofVer1ToVer2.SetBytes o proofBytes ≠ .panicked ∧
      ((∃ p, ConversionProofVer1ToVer2.SetBytes o proofBytes = .returned (.ok p)) ∨
        ∃ e, ConversionProofVer1ToVer2.SetBytes o proofBytes = .returned (.error e)) ∧
      ConversionProofVer1ToVer2.SetBytes o []
        = .returned (.error ⟨.InvalidInputToSetBytesErr, "Proof bytes = 0"⟩) ∧
      (∀ v rest, v ≠ o.ConversionProofVersion →
        ConversionProofVer1ToVer2.SetBytes o (v :: rest)
          = .returned (.error ⟨.SetBytesProofErr, "Proof bytes version is not correct"⟩)) ∧
      ∀ p k, ConversionProofVer1ToVer2.parse o proofBytes = .returned (.ok (p, k)) →
        ConversionProofVer1ToVer2.SetBytes o proofBytes = .returned (.ok p) ∧
          k ≤ proofBytes.length ∧
          ∀ t, t < k →
            ∃ e, ConversionProofVer1ToVer2.SetBytes o (proofBytes.take t)
              = .returned (.error e) := by
  refine ⟨SetBytes_ne_panicked o proofBytes, ?_, rfl, fun v rest hv => ?_, fun p k h => ?_⟩
  · cases h : ConversionProofVer1ToVer2.SetBytes o proofBytes with
    | panicked => exact absurd h (SetBytes_ne_panicked o proofBytes)
    | returned r =>
      cases r with
      | error e => exact Or.inr ⟨e, rfl⟩
      | ok p => exact Or.inl ⟨p, rfl⟩
  · refine (SetBytes_of_parse o _).2 _ ?_
    rw [parse_cons, if_pos hv]
  · obtain ⟨-, h2, h3⟩ := parse_take o proofBytes p k h
    refine ⟨(SetBytes_of_parse o _).1 p k h, h2, fun t ht => ?_⟩
    obtain ⟨e, he⟩ := h3 t ht
    exact ⟨e, (SetBytes_of_parse o _).2 e he⟩

/-- Claim C40. For every byte slice `b` and offset `o ≥ 0`,
`parseInfoForSetBytes` returns without failing; it succeeds exactly when
`o < len(b)` and `o + 1 + b[o] ≤ len(b)`; on success the result is the `b[o]`
bytes after the length byte and the new offset is `o + 1 + b[o] ≤ len(b)`. -/
theorem C40_parseInfoForSetBytes_spec (b : Bytes) (offset : Int) (h0 : 0 ≤ offset) :
    parseInfoForSetBytes b offset ≠ .panicked ∧
      ((∃ info off, parseInfoForSetBytes b offset = .returned (.ok info, off)) ↔
        ∃ lenField, b[offset.toNat]? = some lenField ∧
          offset + 1 + lenField.val ≤ b.length) ∧
      ∀ info off, parseInfoForSetBytes b offset = .returned (.ok info, off) →
        ∃ lenField, b[offset.toNat]? = some lenField ∧
          info = (b.drop (offset.toNat + 1)).take lenField.val ∧
          info.length = lenField.val ∧
          off = offset + 1 + lenField.val ∧ off ≤ b.length :=
  parseInfoForSetBytes_spec b offset h0

/-- Witness of C40 on the bytes `[9, 2, 5, 6, 7]` at offset 1. -/
theorem C40_witness :
    (0 : Int) ≤ 1 ∧
      parseInfoForSetBytes [9, 2, 5, 6, 7] 1 = .returned (.ok [5, 6], 4) ∧
      parseInfoForSetBytes [9, 2, 5, 6, 7] 1 ≠ .panicked :=
  ⟨by decide, rfl, (C40_parseInfoForSetBytes_spec [9, 2, 5, 6, 7] 1 (by decide)).1⟩

end Incognito
